import Mathlib

/-!
# Velociraptor: third-party tool inventory and streaming client uploader

A shallow embedding of `services/inventory/inventory.go` and
`uploads/client_uploader.go`, followed by theorems about the embedded code.

Conventions of the embedding

* Go `int64` values are integers kept in range by `wrapInt64`; a conversion
  `uint64(x)` is `toUint64 x`.
* A Go `error` is an `Option Error`; `io.EOF` is the constructor `Error.EOF`.
* Pointers into the inventory list are modelled by position: the list owns its
  records (they are clones of the requests) and an update through the pointer
  is an update of the list at that position.
* Collaborators reached through interfaces (reader, context, responder,
  datastore, HTTP client, clock, parent inventory) are oracles: functions of
  an explicit state, so every run of the Go code is the run of the model for
  some oracle.
-/

/-! ## Machine integers -/

/-- The value of an `int64` computation whose exact result is `x`. -/
def wrapInt64 (x : Int) : Int := (x + 2 ^ 63) % 2 ^ 64 - 2 ^ 63

/-- The conversion `uint64(x)` of an `int64` (or `int`) value. -/
def toUint64 (x : Int) : Nat := (x % 2 ^ 64).toNat

/-- A Go error value: the sentinel `io.EOF` or any other error. -/
inductive Error where
  | EOF
  | msg (text : String)
deriving DecidableEq, Repr

namespace Inventory

/-! ## Data model of the inventory (artifacts_proto.Tool, ThirdParty) -/

/-- The scalar fields of `artifacts_proto.Tool`. -/
structure ToolDef where
  Name : String := ""
  Url : String := ""
  GithubProject : String := ""
  ServeUrl : String := ""
  Hash : String := ""
  Filename : String := ""
  FilestorePath : String := ""
  Artifact : String := ""
  ServeLocally : Bool := false
  AdminOverride : Bool := false
deriving DecidableEq, Repr

/-- The record `artifacts_proto.Tool`. Its `Versions` are the variants of the
same name; `AddTool` clears the field of every record before it stores it, so
a variant itself carries no further variants. -/
structure Tool extends ToolDef where
  Versions : List ToolDef := []
deriving DecidableEq, Repr

/-- Source: `isDefinitionBetter(old, new)`. -/
def isDefinitionBetter (old new : Tool) : Bool :=
  if new.AdminOverride then false
  else if old.AdminOverride then true
  else if old.Url == "" && old.GithubProject == "" && old.ServeUrl == "" then false
  else true

/-- The options `services.ToolOptions` of `AddTool`. -/
structure ToolOptions where
  Upgrade : Bool := false
  AdminOverride : Bool := false
  ArtifactDefinition : Bool := false
deriving DecidableEq, Repr

/-- The record `artifacts_proto.ThirdParty`, the inventory. -/
structure ThirdParty where
  Tools : List Tool := []
  Version : Nat := 0
deriving DecidableEq, Repr

/-- The part `config_obj.Client` of the configuration. -/
structure ClientConfig where
  ServerUrls : List String := []
deriving DecidableEq, Repr

/-- The parts of `config_proto.Config` the inventory reads. -/
structure Config where
  Client : Option ClientConfig := none
  OrgId : String := ""
deriving DecidableEq, Repr

/-- The text of an error, as `%v` prints it. -/
def errorText : Error → String
  | .EOF => "EOF"
  | .msg text => text

/-- The outcomes of the calls `materializeTool` makes outside the inventory,
in the order of the source. -/
structure Download where
  /-- Result of `getGithubRelease`: the URL and the error. -/
  github : String × Option Error := ("", none)
  /-- Error of `org_manager.GetOrgConfig(services.ROOT_ORG_ID)`. -/
  orgConfig : Option Error := none
  /-- Whether `file_store.GetFileStore` returns a file store. -/
  fileStore : Bool := true
  /-- Error of `file_store_factory.WriteFile`. -/
  writeFile : Option Error := none
  /-- Error of `fd.Truncate()`. -/
  truncate : Option Error := none
  /-- Error of `http.NewRequestWithContext`. -/
  newRequest : Option Error := none
  /-- Error of `self.Client.Do(request)`. -/
  doErr : Option Error := none
  /-- The fields `StatusCode` and `Status` of the response. -/
  StatusCode : Int := 200
  Status : String := "200 OK"
  /-- The bytes `utils.Copy` passed through the hasher. -/
  body : List UInt8 := []
  /-- Error of `utils.Copy` (body read error, write error, cancellation). -/
  copy : Option Error := none

/-- The collaborators of the inventory. A function of a `Nat` is consulted
with the field `tick` of the service, which every operation on the service
advances, so it can answer every call differently. -/
structure Env where
  /-- The function `paths.ObfuscateName`. -/
  ObfuscateName : Config → String → String
  /-- The function `path.Base`. -/
  pathBase : String → String
  /-- The digest `hex.EncodeToString(sha256 of the bytes)`. -/
  sha256hex : List UInt8 → String
  /-- The value `self.Clock.Now().UnixNano()`. -/
  now : Nat → Int
  /-- Error of `datastore.GetDB`. -/
  getDB : Nat → Option Error
  /-- Error of `db.SetSubject`. -/
  setSubject : Nat → Option Error
  /-- Result of `self.parent.ProbeToolInfo(ctx, config_obj, name)`. -/
  parentProbe : Nat → String → Except Error Tool
  /-- Outcomes of the calls of `materializeTool` for the given record. -/
  download : Nat → Config → Tool → Download

/-- The state of an `InventoryService`. `binaries` is never nil (the
constructor and `LoadFromFile` set it), so the guards `if self.binaries == nil`
do nothing. A missing key of the map `versions` is the empty list. -/
structure InventoryService where
  binaries : ThirdParty := {}
  versions : String → List Tool := fun _ => []
  /-- Whether `self.Client` is set. -/
  Client : Bool := true
  /-- Whether `self.parent` is set. -/
  parent : Bool := false
  /-- Number of operations on the service so far. -/
  tick : Nat := 0

/-- Source: `addAllVersions`. -/
def addAllVersions (s : InventoryService) (tool : Tool) : Tool :=
  { tool with Versions := (s.versions tool.Name).map (fun v => v.toToolDef) }

/-- The loop of `UpdateVersion`: the first variant with the artifact of the
request is replaced (the loop breaks there); the result says whether one was. -/
def replaceVersion (tool_request : Tool) : List Tool → List Tool × Bool
  | [] => ([], false)
  | v :: rest =>
    if v.Artifact == tool_request.Artifact then (tool_request :: rest, true)
    else ((replaceVersion tool_request rest).1.cons v, (replaceVersion tool_request rest).2)

/-- Source: `UpdateVersion`. The second result is `version_known`: when it is
true the list holds the request itself, not a clone. -/
def UpdateVersion (tool_request : Tool) (s : InventoryService) : InventoryService × Bool :=
  let r := replaceVersion tool_request (s.versions tool_request.Name)
  let versions := if !r.2 then r.1 ++ [tool_request] else r.1
  ({ s with versions := fun name =>
      if name == tool_request.Name then versions else s.versions name }, r.2)

/-- The loop "Replace the tool in the inventory" of `AddTool`: the first record
with the name of `tool` is replaced (the loop breaks there); the result says
whether one was found. -/
def replaceTool (tool : Tool) : List Tool → List Tool × Bool
  | [] => ([], false)
  | item :: rest =>
    if item.Name == tool.Name then (tool :: rest, true)
    else ((replaceTool tool rest).1.cons item, (replaceTool tool rest).2)

/-- The end of `AddTool`, "Replace the tool in the inventory": the record
replaces the first one of its name, or is appended when there is none. -/
def storeTool (tool : Tool) (tools : List Tool) : List Tool :=
  if !(replaceTool tool tools).2 then (replaceTool tool tools).1 ++ [tool]
  else (replaceTool tool tools).1

/-- The server URLs of the configuration: `config_obj.Client.ServerUrls`, and
none when `config_obj.Client` is nil. -/
def serverUrls (config_obj : Config) : List String :=
  match config_obj.Client with
  | none => []
  | some client => client.ServerUrls

/-- The copy `AddTool` works on: the clone of the request with its
`FilestorePath`, and with `ServeLocally` cleared when there is no client
configuration. -/
def cloneRequest (env : Env) (config_obj : Config) (tool_request : Tool) : Tool :=
  let tool : Tool :=
    { tool_request with FilestorePath := env.ObfuscateName config_obj tool_request.Name }
  if tool.ServeLocally && config_obj.Client.isNone then { tool with ServeLocally := false }
  else tool

/-- The assignments of `AddTool` to `ServeUrl` and `Filename` of the copy,
once the server URLs are known to be there if needed. -/
def completeTool (env : Env) (config_obj : Config) (tool : Tool) : Tool :=
  let tool :=
    if tool.ServeLocally then
      { tool with
        ServeUrl := (serverUrls config_obj).headD "" ++ "public/" ++ tool.FilestorePath }
    else tool
  if tool.Filename == "" && tool.Url != "" then { tool with Filename := env.pathBase tool.Url }
  else tool

/-- The request after `if opts.AdminOverride { tool_request.AdminOverride = true }`. -/
def markAdmin (opts : ToolOptions) (tool_request : Tool) : Tool :=
  if opts.AdminOverride then { tool_request with AdminOverride := true } else tool_request

/-- The map `versions` after the assignment `tool_request.AdminOverride = true`
when the map holds the request itself at that point (`aliased`):
`UpdateVersion` stored the request, not a clone, and no variant of a parent
has taken its place since. The stored variant is then the request, so it
changes with it. -/
def aliasVersions (tool_request : Tool) (opts : ToolOptions) (aliased : Bool)
    (versions : String → List Tool) : String → List Tool :=
  if opts.AdminOverride && aliased then
    fun name =>
      if name == tool_request.Name
      then (replaceVersion tool_request (versions tool_request.Name)).1
      else versions name
  else versions

/-- The part of `AddTool` from `if opts.AdminOverride` to the end. `aliased`
says that `UpdateVersion` stored the request itself in the map `versions`.
Whatever the datastore answers, the call returns nil: without a datastore the
inventory is not written, and a failed write is logged as a warning. -/
def addToolBody (env : Env) (config_obj : Config) (tool_request : Tool) (opts : ToolOptions)
    (aliased : Bool) (s : InventoryService) : InventoryService × Option Error :=
  let tool_request := markAdmin opts tool_request
  let s := { s with versions := aliasVersions tool_request opts aliased s.versions,
                    tick := s.tick + 1 }
  let t := s.tick - 1
  let tool := cloneRequest env config_obj tool_request
  if tool.ServeLocally && (serverUrls config_obj).length == 0 then
    (s, some (.msg "No server URLs configured!"))
  else
    let tool := completeTool env config_obj tool
    ({ s with binaries := { Tools := storeTool tool s.binaries.Tools,
                            Version := toUint64 (env.now t) } },
      match env.getDB t with
      | some _ => none
      | none =>
        match env.setSubject t with
        | some _ => none
        | none => none)

/-- Source: `AddTool`, with the call of `self.ProbeToolInfo` for the name of
the request as the argument `probe` (`none` is a call that does not return).
`evicts` says whether that call, made on the given store, puts a variant of a
parent in the place `UpdateVersion` gave the request in the map `versions`;
the request is then no longer the stored variant when its `AdminOverride` is
assigned. The datastore only decides whether a warning is logged: the call
returns nil whether or not `GetDB` and `SetSubject` succeed. -/
def AddToolWith (probe : InventoryService → Option (InventoryService × Except Error Tool))
    (evicts : InventoryService → Bool)
    (env : Env) (config_obj : Config) (tool_request : Tool) (opts : ToolOptions)
    (s : InventoryService) : Option (InventoryService × Option Error) :=
  let tool_request := { tool_request with Versions := [] }
  let u := if opts.ArtifactDefinition then UpdateVersion tool_request s else (s, false)
  if opts.Upgrade then
    match probe u.1 with
    | none => none
    | some (s, .ok existing_tool) =>
      if isDefinitionBetter existing_tool tool_request then some (s, none)
      else some (addToolBody env config_obj tool_request opts (u.2 && !evicts u.1) s)
    | some (s, .error _) =>
      some (addToolBody env config_obj tool_request opts (u.2 && !evicts u.1) s)
  else some (addToolBody env config_obj tool_request opts u.2 u.1)

/-- The loop over `tool.Versions` in `ProbeToolInfo`: every variant of the
parent is added with `ArtifactDefinition`; the errors are dropped. -/
def ingestVersions (addTool : Tool → InventoryService → Option (InventoryService × Option Error)) :
    List ToolDef → InventoryService → Option InventoryService
  | [], s => some s
  | v :: rest, s =>
    match addTool { toToolDef := v } s with
    | none => none
    | some (s, _) => ingestVersions addTool rest s

/-- Source: `ProbeToolInfo`. The source calls itself after it has added the
variants of the parent and has no bound on these calls; `fuel` bounds their
depth, and `none` is a call that needs more. The variants are added without
the option `Upgrade`, so these calls of `AddTool` make no call of
`ProbeToolInfo` that could put a variant in the place of their request. -/
def ProbeToolInfo (env : Env) (config_obj : Config) (name : String) :
    Nat → InventoryService → Option (InventoryService × Except Error Tool)
  | 0, _ => none
  | fuel + 1, s =>
    match s.binaries.Tools.find? (fun tool => tool.Name == name) with
    | some tool => some (s, .ok (addAllVersions s tool))
    | none =>
      if s.parent then
        match env.parentProbe s.tick name with
        | .ok tool =>
          match ingestVersions
              (fun v s => AddToolWith (ProbeToolInfo env config_obj v.Name fuel)
                (fun _ => false) env config_obj v { ArtifactDefinition := true } s)
              tool.Versions { s with tick := s.tick + 1 } with
          | none => none
          | some s => ProbeToolInfo env config_obj name fuel s
        | .error _ => some ({ s with tick := s.tick + 1 }, .error (.msg "Not Found"))
      else some (s, .error (.msg "Not Found"))

/-- Whether the loop over the variants of a parent in `ProbeToolInfo` puts one
of them in the place of the request in the map `versions`: `UpdateVersion`
replaces the first variant of the name that has the artifact, which is the
request when `UpdateVersion` stored it before. -/
def evictedByVariants (tool_request : Tool) (vs : List ToolDef) : Bool :=
  vs.any (fun v => v.Name == tool_request.Name && v.Artifact == tool_request.Artifact)

/-- Whether the call of `ProbeToolInfo` for the name of the request, with the
same arguments, puts a variant of a parent in the place of the request in the
map `versions`, at any depth of its calls of itself. -/
def probeEvicts (env : Env) (config_obj : Config) (tool_request : Tool) :
    Nat → InventoryService → Bool
  | 0, _ => false
  | fuel + 1, s =>
    match s.binaries.Tools.find? (fun tool => tool.Name == tool_request.Name) with
    | some _ => false
    | none =>
      if s.parent then
        match env.parentProbe s.tick tool_request.Name with
        | .ok tool =>
          evictedByVariants tool_request tool.Versions ||
            match ingestVersions
                (fun v s => AddToolWith (ProbeToolInfo env config_obj v.Name fuel)
                  (fun _ => false) env config_obj v { ArtifactDefinition := true } s)
                tool.Versions { s with tick := s.tick + 1 } with
            | none => false
            | some s => probeEvicts env config_obj tool_request fuel s
        | .error _ => false
      else false

/-- Source: `AddTool`; `fuel` bounds the depth of the calls of `ProbeToolInfo`. -/
def AddTool (env : Env) (fuel : Nat) (config_obj : Config) (tool_request : Tool)
    (opts : ToolOptions) (s : InventoryService) : Option (InventoryService × Option Error) :=
  AddToolWith (ProbeToolInfo env config_obj tool_request.Name fuel)
    (probeEvicts env config_obj tool_request fuel) env config_obj tool_request opts s

/-- Source: `RemoveTool`. -/
def RemoveTool (env : Env) (tool_name : String) (s : InventoryService) :
    InventoryService × Option Error :=
  let tools := s.binaries.Tools.filter (fun item => item.Name != tool_name)
  let s' := { s with binaries := { s.binaries with Tools := tools }, tick := s.tick + 1 }
  match env.getDB s.tick with
  | some err => (s', some err)
  | none => (s', env.setSubject s.tick)

/-- Source: `materializeTool`, as a function of the record `tool` points to:
the record afterwards and the error returned. `client` is
`self.Client != nil` and `t` the tick of the operation. -/
def materializeTool (env : Env) (client : Bool) (t : Nat) (org_config_obj : Config)
    (tool : Tool) : Tool × Option Error :=
  if !client then (tool, some (.msg "Client not configured"))
  else
    let d := env.download t org_config_obj tool
    let afterGithub : Tool × Option Error :=
      if tool.GithubProject != "" then
        let tool := { tool with Url := d.github.1 }
        match d.github.2 with
        | some err =>
          (tool, some (.msg ("While resolving github release " ++ tool.GithubProject ++
            ": " ++ errorText err ++ " ")))
        | none =>
          if tool.Filename == "" then
            if tool.Url != "" then ({ tool with Filename := env.pathBase tool.Url }, none)
            else ({ tool with Filename := env.pathBase tool.ServeUrl }, none)
          else (tool, none)
      else (tool, none)
    match afterGithub with
    | (tool, some err) => (tool, some err)
    | (tool, none) =>
      if tool.Url == "" then
        (tool, some (.msg ("Tool " ++ tool.Name ++ " has no url defined - upload it manually.")))
      else if d.orgConfig.isSome then (tool, d.orgConfig)
      else if !d.fileStore then (tool, some (.msg "No filestore configured"))
      else if d.writeFile.isSome then (tool, d.writeFile)
      else if d.truncate.isSome then (tool, d.truncate)
      else if d.newRequest.isSome then (tool, d.newRequest)
      else if d.doErr.isSome then (tool, d.doErr)
      else if d.StatusCode != 200 then
        (tool, some (.msg ("Unable to download file from " ++ tool.Url ++ ": " ++ d.Status)))
      else
        let tool := if d.copy.isNone then { tool with Hash := env.sha256hex d.body } else tool
        if tool.ServeLocally && (serverUrls org_config_obj).length == 0 then
          (tool, some (.msg "No server URLs configured!"))
        else
          let tool :=
            if tool.ServeLocally then
              { tool with
                ServeUrl :=
                  (serverUrls org_config_obj).headD "" ++ "public/" ++ tool.FilestorePath }
            else { tool with ServeUrl := tool.Url }
          match env.getDB t with
          | some err => (tool, some err)
          | none => (tool, env.setSubject t)

/-- The loop of `GetToolInfo` over `self.binaries.Tools`: the first record with
the name is materialized when its hash is empty; the list afterwards, and the
record found (with the error of `materializeTool`), if any. -/
def getToolLoop (env : Env) (client : Bool) (t : Nat) (config_obj : Config) (tool : String) :
    List Tool → List Tool × Option (Tool × Option Error)
  | [] => ([], none)
  | item :: rest =>
    if item.Name == tool then
      if item.Hash == "" then
        let m := materializeTool env client t config_obj item
        (m.1 :: rest, some m)
      else (item :: rest, some (item, none))
    else
      let r := getToolLoop env client t config_obj tool rest
      (item :: r.1, r.2)

/-- Source: `GetToolInfo`. -/
def GetToolInfo (env : Env) (config_obj : Config) (tool : String) (s : InventoryService) :
    InventoryService × Except Error Tool :=
  let r := getToolLoop env s.Client s.tick config_obj tool s.binaries.Tools
  let s' := { s with binaries := { s.binaries with Tools := r.1 }, tick := s.tick + 1 }
  match r.2 with
  | some (_, some err) => (s', .error err)
  | some (item, none) => (s', .ok (addAllVersions s' item))
  | none => (s', .error (.msg ("Tool " ++ tool ++ " not declared in inventory.")))

/-- One call of the public interface in a sequence of calls. -/
inductive Call where
  | addTool (fuel : Nat) (config_obj : Config) (tool_request : Tool) (opts : ToolOptions)
  | removeTool (tool_name : String)

/-- The service after the call; `none` when the call does not return within
its fuel. -/
def runCall (env : Env) (s : InventoryService) : Call → Option InventoryService
  | .addTool fuel config_obj tool_request opts =>
    (AddTool env fuel config_obj tool_request opts s).map (fun r => r.1)
  | .removeTool tool_name => some (RemoveTool env tool_name s).1

/-- The service after the calls, made one after the other. -/
def runCalls (env : Env) : List Call → InventoryService → Option InventoryService
  | [], s => some s
  | c :: rest, s =>
    match runCall env s c with
    | none => none
    | some s => runCalls env rest s

/-- The names of the records of the inventory list, in order. -/
def toolNames (s : InventoryService) : List String :=
  s.binaries.Tools.map (fun tool => tool.Name)

/-! ### Concrete collaborators and stores -/

/-- The function `path.Base` of the Go standard library: the last element of
the path, after the trailing slashes are removed; "." for the empty path and
"/" for a path of slashes only. -/
def Base (path : String) : String :=
  if path == "" then "."
  else
    let rev := path.toList.reverse.dropWhile (fun c => c == '/')
    let last := rev.takeWhile (fun c => c != '/')
    if last.isEmpty then "/" else String.mk last.reverse

/-- Collaborators that never fail: the datastore stores, the download answers
200 with the body "ABC", the parent knows no tool. `sha` is the digest. -/
def plainEnv (sha : List UInt8 → String) : Env :=
  { ObfuscateName := fun config_obj name => config_obj.OrgId ++ "/" ++ name,
    pathBase := Base,
    sha256hex := sha,
    now := fun t => t + 1,
    getDB := fun _ => none,
    setSubject := fun _ => none,
    parentProbe := fun _ _ => .error (.msg "Not Found"),
    download := fun _ _ _ => { body := [65, 66, 67] } }

/-- Like `plainEnv`, with a parent that has every tool in its inventory and no
variant of it in its version map: its `ProbeToolInfo` returns the record with
an empty `Versions`. -/
def parentWithoutVersions (sha : List UInt8 → String) : Env :=
  { plainEnv sha with parentProbe := fun _ name => .ok { Name := name } }

/-- Like `plainEnv`, with a datastore whose `SetSubject` fails. -/
def failingDatastore (sha : List UInt8 → String) : Env :=
  { plainEnv sha with setSubject := fun _ => some (.msg "datastore failure") }

/-- Like `plainEnv`, with a download whose copy of the body fails after the
status 200 (`utils.Copy` returns an error). -/
def failingCopy (sha : List UInt8 → String) : Env :=
  { plainEnv sha with
    download := fun _ _ _ => { body := [65], copy := some (.msg "unexpected EOF") } }

/-- A store whose inventory holds one untracked tool with a URL. -/
def untrackedStore : InventoryService :=
  { binaries := { Tools := [{ Name := "autoruns", Url := "http://x/a.exe" }] } }

/-- Whether `AddTool` returns at "Ignore the request if the existing definition
is better than the new one", without reaching the inventory; `probe` is the
call of `self.ProbeToolInfo` as in `AddToolWith`. -/
def skippedByUpgrade (probe : InventoryService → Option (InventoryService × Except Error Tool))
    (tool_request : Tool) (opts : ToolOptions) (s : InventoryService) : Bool :=
  opts.Upgrade &&
    match probe (if opts.ArtifactDefinition
        then UpdateVersion { tool_request with Versions := [] } s else (s, false)).1 with
    | some (_, .ok existing_tool) =>
      isDefinitionBetter existing_tool { tool_request with Versions := [] }
    | _ => false

/-- One call of the public interface, `GetToolInfo` included. -/
inductive Op where
  | addTool (fuel : Nat) (config_obj : Config) (tool_request : Tool) (opts : ToolOptions)
  | removeTool (tool_name : String)
  | getToolInfo (config_obj : Config) (tool : String)

/-- The service after the call; `none` when the call does not return within
its fuel. -/
def runOp (env : Env) (s : InventoryService) : Op → Option InventoryService
  | .addTool fuel config_obj tool_request opts =>
    (AddTool env fuel config_obj tool_request opts s).map (fun r => r.1)
  | .removeTool tool_name => some (RemoveTool env tool_name s).1
  | .getToolInfo config_obj tool => some (GetToolInfo env config_obj tool s).1

/-- The service after the calls, made one after the other. -/
def runOps (env : Env) : List Op → InventoryService → Option InventoryService
  | [], s => some s
  | op :: rest, s =>
    match runOp env s op with
    | none => none
    | some s => runOps env rest s

/-- A store whose inventory holds the record X set by the admin. -/
def adminStore : InventoryService :=
  { binaries := { Tools := [{ Name := "X", AdminOverride := true }] } }

/-- Like `plainEnv`, with a clock that stands still. -/
def pinnedClock (sha : List UInt8 → String) : Env :=
  { plainEnv sha with now := fun _ => 5 }

/-- A store whose inventory holds one untracked tool with a URL that is served
locally, as `AddTool` stores it with the server URL https://s/. -/
def servedLocallyStore : InventoryService :=
  { binaries :=
      { Tools := [{ Name := "autoruns", Url := "http://x/a.exe", ServeLocally := true,
                    FilestorePath := "/autoruns",
                    ServeUrl := "https://s/public//autoruns" }] } }

/-- A record that is tracked, or served locally, names the URL it is served
from. -/
def Servable (tool : Tool) : Prop :=
  (tool.Hash ≠ "" → tool.ServeUrl ≠ "") ∧ (tool.ServeLocally = true → tool.ServeUrl ≠ "")

/-- Every record of the inventory list is `Servable`. -/
def AllServable (s : InventoryService) : Prop :=
  ∀ tool ∈ s.binaries.Tools, Servable tool

/-- The call is not an `AddTool` whose request has a hash and no serve URL. -/
def opServable : Op → Prop
  | .addTool _ _ tool_request _ => tool_request.Hash = "" ∨ tool_request.ServeUrl ≠ ""
  | _ => True

/-- The first part of `materializeTool`, "If we are downloading from github we
have to resolve and verify the binary URL now": the record afterwards and the
error, `d` being the outcomes of the calls outside the inventory. -/
def resolveGithub (env : Env) (d : Download) (tool : Tool) : Tool × Option Error :=
  if tool.GithubProject != "" then
    let tool := { tool with Url := d.github.1 }
    match d.github.2 with
    | some err =>
      (tool, some (.msg ("While resolving github release " ++ tool.GithubProject ++
        ": " ++ errorText err ++ " ")))
    | none =>
      if tool.Filename == "" then
        if tool.Url != "" then ({ tool with Filename := env.pathBase tool.Url }, none)
        else ({ tool with Filename := env.pathBase tool.ServeUrl }, none)
      else (tool, none)
  else (tool, none)

/-- The second part of `materializeTool`, from "We have no idea where the file
is" to the end. -/
def fetchTool (env : Env) (t : Nat) (org_config_obj : Config) (d : Download) (tool : Tool) :
    Tool × Option Error :=
  if tool.Url == "" then
    (tool, some (.msg ("Tool " ++ tool.Name ++ " has no url defined - upload it manually.")))
  else if d.orgConfig.isSome then (tool, d.orgConfig)
  else if !d.fileStore then (tool, some (.msg "No filestore configured"))
  else if d.writeFile.isSome then (tool, d.writeFile)
  else if d.truncate.isSome then (tool, d.truncate)
  else if d.newRequest.isSome then (tool, d.newRequest)
  else if d.doErr.isSome then (tool, d.doErr)
  else if d.StatusCode != 200 then
    (tool, some (.msg ("Unable to download file from " ++ tool.Url ++ ": " ++ d.Status)))
  else
    let tool := if d.copy.isNone then { tool with Hash := env.sha256hex d.body } else tool
    if tool.ServeLocally && (serverUrls org_config_obj).length == 0 then
      (tool, some (.msg "No server URLs configured!"))
    else
      let tool :=
        if tool.ServeLocally then
          { tool with
            ServeUrl :=
              (serverUrls org_config_obj).headD "" ++ "public/" ++ tool.FilestorePath }
        else { tool with ServeUrl := tool.Url }
      match env.getDB t with
      | some err => (tool, some err)
      | none => (tool, env.setSubject t)

/-- Whether `AddTool` for the variant passes the check "No server URLs
configured!": the variant is not served locally, or there is no client
configuration (then `ServeLocally` is cleared), or there is a server URL. -/
def ingestible (config_obj : Config) (v : ToolDef) : Bool :=
  !(v.ServeLocally && config_obj.Client.isSome && (serverUrls config_obj).length == 0)

/-- The record a parent store returns for "mimikatz": two variants, declared by
the artifacts "Windows.Mimikatz" and "Linux.Mimikatz". -/
def mimikatzOfParent : Tool :=
  { Name := "mimikatz", Url := "http://x/mimikatz.zip",
    Versions := [
      { Name := "mimikatz", Url := "http://x/mimikatz.zip", Artifact := "Windows.Mimikatz" },
      { Name := "mimikatz", Url := "http://x/mimikatz.tgz", Artifact := "Linux.Mimikatz" }] }

/-- Like `plainEnv`, with a parent that has "mimikatz" with the two variants of
`mimikatzOfParent` and no other tool. -/
def parentWithMimikatz (sha : List UInt8 → String) : Env :=
  { plainEnv sha with
    parentProbe := fun _ name =>
      if name == "mimikatz" then .ok mimikatzOfParent else .error (.msg "Not Found") }

/-- A child store with a parent and nothing in its inventory. -/
def childStore : InventoryService :=
  { parent := true }

/-- The shape `UpdateVersion` gives the map `versions`: the variants under a
name carry that name, and no two of them the same declaring artifact. -/
def VersionsKeyed (versions : String → List Tool) : Prop :=
  ∀ name, (∀ t ∈ versions name, t.Name = name) ∧
    ((versions name).map (fun t => t.Artifact)).Nodup

/-- The store with which `AddTool` goes on after `if opts.ArtifactDefinition`:
the store after `UpdateVersion` when the option is set. It is the store on
which `AddTool` calls `self.ProbeToolInfo` under the option `Upgrade`. -/
def probedStore (tool_request : Tool) (opts : ToolOptions) (s : InventoryService) :
    InventoryService :=
  (if opts.ArtifactDefinition then UpdateVersion { tool_request with Versions := [] } s
   else (s, false)).1

/-- Whether `AddTool` returns "No server URLs configured!" for the request: it
asks to be served locally, there is a client configuration (or `ServeLocally`
is cleared), and the configuration has no server URL. -/
def rejectedForUrls (config_obj : Config) (tool_request : Tool) : Bool :=
  tool_request.ServeLocally && config_obj.Client.isSome && (serverUrls config_obj).length == 0

/-- The record `AddTool` puts in the inventory for the request: the clone of
the request with `Versions` cleared and `AdminOverride` set under the option,
with its `FilestorePath`, `ServeUrl` and `Filename`. -/
def storedRecord (env : Env) (config_obj : Config) (tool_request : Tool) (opts : ToolOptions) :
    Tool :=
  completeTool env config_obj
    (cloneRequest env config_obj (markAdmin opts { tool_request with Versions := [] }))

/-- The inventory list `new` is the list `old`, or the list `old` after a
record of the name was stored in it. -/
def StoredAt (name : String) (old new : List Tool) : Prop :=
  new = old ∨ ∃ x : Tool, x.Name = name ∧ new = storeTool x old

/-- A store whose inventory holds the records a, x and b, in this order. -/
def threeTools : InventoryService :=
  { binaries := { Tools := [{ Name := "a" }, { Name := "x", Url := "http://x/old" },
                            { Name := "b" }] } }

/-- Whether the call of `ProbeToolInfo` that `AddTool` makes for the name under
the option `Upgrade` gets a record from the parent, whose variants it then
adds to the store: there is a parent, the inventory has no record of the name,
and the parent answers without an error. -/
def ingestsVariants (env : Env) (name : String) (opts : ToolOptions) (s : InventoryService) :
    Bool :=
  opts.Upgrade && s.parent &&
    (s.binaries.Tools.find? (fun tool => tool.Name == name)).isNone &&
    (match env.parentProbe s.tick name with
     | .ok _ => true
     | .error _ => false)

/-- The variant the map `versions` holds for the request after `AddTool` with
the option `ArtifactDefinition`: the request with `Versions` cleared. When the
request took the place of a variant (`known`), the map holds the request
itself, so it also shows the later assignment `tool_request.AdminOverride =
true`, which a call that returns under the upgrade rule (`skipped`) does not
reach. -/
def storedVariant (tool_request : Tool) (opts : ToolOptions) (known skipped : Bool) : Tool :=
  if opts.AdminOverride && known && !skipped
  then { tool_request with Versions := [], AdminOverride := true }
  else { tool_request with Versions := [] }

/-- A store whose map `versions` holds one variant of X, declared by the
artifact A. -/
def oneVariant : InventoryService :=
  { versions := fun name => if name == "X" then [{ Name := "X", Artifact := "A" }] else [] }

/-- A child store with a parent whose map `versions` holds one variant of
"mimikatz", declared by the artifact "Windows.Mimikatz", and whose inventory
has no record of it. -/
def childWithVariant : InventoryService :=
  { parent := true,
    versions := fun name =>
      if name == "mimikatz"
      then [{ Name := "mimikatz", Artifact := "Windows.Mimikatz" }] else [] }

/-- Like `plainEnv`, with a parent that has every tool with one variant,
declared by the artifact A, without a URL. -/
def parentWithBareVariant (sha : List UInt8 → String) : Env :=
  { plainEnv sha with
    parentProbe := fun _ name =>
      .ok { Name := name, Versions := [{ Name := name, Artifact := "A" }] } }

end Inventory

namespace Uploads

/-! ## Data model of the uploader -/

/-- The record `uploads.Range` returned by `RangeReader.Ranges()`. -/
structure Range where
  Offset : Int
  Length : Int
  IsSparse : Bool
deriving DecidableEq, Repr

/-- The record `actions_proto.Range`, one entry of the sparse index. -/
structure IndexRange where
  FileOffset : Int
  OriginalOffset : Int
  FileLength : Int
  Length : Int
deriving DecidableEq, Repr

/-- The variables the first loop of `maybeUploadSparse` maintains. -/
structure Scan where
  index : List IndexRange := []
  expected_size : Int := 0
  real_size : Int := 0
  is_sparse : Bool := false
deriving DecidableEq, Repr

/-- One iteration of the loop "Inspect the ranges and prepare an index". -/
def scanStep (s : Scan) (rng : Range) : Scan :=
  let file_length := if rng.IsSparse then 0 else rng.Length
  { index := s.index ++ [{ FileOffset := s.expected_size,
                           OriginalOffset := rng.Offset,
                           FileLength := file_length,
                           Length := rng.Length }],
    expected_size :=
      if !rng.IsSparse then wrapInt64 (s.expected_size + rng.Length) else s.expected_size,
    is_sparse := if !rng.IsSparse then s.is_sparse else true,
    real_size :=
      if s.real_size < wrapInt64 (rng.Offset + rng.Length)
      then wrapInt64 (rng.Offset + rng.Length) else s.real_size }

/-- The loop "Inspect the ranges and prepare an index" of `maybeUploadSparse`. -/
def scanRanges (ranges : List Range) : Scan :=
  ranges.foldl scanStep {}

/-- The exact sum of the lengths of the ranges that are not holes. -/
def sumNonSparse (ranges : List Range) : Int :=
  ((ranges.filter (fun r => !r.IsSparse)).map (fun r => r.Length)).sum

/-- A byte string. -/
abbrev Bytes := List UInt8

/-- The value `accessors.OSPath`: the result of `String()` and the components. -/
structure OSPath where
  Path : String
  Components : List String
deriving DecidableEq, Repr

/-- The record `actions_proto.PathSpec`. -/
structure PathSpec where
  Path : String := ""
  Components : List String := []
  Accessor : String := ""
deriving DecidableEq, Repr

/-- The record `actions_proto.FileBuffer`, one packet of an upload. A field the
source leaves out of a literal has the zero value. -/
structure FileBuffer where
  Pathspec : PathSpec := {}
  Offset : Nat := 0
  Size : Nat := 0
  StoredSize : Nat := 0
  IsSparse : Bool := false
  Index : Option (List IndexRange) := none
  Mtime : Int := 0
  Atime : Int := 0
  Ctime : Int := 0
  Btime : Int := 0
  Data : Bytes := []
  UploadNumber : Int := 0
  Eof : Bool := false
deriving DecidableEq, Repr

/-- The record `uploads.UploadResponse`. -/
structure UploadResponse where
  Path : String := ""
  StoredName : String := ""
  Accessor : String := ""
  Components : List String := []
  Size : Nat := 0
  StoredSize : Nat := 0
  Sha256 : String := ""
  Md5 : String := ""
deriving DecidableEq, Repr

/-- The digests the uploader takes from the standard library:
`hex.EncodeToString(h.Sum(nil))` after the bytes `b` were written to `h`. -/
structure Digests where
  sha256hex : Bytes → String
  md5hex : Bytes → String

/-- The methods `Ranges` and `Seek` of a reader that satisfies `RangeReader`;
`Seek s off` is `Seek(off, io.SeekStart)` in reader state `s`. -/
structure RangeReader (σ : Type) where
  Ranges : σ → List Range
  Seek : σ → Int → σ × Option Error

/-- An `io.Reader` with state `σ`. `Read s n` is a call of `Read` with a buffer
of length `n` in state `s`: the new state, the bytes it put at the start of
the buffer (their number is `read_bytes`) and the error it returned.
`asRangeReader` is the result of the type assertion `reader.(RangeReader)`. -/
structure Reader (σ : Type) where
  Read : σ → Nat → σ × Bytes × Option Error
  asRangeReader : Option (RangeReader σ)

/-- Everything a call of `Upload` can change or observe, besides its
arguments. -/
structure World (σ : Type) where
  /-- State of the reader. -/
  reader : σ
  /-- Responder queue: the `FileBuffer` of every message passed to
  `AddResponse`, oldest first (each message has
  `RequestId = constants.TransferWellKnownFlowId`). -/
  responses : List FileBuffer := []
  /-- The value the next `Responder.NextUploadId()` returns. -/
  next_upload_id : Int := 0
  /-- The upload cache of the scope, newest first. -/
  cached : List (String × UploadResponse) := []
  /-- The context: `none` is a context that is never cancelled, `some k` one
  that is cancelled after `k` more checks of `ctx.Done()` find it open. -/
  ctx : Option Nat := none
  /-- The field `VelociraptorUploader.Count`. -/
  Count : Int := 0
  /-- The package variable `BUFF_SIZE`. -/
  BUFF_SIZE : Int := 1024 * 1024

/-- Modelled from the spec: `DeduplicateUploads` (its source is not part of the
files at hand). "Consult the UploadDeduplicator; if a cached response for
`store_as_name` exists in the current scope, return it": a cache per scope,
keyed by the store-as-name. -/
def DeduplicateUploads (cache : List (String × UploadResponse)) (store_as_name : OSPath) :
    Option UploadResponse :=
  (cache.find? (fun kv => kv.1 == store_as_name.Path)).map (fun kv => kv.2)

/-- Modelled from the spec: `CacheUploadResult` (its source is not part of the
files at hand) records the response under the store-as-name in the cache of
the scope. -/
def CacheUploadResult {σ : Type} (w : World σ) (store_as_name : OSPath)
    (result : UploadResponse) : World σ :=
  { w with cached := (store_as_name.Path, result) :: w.cached }

/-- The call `self.Responder.AddResponse(...)` with the given packet. -/
def AddResponse {σ : Type} (w : World σ) (packet : FileBuffer) : World σ :=
  { w with responses := w.responses ++ [packet] }

/-- The test `case <-ctx.Done()` of the `select` statements. -/
def ctxDone {σ : Type} (w : World σ) : Bool :=
  w.ctx == some 0

/-- The context after a check that found it open. -/
def ctxTick {σ : Type} (w : World σ) : World σ :=
  { w with ctx := w.ctx.map (fun k => k - 1) }

/-- How a function leaves other than by returning a value. -/
inductive Abort where
  /-- The statement `return nil, e`. -/
  | err (e : Error)
  /-- A run-time panic (slice bounds out of range, negative `make` length). -/
  | panic
deriving DecidableEq, Repr

/-- The local variables of the second loop of `maybeUploadSparse`; a hasher is
the bytes written to it so far. -/
structure Vars where
  read_offset : Int := 0
  write_offset : Int := 0
  sha_sum : Bytes := []
  md5_sum : Bytes := []
deriving DecidableEq, Repr

/-- The constant part of the packets of one sparse upload. -/
structure Header where
  Pathspec : PathSpec
  Size : Nat
  StoredSize : Nat
  IsSparse : Bool
  Mtime : Int
  UploadNumber : Int

/-- Where one iteration of the loop `for to_read > 0` leaves the function. -/
inductive Step (σ : Type) where
  /-- Back to the loop test with these values of `to_read` and the variables. -/
  | next (to_read : Int) (w : World σ) (v : Vars)
  /-- The iteration leaves `maybeUploadSparse`. -/
  | stop (w : World σ) (a : Abort)

/-- The length `to_read_buf` of the buffer of one read of the sparse path:
`to_read`, cut to `BUFF_SIZE`. -/
def readSize (to_read BUFF_SIZE : Int) : Int :=
  if to_read > BUFF_SIZE then BUFF_SIZE else to_read

/-- The body of the loop `for to_read > 0` of `maybeUploadSparse`. -/
def sendChunk {σ : Type} (rd : Reader σ) (hdr : Header) (to_read : Int) (w : World σ)
    (v : Vars) : Step σ :=
  let to_read_buf := readSize to_read w.BUFF_SIZE
  if to_read_buf < 0 then .stop w .panic
  else
    let r := rd.Read w.reader to_read_buf.toNat
    let w := { w with reader := r.1 }
    let read_bytes := r.2.1.length
    match r.2.2 with
    | some (.msg e) => .stop w (.err (.msg e))
    | err =>
      if read_bytes == 0 || err == some .EOF then .next 0 w v
      else if read_bytes > to_read_buf.toNat then .stop w .panic
      else
        let data := r.2.1
        let v := { v with sha_sum := v.sha_sum ++ data, md5_sum := v.md5_sum ++ data }
        let packet : FileBuffer :=
          { Pathspec := hdr.Pathspec,
            Offset := toUint64 v.write_offset,
            Size := hdr.Size,
            StoredSize := hdr.StoredSize,
            IsSparse := hdr.IsSparse,
            Mtime := hdr.Mtime,
            Data := data,
            UploadNumber := hdr.UploadNumber }
        if ctxDone w then .stop w (.err (.msg "Cancelled!"))
        else
          .next (wrapInt64 (to_read - read_bytes)) (AddResponse (ctxTick w) packet)
            { v with write_offset := wrapInt64 (v.write_offset + read_bytes),
                     read_offset := wrapInt64 (v.read_offset + read_bytes) }

/-- The loop `for to_read > 0` of `maybeUploadSparse`. Every iteration that
comes back to the loop test with `to_read > 0` has lowered `to_read` by at
least one, so the first argument, an upper bound of `to_read`, is not used up
before the loop ends (`sendRange_fuel`). -/
def sendRange {σ : Type} (rd : Reader σ) (hdr : Header) :
    Nat → Int → World σ → Vars → World σ × Except Abort Vars
  | 0, _, w, v => (w, .ok v)
  | fuel + 1, to_read, w, v =>
    if to_read > 0 then
      match sendChunk rd hdr to_read w v with
      | .next to_read w v => sendRange rd hdr fuel to_read w v
      | .stop w a => (w, .error a)
    else (w, .ok v)

/-- The loop "Send each range separately" of `maybeUploadSparse`. -/
def sendRanges {σ : Type} (rd : Reader σ) (rr : RangeReader σ) (hdr : Header) :
    List Range → World σ → Vars → World σ × Except Abort Vars
  | [], w, v => (w, .ok v)
  | rng :: rest, w, v =>
    if rng.IsSparse then sendRanges rd rr hdr rest w v
    else
      let to_read := rng.Length
      let v := { v with read_offset := rng.Offset }
      let s := rr.Seek w.reader v.read_offset
      let w := { w with reader := s.1 }
      match s.2 with
      | some e => (w, .error (.err e))
      | none =>
        match sendRange rd hdr to_read.toNat to_read w v with
        | (w, .ok v) => sendRanges rd rr hdr rest w v
        | (w, .error a) => (w, .error a)

/-- The index a packet carries: `if !is_sparse { index = nil }`. -/
def packetIndex (s : Scan) : Option (List IndexRange) :=
  if !s.is_sparse then none else some s.index

/-- Source: `VelociraptorUploader.maybeUploadSparse`. The times are the values
of `UnixNano()`. -/
def maybeUploadSparse {σ : Type} (dg : Digests) (rd : Reader σ) (filename : OSPath)
    (accessor : String) (store_as_name : Option OSPath) (mtime : Int) (upload_id : Int)
    (w : World σ) : World σ × Except Abort UploadResponse :=
  match rd.asRangeReader with
  | none => (w, .error (.err (.msg "Not supported")))
  | some rr =>
    let store_as_name := store_as_name.getD filename
    let result : UploadResponse :=
      { Path := filename.Path,
        StoredName := store_as_name.Path,
        Components := store_as_name.Components,
        Accessor := accessor }
    let w := { w with Count := wrapInt64 (w.Count + 1) }
    let ranges := rr.Ranges w.reader
    let s := scanRanges ranges
    let pathspec : PathSpec :=
      { Path := store_as_name.Path,
        Components := store_as_name.Components,
        Accessor := accessor }
    if s.expected_size == 0 then
      let index := packetIndex s
      let w := AddResponse w
        { Pathspec := pathspec,
          Size := toUint64 s.real_size,
          StoredSize := 0,
          IsSparse := s.is_sparse,
          Index := index,
          Mtime := mtime,
          Eof := true,
          UploadNumber := upload_id }
      (w, .ok { result with Size := toUint64 s.real_size,
                            Sha256 := dg.sha256hex [],
                            Md5 := dg.md5hex [] })
    else
      let hdr : Header :=
        { Pathspec := pathspec,
          Size := toUint64 s.real_size,
          StoredSize := toUint64 s.expected_size,
          IsSparse := s.is_sparse,
          Mtime := mtime,
          UploadNumber := upload_id }
      match sendRanges rd rr hdr ranges w {} with
      | (w, .error a) => (w, .error a)
      | (w, .ok v) =>
        let index := packetIndex s
        let w := AddResponse w
          { Pathspec := pathspec,
            Size := toUint64 s.real_size,
            StoredSize := toUint64 s.expected_size,
            IsSparse := s.is_sparse,
            Offset := toUint64 v.write_offset,
            Index := index,
            Eof := true,
            UploadNumber := upload_id }
        (w, .ok { result with Size := toUint64 s.real_size,
                              StoredSize := toUint64 v.write_offset,
                              Sha256 := dg.sha256hex v.sha_sum,
                              Md5 := dg.md5hex v.md5_sum })

/-- The arguments of `Upload` that stay fixed during the dense loop. -/
structure DenseArgs where
  store_as_name : OSPath
  accessor : String
  expected_size : Int
  mtime : Int
  atime : Int
  ctime : Int
  btime : Int
  upload_id : Int

/-- Where one iteration of the loop `for { ... }` of `Upload` leaves it. -/
inductive DenseStep (σ : Type) where
  /-- The next iteration, with these values of the variables. -/
  | next (offset : Nat) (sha_sum md5_sum : Bytes) (w : World σ)
  /-- The iteration returns from `Upload`. -/
  | done (w : World σ) (r : Except Abort UploadResponse)

/-- The body of the loop `for { ... }` of `Upload`. -/
def denseChunk {σ : Type} (dg : Digests) (rd : Reader σ) (a : DenseArgs)
    (result : UploadResponse) (offset : Nat) (sha_sum md5_sum : Bytes) (w : World σ) :
    DenseStep σ :=
  let r := rd.Read w.reader w.BUFF_SIZE.toNat
  let w := { w with reader := r.1 }
  let read_bytes := r.2.1.length
  match r.2.2 with
  | some (.msg e) => .done w (.error (.err (.msg e)))
  | _ =>
    if read_bytes > w.BUFF_SIZE.toNat then .done w (.error .panic)
    else
      let data := r.2.1
      let sha_sum := sha_sum ++ data
      let md5_sum := md5_sum ++ data
      let packet : FileBuffer :=
        { Pathspec := { Path := a.store_as_name.Path,
                        Components := a.store_as_name.Components,
                        Accessor := a.accessor },
          Offset := offset,
          Size := toUint64 a.expected_size,
          StoredSize := toUint64 a.expected_size,
          Mtime := a.mtime,
          Atime := a.atime,
          Ctime := a.ctime,
          Btime := a.btime,
          Data := data,
          UploadNumber := a.upload_id,
          Eof := read_bytes == 0 }
      if ctxDone w then .done w (.error (.err (.msg "Cancelled!")))
      else
        let w := AddResponse (ctxTick w) packet
        let offset := (offset + read_bytes) % 2 ^ 64
        if read_bytes == 0 then
          let result := { result with Size := offset,
                                      StoredSize := offset,
                                      Sha256 := dg.sha256hex sha_sum,
                                      Md5 := dg.md5hex md5_sum }
          .done (CacheUploadResult w a.store_as_name result) (.ok result)
        else .next offset sha_sum md5_sum w

/-- The loop `for { ... }` of `Upload`. The loop has no bound of its own (a
reader that never returns zero bytes keeps it running), so the first argument
bounds the number of iterations: `none` is a run that needs more. -/
def denseLoop {σ : Type} (dg : Digests) (rd : Reader σ) (a : DenseArgs)
    (result : UploadResponse) :
    Nat → (offset : Nat) → (sha_sum md5_sum : Bytes) → World σ →
    Option (World σ × Except Abort UploadResponse)
  | 0, _, _, _, _ => none
  | fuel + 1, offset, sha_sum, md5_sum, w =>
    match denseChunk dg rd a result offset sha_sum md5_sum w with
    | .done w r => some (w, r)
    | .next offset sha_sum md5_sum w => denseLoop dg rd a result fuel offset sha_sum md5_sum w

/-- Source: `VelociraptorUploader.Upload`. The times are the values of
`UnixNano()`; `fuel` bounds the iterations of the dense loop. -/
def Upload {σ : Type} (dg : Digests) (rd : Reader σ) (fuel : Nat) (filename : OSPath)
    (accessor : String) (store_as_name : Option OSPath) (expected_size : Int)
    (mtime atime ctime btime : Int) (w : World σ) :
    Option (World σ × Except Abort UploadResponse) :=
  let store_as_name := store_as_name.getD filename
  match DeduplicateUploads w.cached store_as_name with
  | some cached => some (w, .ok cached)
  | none =>
    let upload_id := w.next_upload_id
    let w := { w with next_upload_id := w.next_upload_id + 1 }
    match maybeUploadSparse dg rd filename accessor (some store_as_name) mtime upload_id w with
    | (w, .ok result) => some (CacheUploadResult w store_as_name result, .ok result)
    | (w, .error .panic) => some (w, .error .panic)
    | (w, .error (.err _)) =>
      let result : UploadResponse :=
        { Path := filename.Path,
          StoredName := store_as_name.Path,
          Accessor := accessor,
          Components := store_as_name.Components }
      let w := { w with Count := wrapInt64 (w.Count + 1), BUFF_SIZE := 1024 * 1024 }
      denseLoop dg rd
        { store_as_name := store_as_name, accessor := accessor,
          expected_size := expected_size, mtime := mtime, atime := atime,
          ctime := ctime, btime := btime, upload_id := upload_id }
        result fuel 0 [] [] w

/-- Whether the call of `Upload` is answered from the cache of the scope. -/
def answeredFromCache {σ : Type} (filename : OSPath) (store_as_name : Option OSPath)
    (w : World σ) : Bool :=
  (DeduplicateUploads w.cached (store_as_name.getD filename)).isSome

/-- The total length of the data of a list of packets. -/
def dataLength (packets : List FileBuffer) : Nat :=
  (packets.map (fun p => p.Data.length)).sum

/-- The data of a list of packets, concatenated in order. -/
def concatData (packets : List FileBuffer) : Bytes :=
  (packets.map (fun p => p.Data)).flatten

/-- The index entry the first loop of `maybeUploadSparse` records for the
range `rng` when the ranges `before` come before it. -/
def indexEntry (before : List Range) (rng : Range) : IndexRange :=
  { FileOffset := wrapInt64 (sumNonSparse before),
    OriginalOffset := rng.Offset,
    FileLength := if rng.IsSparse then 0 else rng.Length,
    Length := rng.Length }

/-- The packets `new` are the packets `old` followed by packets without the
end-of-file mark. -/
def DataPackets (old new : List FileBuffer) : Prop :=
  ∃ added, new = old ++ added ∧ ∀ p ∈ added, p.Eof = false

/-- The packets `new` are the packets `old` followed by packets without the
end-of-file mark and then one packet that has the mark and no data. -/
def EndsWithEof (old new : List FileBuffer) : Prop :=
  ∃ pre last, new = old ++ pre ++ [last] ∧ last.Eof = true ∧ last.Data = [] ∧
    ∀ p ∈ pre, p.Eof = false

/-! ### Concrete readers -/

/-- State of the readers used as concrete inputs: the read position and, when
set, the number of reads that succeed before one fails. -/
structure FileState where
  pos : Nat := 0
  failIn : Option Nat := none
deriving DecidableEq, Repr

/-- A read of a reader over the byte string `content`. It returns the bytes at
the position, at most as many as the buffer holds; at the end of `content` it
returns zero bytes and `io.EOF`. With `eagerEOF` a read that reaches the end
of `content` returns `io.EOF` together with its last bytes, as `io.Reader`
allows. When `failIn` has reached zero the read fails with an error, once. -/
def fileRead (content : Bytes) (eagerEOF : Bool) (s : FileState) (n : Nat) :
    FileState × Bytes × Option Error :=
  if s.failIn == some 0 then ({ s with failIn := none }, [], some (.msg "read error"))
  else
    let data := (content.drop s.pos).take n
    let s := { pos := s.pos + data.length, failIn := s.failIn.map (fun k => k - 1) }
    if data.length == 0 then (s, [], some .EOF)
    else if eagerEOF && s.pos == content.length then (s, data, some .EOF)
    else (s, data, none)

/-- The reader over `content`; with `ranges` it is a `RangeReader` that reports
these ranges and whose `Seek` sets the read position. -/
def fileReader (content : Bytes) (eagerEOF : Bool) (ranges : Option (List Range)) :
    Reader FileState :=
  { Read := fileRead content eagerEOF,
    asRangeReader := ranges.map (fun rs =>
      { Ranges := fun _ => rs,
        Seek := fun s off => ({ s with pos := off.toNat }, none) }) }

/-- Digests for concrete runs of the uploader, which do not look at them. -/
def noDigests : Digests :=
  { sha256hex := fun _ => "", md5hex := fun _ => "" }

/-! ### The reconstruction law of the spec -/

/-- The file `file` after `data` is written at position `pos`. -/
def writeAt (file : Bytes) (pos : Nat) (data : Bytes) : Bytes :=
  file.take pos ++ List.replicate (pos - file.length) 0 ++ data ++
    file.drop (pos + data.length)

/-- The reconstruction the spec describes: start from a zero-filled file of
length `size` and copy, for each index entry with `file_length > 0`, the bytes
`[file_offset, file_offset + file_length)` of the stream to position
`original_offset`. -/
def reconstruct (size : Nat) (index : List IndexRange) (stream : Bytes) : Bytes :=
  index.foldl
    (fun file e =>
      if e.FileLength > 0 then
        writeAt file e.OriginalOffset.toNat
          ((stream.drop e.FileOffset.toNat).take e.FileLength.toNat)
      else file)
    (List.replicate size 0)

/-- The ranges are sorted, do not overlap and cover the bytes from `pos` to
`size`: each range starts where the one before it ends. -/
def coversFile : List Range → Int → Int → Bool
  | [], pos, size => pos == size
  | rng :: rest, pos, size =>
    rng.Offset == pos && decide (0 ≤ rng.Length) && coversFile rest (pos + rng.Length) size

/-- Every hole of `ranges` reads as zero bytes in `content`. -/
def holesReadZero (content : Bytes) (ranges : List Range) : Bool :=
  ranges.all (fun rng =>
    !rng.IsSparse ||
      ((content.drop rng.Offset.toNat).take rng.Length.toNat).all (fun b => b == 0))

/-- The value of `real_size` after the first loop of `maybeUploadSparse`: the
largest `offset + length` of a range, computed in `int64`, and 0 when no range
ends above 0. -/
def maxEnd (ranges : List Range) : Int :=
  ranges.foldl (fun m rng => max m (wrapInt64 (rng.Offset + rng.Length))) 0

/-- The ranges are ranges of a file whose size fits `int64`: offsets and
lengths are not negative, every range ends below 2^63, and so does the total
length of the ranges that are not holes. -/
def FileRanges (ranges : List Range) : Prop :=
  (∀ rng ∈ ranges, 0 ≤ rng.Offset ∧ 0 ≤ rng.Length ∧ rng.Offset + rng.Length < 2 ^ 63) ∧
    sumNonSparse ranges < 2 ^ 63

/-- The constant part of the packets of `maybeUploadSparse`, as the source
fills it in from the result `s` of the first loop. -/
def sparseHeader (store_as_name : OSPath) (accessor : String) (mtime upload_id : Int)
    (s : Scan) : Header :=
  { Pathspec := { Path := store_as_name.Path,
                  Components := store_as_name.Components,
                  Accessor := accessor },
    Size := toUint64 s.real_size,
    StoredSize := toUint64 s.expected_size,
    IsSparse := s.is_sparse,
    Mtime := mtime,
    UploadNumber := upload_id }

/-- The final packet of `maybeUploadSparse` after the ranges were sent with
`write_offset` bytes. -/
def sparseEofPacket (store_as_name : OSPath) (accessor : String) (upload_id : Int)
    (s : Scan) (write_offset : Int) : FileBuffer :=
  { Pathspec := { Path := store_as_name.Path,
                  Components := store_as_name.Components,
                  Accessor := accessor },
    Size := toUint64 s.real_size,
    StoredSize := toUint64 s.expected_size,
    IsSparse := s.is_sparse,
    Offset := toUint64 write_offset,
    Index := packetIndex s,
    Eof := true,
    UploadNumber := upload_id }

/-- Whether the read of the iteration of the loop `for to_read > 0` that starts
with `to_read` and `w` returns zero bytes or `io.EOF`, the case "End of range -
go to the next range" of a run that returns a result. -/
def readEndsRange {σ : Type} (rd : Reader σ) (to_read : Int) (w : World σ) : Bool :=
  (rd.Read w.reader (readSize to_read w.BUFF_SIZE).toNat).2.1.length == 0 ||
    (rd.Read w.reader (readSize to_read w.BUFF_SIZE).toNat).2.2 == some .EOF

/-- Whether a read ends the range while `to_read > 0`, in the run of
`sendRange` with the same arguments. -/
def rangeCutShort {σ : Type} (rd : Reader σ) (hdr : Header) :
    Nat → Int → World σ → Vars → Bool
  | 0, _, _, _ => false
  | fuel + 1, to_read, w, v =>
    if to_read > 0 then
      readEndsRange rd to_read w ||
        match sendChunk rd hdr to_read w v with
        | .next to_read w v => rangeCutShort rd hdr fuel to_read w v
        | .stop _ _ => false
    else false

/-- Whether a read ends one of the ranges before the range is read to its
length, in the run of `sendRanges` with the same arguments. -/
def rangesCutShort {σ : Type} (rd : Reader σ) (rr : RangeReader σ) (hdr : Header) :
    List Range → World σ → Vars → Bool
  | [], _, _ => false
  | rng :: rest, w, v =>
    if rng.IsSparse then rangesCutShort rd rr hdr rest w v
    else
      match (rr.Seek w.reader rng.Offset).2 with
      | some _ => false
      | none =>
        rangeCutShort rd hdr rng.Length.toNat rng.Length
            { w with reader := (rr.Seek w.reader rng.Offset).1 }
            { v with read_offset := rng.Offset } ||
          match sendRange rd hdr rng.Length.toNat rng.Length
              { w with reader := (rr.Seek w.reader rng.Offset).1 }
              { v with read_offset := rng.Offset } with
          | (w, .ok v) => rangesCutShort rd rr hdr rest w v
          | (_, .error _) => false

/-- Whether a read ends one of the non-hole ranges before the range is read to
its length, in the run of `maybeUploadSparse` with the same arguments. -/
def uploadCutShort {σ : Type} (rd : Reader σ) (rr : RangeReader σ) (filename : OSPath)
    (accessor : String) (store_as_name : Option OSPath) (mtime upload_id : Int)
    (w : World σ) : Bool :=
  rangesCutShort rd rr
    (sparseHeader (store_as_name.getD filename) accessor mtime upload_id
      (scanRanges (rr.Ranges w.reader)))
    (rr.Ranges w.reader) { w with Count := wrapInt64 (w.Count + 1) } {}

/-- The ranges of the example of the spec: data 0..4, a hole 100..102, data
200..203. -/
def exampleRanges : List Range :=
  [⟨0, 4, false⟩, ⟨100, 2, true⟩, ⟨200, 3, false⟩]

/-- A file of 203 bytes for the example: the bytes 1, 2, 3, 4 at 0, the bytes
5, 6, 7 at 200, zeros between. -/
def exampleContent : Bytes :=
  [1, 2, 3, 4] ++ List.replicate 196 0 ++ [5, 6, 7]

/-- The world after the sparse upload of `exampleContent` with
`exampleRanges`, started in a fresh world with the store-as-name `f` and the
accessor `file`: the reader stands at the end, and the responder holds two
data packets and the final packet. -/
def exampleWorld : World FileState :=
  { reader := { pos := 203 },
    Count := 1,
    responses :=
      [{ Pathspec := { Path := "f", Components := ["f"], Accessor := "file" },
         Offset := 0, Size := 203, StoredSize := 7, IsSparse := true,
         Data := [1, 2, 3, 4] },
       { Pathspec := { Path := "f", Components := ["f"], Accessor := "file" },
         Offset := 4, Size := 203, StoredSize := 7, IsSparse := true,
         Data := [5, 6, 7] },
       { Pathspec := { Path := "f", Components := ["f"], Accessor := "file" },
         Offset := 7, Size := 203, StoredSize := 7, IsSparse := true,
         Index := some [⟨0, 0, 4, 4⟩, ⟨4, 100, 0, 2⟩, ⟨4, 200, 3, 3⟩],
         Eof := true }] }

/-- Whether the packets tile a stream from the offset `start`: the offset of
every packet is `start` plus the total length of the data of the packets
before it. -/
def tiledFrom : Nat → List FileBuffer → Bool
  | _, [] => true
  | start, p :: rest => p.Offset == start && tiledFrom (start + p.Data.length) rest

/-- The packets `new` are the packets `old` followed by packets without the
end-of-file mark and without an index. -/
def PlainPackets (old new : List FileBuffer) : Prop :=
  ∃ added, new = old ++ added ∧ ∀ p ∈ added, p.Eof = false ∧ p.Index = none

end Uploads

/-! ## Theorems -/

section Helpers

open Uploads

theorem wrapInt64_add_left (a b : Int) : wrapInt64 (wrapInt64 a + b) = wrapInt64 (a + b) := by
  unfold wrapInt64
  have h1 : ((a + 2 ^ 63) % 2 ^ 64 - 2 ^ 63 + b + 2 ^ 63) = (a + 2 ^ 63) % 2 ^ 64 + b := by ring
  have h2 : a + b + 2 ^ 63 = (a + 2 ^ 63) + b := by ring
  rw [h1, h2, Int.emod_add_emod]

theorem wrapInt64_of_inRange (x : Int) (h1 : -2 ^ 63 ≤ x) (h2 : x < 2 ^ 63) : wrapInt64 x = x := by
  unfold wrapInt64
  rw [Int.emod_eq_of_lt] <;> omega

theorem scanRanges_concat (rs : List Range) (r : Range) :
    scanRanges (rs ++ [r]) = scanStep (scanRanges rs) r := by
  simp [scanRanges, List.foldl_append]

theorem sumNonSparse_concat (rs : List Range) (r : Range) :
    sumNonSparse (rs ++ [r]) = sumNonSparse rs + (if r.IsSparse then 0 else r.Length) := by
  unfold sumNonSparse
  cases h : r.IsSparse <;> simp [List.filter_append, h]

theorem scanRanges_expected_size (rs : List Range) :
    (scanRanges rs).expected_size = wrapInt64 (sumNonSparse rs) := by
  induction rs using List.reverseRecOn with
  | nil => rfl
  | append_singleton rs r ih =>
    rw [scanRanges_concat, sumNonSparse_concat]
    cases h : r.IsSparse
    · simp [scanStep, h, ih, wrapInt64_add_left]
    · simp [scanStep, h, ih]

theorem scanRanges_index_length (rs : List Range) :
    (scanRanges rs).index.length = rs.length := by
  induction rs using List.reverseRecOn with
  | nil => rfl
  | append_singleton rs r ih =>
    rw [scanRanges_concat]
    simp [scanStep, ih]

theorem scanRanges_index_get (rs : List Range) (i : Nat) :
    (scanRanges rs).index[i]? = (rs[i]?).map (indexEntry (rs.take i)) := by
  induction rs using List.reverseRecOn with
  | nil => simp [scanRanges]
  | append_singleton rs r ih =>
    rw [scanRanges_concat]
    have hlen := scanRanges_index_length rs
    rcases Nat.lt_trichotomy i rs.length with h | h | h
    · have e1 : (scanStep (scanRanges rs) r).index[i]? = (scanRanges rs).index[i]? := by
        simp only [scanStep]
        rw [List.getElem?_append_left (by omega)]
      rw [e1, ih, List.getElem?_append_left h, List.take_append_of_le_length (by omega)]
    · subst h
      have e1 : (scanStep (scanRanges rs) r).index[rs.length]? =
          some (indexEntry rs r) := by
        simp only [scanStep]
        rw [List.getElem?_append_right (by omega)]
        simp [hlen, indexEntry, scanRanges_expected_size]
      rw [e1]
      simp
    · have e1 : (scanStep (scanRanges rs) r).index[i]? = none := by
        apply List.getElem?_eq_none
        simp [scanStep, hlen]; omega
      have e2 : (rs ++ [r])[i]? = none := by
        apply List.getElem?_eq_none
        simp; omega
      rw [e1, e2]; rfl

theorem Uploads.DataPackets.refl (l : List FileBuffer) : DataPackets l l :=
  ⟨[], by simp⟩

theorem Uploads.DataPackets.trans {a b c : List FileBuffer} (h1 : DataPackets a b)
    (h2 : DataPackets b c) : DataPackets a c := by
  obtain ⟨x, rfl, hx⟩ := h1
  obtain ⟨y, rfl, hy⟩ := h2
  refine ⟨x ++ y, by simp, ?_⟩
  intro p hp
  rcases List.mem_append.1 hp with h | h
  · exact hx p h
  · exact hy p h

theorem Uploads.DataPackets.endsWithEof {a b c : List FileBuffer} (h1 : DataPackets a b)
    (h2 : EndsWithEof b c) : EndsWithEof a c := by
  obtain ⟨x, rfl, hx⟩ := h1
  obtain ⟨y, last, rfl, h3, h4, hy⟩ := h2
  refine ⟨x ++ y, last, by simp, h3, h4, ?_⟩
  intro p hp
  rcases List.mem_append.1 hp with h | h
  · exact hx p h
  · exact hy p h

theorem Uploads.EndsWithEof.single (l : List FileBuffer) (p : FileBuffer) (h1 : p.Eof = true)
    (h2 : p.Data = []) : EndsWithEof l (l ++ [p]) :=
  ⟨[], p, by simp, h1, h2, by simp⟩

theorem sendChunk_next_responses {σ : Type} (rd : Reader σ) (hdr : Header) (to_read : Int)
    (w : World σ) (v : Vars) (t : Int) (w' : World σ) (v' : Vars)
    (h : sendChunk rd hdr to_read w v = .next t w' v') :
    DataPackets w.responses w'.responses := by
  unfold sendChunk at h
  dsimp only at h
  split_ifs at h <;> (try split at h) <;> (try split_ifs at h) <;> cases h <;>
    first
    | exact DataPackets.refl _
    | exact ⟨[_], rfl, by simp⟩

theorem sendChunk_stop_responses {σ : Type} (rd : Reader σ) (hdr : Header) (to_read : Int)
    (w : World σ) (v : Vars) (w' : World σ) (a : Abort)
    (h : sendChunk rd hdr to_read w v = .stop w' a) :
    w'.responses = w.responses := by
  unfold sendChunk at h
  dsimp only at h
  split_ifs at h <;> (try split at h) <;> (try split_ifs at h) <;> cases h <;> rfl

theorem sendRange_responses {σ : Type} (rd : Reader σ) (hdr : Header) :
    ∀ (fuel : Nat) (to_read : Int) (w : World σ) (v : Vars),
      DataPackets w.responses (sendRange rd hdr fuel to_read w v).1.responses := by
  intro fuel
  induction fuel with
  | zero => intro to_read w v; exact DataPackets.refl _
  | succ n ih =>
    intro to_read w v
    unfold sendRange
    split_ifs with h
    · cases hc : sendChunk rd hdr to_read w v with
      | next t w' v' =>
        exact (sendChunk_next_responses rd hdr to_read w v t w' v' hc).trans (ih t w' v')
      | stop w' a =>
        dsimp only
        rw [sendChunk_stop_responses rd hdr to_read w v w' a hc]
        exact DataPackets.refl _
    · exact DataPackets.refl _

theorem wrapInt64_le_self (x : Int) (h : 0 ≤ x) : wrapInt64 x ≤ x := by
  unfold wrapInt64
  omega

theorem readSize_le (to_read BUFF_SIZE : Int) : readSize to_read BUFF_SIZE ≤ to_read := by
  unfold readSize
  split_ifs <;> omega

theorem sendChunk_next_lt {σ : Type} (rd : Reader σ) (hdr : Header) (to_read : Int)
    (w : World σ) (v : Vars) (t : Int) (w' : World σ) (v' : Vars) (hpos : 0 < to_read)
    (h : sendChunk rd hdr to_read w v = .next t w' v') :
    t < to_read := by
  have hsize := readSize_le to_read w.BUFF_SIZE
  unfold sendChunk at h
  dsimp only at h
  by_cases h1 : readSize to_read w.BUFF_SIZE < 0
  · rw [if_pos h1] at h
    cases h
  · rw [if_neg h1] at h
    split at h
    · cases h
    · by_cases h2 : ((rd.Read w.reader (readSize to_read w.BUFF_SIZE).toNat).2.1.length == 0 ||
          (rd.Read w.reader (readSize to_read w.BUFF_SIZE).toNat).2.2 == some Error.EOF) = true
      · rw [if_pos h2] at h
        cases h
        exact hpos
      · rw [if_neg h2] at h
        by_cases h3 : (rd.Read w.reader (readSize to_read w.BUFF_SIZE).toNat).2.1.length >
            (readSize to_read w.BUFF_SIZE).toNat
        · rw [if_pos h3] at h
          cases h
        · rw [if_neg h3] at h
          split_ifs at h
          cases h
          simp only [Bool.or_eq_true, beq_iff_eq, not_or] at h2
          have hle := wrapInt64_le_self
            (to_read - ((rd.Read w.reader (readSize to_read w.BUFF_SIZE).toNat).2.1.length : Nat))
            (by omega)
          omega

theorem sendRange_fuel {σ : Type} (rd : Reader σ) (hdr : Header) :
    ∀ (fuel : Nat) (to_read : Int) (w : World σ) (v : Vars), to_read.toNat ≤ fuel →
      sendRange rd hdr (fuel + 1) to_read w v = sendRange rd hdr fuel to_read w v := by
  intro fuel
  induction fuel with
  | zero =>
    intro to_read w v h
    have h0 : ¬ to_read > 0 := by omega
    simp [sendRange, h0]
  | succ n ih =>
    intro to_read w v h
    rw [sendRange, sendRange]
    split_ifs with hpos
    · cases hc : sendChunk rd hdr to_read w v with
      | next t w' v' =>
        have hlt := sendChunk_next_lt rd hdr to_read w v t w' v' hpos hc
        exact ih t w' v' (by omega)
      | stop w' a => rfl
    · rfl

theorem sendRanges_responses {σ : Type} (rd : Reader σ) (rr : RangeReader σ) (hdr : Header) :
    ∀ (ranges : List Range) (w : World σ) (v : Vars),
      DataPackets w.responses (sendRanges rd rr hdr ranges w v).1.responses := by
  intro ranges
  induction ranges with
  | nil => intro w v; exact DataPackets.refl _
  | cons rng rest ih =>
    intro w v
    unfold sendRanges
    split_ifs with h
    · exact ih w v
    · dsimp only
      cases hs : (rr.Seek w.reader rng.Offset).2 with
      | some e => exact DataPackets.refl _
      | none =>
        dsimp only
        have h1 := sendRange_responses rd hdr rng.Length.toNat rng.Length
          { w with reader := (rr.Seek w.reader rng.Offset).1 } { v with read_offset := rng.Offset }
        rcases hr : sendRange rd hdr rng.Length.toNat rng.Length
          { w with reader := (rr.Seek w.reader rng.Offset).1 }
          { v with read_offset := rng.Offset } with ⟨w1, r1⟩
        rw [hr] at h1
        cases r1 with
        | ok v1 => exact DataPackets.trans h1 (ih w1 v1)
        | error a => exact h1

theorem maybeUploadSparse_ok_responses {σ : Type} (dg : Digests) (rd : Reader σ)
    (filename : OSPath) (accessor : String) (store_as_name : Option OSPath)
    (mtime upload_id : Int) (w w' : World σ) (r : UploadResponse)
    (h : maybeUploadSparse dg rd filename accessor store_as_name mtime upload_id w =
      (w', .ok r)) :
    EndsWithEof w.responses w'.responses := by
  unfold maybeUploadSparse at h
  cases hrr : rd.asRangeReader with
  | none => simp [hrr] at h
  | some rr =>
    simp only [hrr] at h
    by_cases h0 : ((scanRanges (rr.Ranges w.reader)).expected_size == 0) = true
    · rw [if_pos h0] at h
      cases h
      exact EndsWithEof.single _ _ rfl rfl
    · rw [if_neg h0] at h
      have h1 := sendRanges_responses rd rr
        { Pathspec := { Path := (store_as_name.getD filename).Path,
                        Components := (store_as_name.getD filename).Components,
                        Accessor := accessor },
          Size := toUint64 (scanRanges (rr.Ranges w.reader)).real_size,
          StoredSize := toUint64 (scanRanges (rr.Ranges w.reader)).expected_size,
          IsSparse := (scanRanges (rr.Ranges w.reader)).is_sparse,
          Mtime := mtime,
          UploadNumber := upload_id }
        (rr.Ranges w.reader) { w with Count := wrapInt64 (w.Count + 1) } {}
      split at h
      · cases h
      · rename_i w1 v1 heq
        cases h
        rw [heq] at h1
        exact h1.endsWithEof (EndsWithEof.single _ _ rfl rfl)

theorem maybeUploadSparse_error_responses {σ : Type} (dg : Digests) (rd : Reader σ)
    (filename : OSPath) (accessor : String) (store_as_name : Option OSPath)
    (mtime upload_id : Int) (w w' : World σ) (a : Abort)
    (h : maybeUploadSparse dg rd filename accessor store_as_name mtime upload_id w =
      (w', .error a)) :
    DataPackets w.responses w'.responses := by
  unfold maybeUploadSparse at h
  cases hrr : rd.asRangeReader with
  | none =>
    simp only [hrr] at h
    cases h
    exact DataPackets.refl _
  | some rr =>
    simp only [hrr] at h
    by_cases h0 : ((scanRanges (rr.Ranges w.reader)).expected_size == 0) = true
    · rw [if_pos h0] at h
      cases h
    · rw [if_neg h0] at h
      have h1 := sendRanges_responses rd rr
        { Pathspec := { Path := (store_as_name.getD filename).Path,
                        Components := (store_as_name.getD filename).Components,
                        Accessor := accessor },
          Size := toUint64 (scanRanges (rr.Ranges w.reader)).real_size,
          StoredSize := toUint64 (scanRanges (rr.Ranges w.reader)).expected_size,
          IsSparse := (scanRanges (rr.Ranges w.reader)).is_sparse,
          Mtime := mtime,
          UploadNumber := upload_id }
        (rr.Ranges w.reader) { w with Count := wrapInt64 (w.Count + 1) } {}
      split at h
      · rename_i w1 a1 heq
        cases h
        rw [heq] at h1
        exact h1
      · cases h

theorem denseChunk_next_responses {σ : Type} (dg : Digests) (rd : Reader σ) (a : DenseArgs)
    (result : UploadResponse) (offset : Nat) (sha_sum md5_sum : Bytes) (w : World σ)
    (o : Nat) (s m : Bytes) (w' : World σ)
    (h : denseChunk dg rd a result offset sha_sum md5_sum w = .next o s m w') :
    DataPackets w.responses w'.responses := by
  unfold denseChunk at h
  dsimp only at h
  split at h
  · cases h
  · split_ifs at h with h1 h2 h3
    cases h
    refine ⟨[_], rfl, ?_⟩
    intro p hp
    rw [List.mem_singleton] at hp
    subst hp
    simpa using h3

theorem denseChunk_done_responses {σ : Type} (dg : Digests) (rd : Reader σ) (a : DenseArgs)
    (result : UploadResponse) (offset : Nat) (sha_sum md5_sum : Bytes) (w : World σ)
    (w' : World σ) (r : UploadResponse)
    (h : denseChunk dg rd a result offset sha_sum md5_sum w = .done w' (.ok r)) :
    EndsWithEof w.responses w'.responses := by
  unfold denseChunk at h
  dsimp only at h
  split at h
  · cases h
  · split_ifs at h with h1 h2 h3 <;> cases h
    refine (show EndsWithEof w.responses (w.responses ++ [_]) from
      EndsWithEof.single _ _ ?_ ?_)
    · simpa using h3
    · simpa using h3

theorem denseLoop_responses {σ : Type} (dg : Digests) (rd : Reader σ) (a : DenseArgs)
    (result : UploadResponse) :
    ∀ (fuel offset : Nat) (sha_sum md5_sum : Bytes) (w w' : World σ) (r : UploadResponse),
      denseLoop dg rd a result fuel offset sha_sum md5_sum w = some (w', .ok r) →
      EndsWithEof w.responses w'.responses := by
  intro fuel
  induction fuel with
  | zero => intro offset sha_sum md5_sum w w' r h; simp [denseLoop] at h
  | succ n ih =>
    intro offset sha_sum md5_sum w w' r h
    unfold denseLoop at h
    cases hc : denseChunk dg rd a result offset sha_sum md5_sum w with
    | done w1 r1 =>
      rw [hc] at h
      simp only [Option.some.injEq, Prod.mk.injEq] at h
      obtain ⟨rfl, rfl⟩ := h
      exact denseChunk_done_responses dg rd a result offset sha_sum md5_sum w _ r hc
    | next o1 s1 m1 w1 =>
      rw [hc] at h
      exact (denseChunk_next_responses dg rd a result offset sha_sum md5_sum w o1 s1 m1 w1
        hc).endsWithEof (ih o1 s1 m1 w1 w' r h)

theorem scanRanges_is_sparse (rs : List Range) :
    (scanRanges rs).is_sparse = rs.any (fun rng => rng.IsSparse) := by
  induction rs using List.reverseRecOn with
  | nil => rfl
  | append_singleton rs r ih =>
    rw [scanRanges_concat]
    cases h : r.IsSparse <;> simp [scanStep, h, ih]

theorem maxEnd_concat (rs : List Range) (r : Range) :
    maxEnd (rs ++ [r]) = max (maxEnd rs) (wrapInt64 (r.Offset + r.Length)) := by
  simp [maxEnd, List.foldl_append]

theorem scanRanges_real_size (rs : List Range) :
    (scanRanges rs).real_size = maxEnd rs := by
  induction rs using List.reverseRecOn with
  | nil => rfl
  | append_singleton rs r ih =>
    rw [scanRanges_concat, maxEnd_concat]
    simp only [scanStep, ih]
    split_ifs with h
    · exact (max_eq_right (le_of_lt h)).symm
    · exact (max_eq_left (not_lt.1 h)).symm

theorem packetIndex_eq (rs : List Range) :
    packetIndex (scanRanges rs) =
      if rs.any (fun rng => rng.IsSparse) then some (scanRanges rs).index else none := by
  unfold packetIndex
  rw [scanRanges_is_sparse]
  cases rs.any (fun rng => rng.IsSparse) <;> rfl

/-- What `maybeUploadSparse` does when the first loop finds `expected_size == 0`. -/
theorem maybeUploadSparse_zero {σ : Type} (dg : Digests) (rd : Reader σ) (rr : RangeReader σ)
    (filename : OSPath) (accessor : String) (store_as_name : Option OSPath)
    (mtime upload_id : Int) (w : World σ)
    (hrr : rd.asRangeReader = some rr)
    (h0 : (scanRanges (rr.Ranges w.reader)).expected_size = 0) :
    maybeUploadSparse dg rd filename accessor store_as_name mtime upload_id w =
      (AddResponse { w with Count := wrapInt64 (w.Count + 1) }
        { Pathspec := { Path := (store_as_name.getD filename).Path,
                        Components := (store_as_name.getD filename).Components,
                        Accessor := accessor },
          Size := toUint64 (scanRanges (rr.Ranges w.reader)).real_size,
          StoredSize := 0,
          IsSparse := (scanRanges (rr.Ranges w.reader)).is_sparse,
          Index := packetIndex (scanRanges (rr.Ranges w.reader)),
          Mtime := mtime,
          Eof := true,
          UploadNumber := upload_id },
       .ok { Path := filename.Path,
             StoredName := (store_as_name.getD filename).Path,
             Components := (store_as_name.getD filename).Components,
             Accessor := accessor,
             Size := toUint64 (scanRanges (rr.Ranges w.reader)).real_size,
             Sha256 := dg.sha256hex [],
             Md5 := dg.md5hex [] }) := by
  unfold maybeUploadSparse
  simp only [hrr]
  rw [if_pos (by simp [h0])]

/-- What `maybeUploadSparse` does when the first loop finds `expected_size != 0`
and the call returns a result. -/
theorem maybeUploadSparse_sent {σ : Type} (dg : Digests) (rd : Reader σ) (rr : RangeReader σ)
    (filename : OSPath) (accessor : String) (store_as_name : Option OSPath)
    (mtime upload_id : Int) (w w' : World σ) (result : UploadResponse)
    (hrr : rd.asRangeReader = some rr)
    (h0 : (scanRanges (rr.Ranges w.reader)).expected_size ≠ 0)
    (h : maybeUploadSparse dg rd filename accessor store_as_name mtime upload_id w =
      (w', .ok result)) :
    ∃ w1 v1,
      sendRanges rd rr
        (sparseHeader (store_as_name.getD filename) accessor mtime upload_id
          (scanRanges (rr.Ranges w.reader)))
        (rr.Ranges w.reader) { w with Count := wrapInt64 (w.Count + 1) } {} = (w1, .ok v1) ∧
      w' = AddResponse w1
        (sparseEofPacket (store_as_name.getD filename) accessor upload_id
          (scanRanges (rr.Ranges w.reader)) v1.write_offset) ∧
      result.Size = toUint64 (scanRanges (rr.Ranges w.reader)).real_size ∧
      result.StoredSize = toUint64 v1.write_offset ∧
      result.Sha256 = dg.sha256hex v1.sha_sum ∧
      result.Md5 = dg.md5hex v1.md5_sum := by
  unfold maybeUploadSparse at h
  simp only [hrr] at h
  rw [if_neg (by simpa using h0)] at h
  rcases hs : sendRanges rd rr
      (sparseHeader (store_as_name.getD filename) accessor mtime upload_id
        (scanRanges (rr.Ranges w.reader)))
      (rr.Ranges w.reader) { w with Count := wrapInt64 (w.Count + 1) } {} with ⟨w1, r1⟩
  unfold sparseHeader at hs
  rw [hs] at h
  cases r1 with
  | error a => cases h
  | ok v1 =>
    dsimp only at h
    refine ⟨w1, v1, rfl, ?_⟩
    have h1 := congrArg Prod.fst h
    have h2 := congrArg Prod.snd h
    dsimp only at h1 h2
    simp only [Except.ok.injEq] at h2
    subst h2
    exact ⟨h1.symm, rfl, rfl, rfl, rfl⟩

theorem sendRange_nonpos {σ : Type} (rd : Reader σ) (hdr : Header) (fuel : Nat) (to_read : Int)
    (w : World σ) (v : Vars) (h : to_read ≤ 0) :
    sendRange rd hdr fuel to_read w v = (w, .ok v) := by
  cases fuel with
  | zero => rfl
  | succ n =>
    unfold sendRange
    rw [if_neg (by omega)]

/-- One iteration of the read loop of the sparse path that goes on: either the
read ended the range, or it sent one packet with the bytes read. -/
theorem sendChunk_next_cases {σ : Type} (rd : Reader σ) (hdr : Header) (to_read : Int)
    (w : World σ) (v : Vars) (t : Int) (w' : World σ) (v' : Vars)
    (h : sendChunk rd hdr to_read w v = .next t w' v') :
    (readEndsRange rd to_read w = true ∧ t = 0 ∧ w'.responses = w.responses ∧
      v'.write_offset = v.write_offset) ∨
    (readEndsRange rd to_read w = false ∧
      ∃ p : FileBuffer, w'.responses = w.responses ++ [p] ∧ p.Eof = false ∧
        p.StoredSize = hdr.StoredSize ∧ p.Offset = toUint64 v.write_offset ∧
        1 ≤ p.Data.length ∧ (p.Data.length : Int) ≤ to_read ∧
        t = wrapInt64 (to_read - p.Data.length) ∧
        v'.write_offset = wrapInt64 (v.write_offset + p.Data.length)) := by
  have hsize := readSize_le to_read w.BUFF_SIZE
  unfold sendChunk at h
  dsimp only at h
  by_cases h1 : readSize to_read w.BUFF_SIZE < 0
  · rw [if_pos h1] at h
    cases h
  · rw [if_neg h1] at h
    split at h
    · cases h
    · by_cases h2 : ((rd.Read w.reader (readSize to_read w.BUFF_SIZE).toNat).2.1.length == 0 ||
          (rd.Read w.reader (readSize to_read w.BUFF_SIZE).toNat).2.2 == some Error.EOF) = true
      · rw [if_pos h2] at h
        cases h
        exact Or.inl ⟨h2, rfl, rfl, rfl⟩
      · rw [if_neg h2] at h
        by_cases h3 : (rd.Read w.reader (readSize to_read w.BUFF_SIZE).toNat).2.1.length >
            (readSize to_read w.BUFF_SIZE).toNat
        · rw [if_pos h3] at h
          cases h
        · rw [if_neg h3] at h
          split_ifs at h
          cases h
          refine Or.inr ⟨by simpa [readEndsRange] using h2, _, rfl, rfl, rfl, rfl, ?_, ?_, rfl, rfl⟩
          · simp only [Bool.or_eq_true, beq_iff_eq, not_or] at h2
            show 1 ≤ (rd.Read w.reader (readSize to_read w.BUFF_SIZE).toNat).2.1.length
            omega
          · show ((rd.Read w.reader (readSize to_read w.BUFF_SIZE).toNat).2.1.length : Int) ≤ to_read
            omega

theorem dataLength_cons (p : FileBuffer) (l : List FileBuffer) :
    dataLength (p :: l) = p.Data.length + dataLength l := by
  simp [dataLength]

theorem dataLength_append (l1 l2 : List FileBuffer) :
    dataLength (l1 ++ l2) = dataLength l1 + dataLength l2 := by
  simp [dataLength]

/-- The packets the read loop of one range adds: their data has the length by
which `write_offset` grows, at most `to_read`, and exactly `to_read` when no
read ends the range early. -/
theorem sendRange_sum {σ : Type} (rd : Reader σ) (hdr : Header) :
    ∀ (fuel : Nat) (to_read : Int) (w : World σ) (v : Vars) (w' : World σ) (v' : Vars),
      sendRange rd hdr fuel to_read w v = (w', .ok v') →
      0 ≤ v.write_offset → v.write_offset + max to_read 0 < 2 ^ 63 →
      ∃ added, w'.responses = w.responses ++ added ∧
        (∀ p ∈ added, p.Eof = false ∧ p.StoredSize = hdr.StoredSize) ∧
        v'.write_offset = v.write_offset + dataLength added ∧
        (dataLength added : Int) ≤ max to_read 0 ∧
        (rangeCutShort rd hdr fuel to_read w v = false → to_read.toNat ≤ fuel →
          (dataLength added : Int) = max to_read 0) := by
  intro fuel
  induction fuel with
  | zero =>
    intro to_read w v w' v' h h0 hb
    simp only [sendRange, Prod.mk.injEq, Except.ok.injEq] at h
    obtain ⟨rfl, rfl⟩ := h
    refine ⟨[], by simp, by simp, by simp [dataLength], by simp [dataLength], ?_⟩
    intro _ hf
    simp only [dataLength, List.map_nil, List.sum_nil, Nat.cast_zero]
    omega
  | succ n ih =>
    intro to_read w v w' v' h h0 hb
    by_cases hpos : to_read > 0
    · unfold sendRange at h
      rw [if_pos hpos] at h
      cases hc : sendChunk rd hdr to_read w v with
      | stop w1 a => rw [hc] at h; cases h
      | next t w1 v1 =>
        rw [hc] at h
        dsimp only at h
        rcases sendChunk_next_cases rd hdr to_read w v t w1 v1 hc with
          ⟨hend, ht, hresp, hwo⟩ | ⟨hend, p, hresp, hpe, hps, _, hp1, hple, ht, hwo⟩
        · subst ht
          rw [sendRange_nonpos rd hdr n 0 w1 v1 (le_refl _)] at h
          simp only [Prod.mk.injEq, Except.ok.injEq] at h
          obtain ⟨rfl, rfl⟩ := h
          refine ⟨[], by simp [hresp], by simp, by simp [dataLength, hwo],
            by simp [dataLength], ?_⟩
          intro hcut
          unfold rangeCutShort at hcut
          rw [if_pos hpos, hend] at hcut
          simp at hcut
        · have hmax : max to_read 0 = to_read := max_eq_left (le_of_lt hpos)
          rw [hmax] at hb
          have ht' : t = to_read - p.Data.length := by
            rw [ht]; exact wrapInt64_of_inRange _ (by omega) (by omega)
          have hwo' : v1.write_offset = v.write_offset + p.Data.length := by
            rw [hwo]; exact wrapInt64_of_inRange _ (by omega) (by omega)
          have hmt : max t 0 = t := max_eq_left (by omega)
          obtain ⟨added, hr, hall, hoff, hle, heq⟩ := ih t w1 v1 w' v' h (by omega)
            (by rw [hmt]; omega)
          refine ⟨p :: added, by simp [hr, hresp], ?_, ?_, ?_, ?_⟩
          · intro q hq
            rcases List.mem_cons.1 hq with rfl | hq
            · exact ⟨hpe, hps⟩
            · exact hall q hq
          · rw [hoff, hwo', dataLength_cons]; push_cast; ring
          · rw [dataLength_cons, hmax]; rw [hmt] at hle; push_cast; omega
          · intro hcut hf
            unfold rangeCutShort at hcut
            rw [if_pos hpos, hend, hc] at hcut
            simp only [Bool.false_or] at hcut
            have := heq hcut (by omega)
            rw [dataLength_cons, hmax]; rw [hmt] at this; push_cast; omega
    · rw [sendRange_nonpos rd hdr (n + 1) to_read w v (by omega)] at h
      simp only [Prod.mk.injEq, Except.ok.injEq] at h
      obtain ⟨rfl, rfl⟩ := h
      refine ⟨[], by simp, by simp, by simp [dataLength], by simp [dataLength], ?_⟩
      intro _ _
      simp only [dataLength, List.map_nil, List.sum_nil, Nat.cast_zero]
      omega

theorem sumNonSparse_cons (rng : Range) (rest : List Range) :
    sumNonSparse (rng :: rest) =
      (if rng.IsSparse then 0 else rng.Length) + sumNonSparse rest := by
  unfold sumNonSparse
  cases h : rng.IsSparse <;> simp [List.filter_cons, h]

theorem sumNonSparse_nonneg (ranges : List Range)
    (h : ∀ rng ∈ ranges, 0 ≤ rng.Length) : 0 ≤ sumNonSparse ranges := by
  induction ranges with
  | nil => simp [sumNonSparse]
  | cons rng rest ih =>
    rw [sumNonSparse_cons]
    have h1 := h rng (List.mem_cons_self _ _)
    have h2 := ih (fun r hr => h r (List.mem_cons_of_mem _ hr))
    split_ifs <;> omega

/-- The packets the loop over the ranges adds: their data has the length by
which `write_offset` grows, at most the total length of the non-hole ranges,
and exactly that length when no read ends a range early. -/
theorem sendRanges_sum {σ : Type} (rd : Reader σ) (rr : RangeReader σ) (hdr : Header) :
    ∀ (ranges : List Range) (w : World σ) (v : Vars) (w' : World σ) (v' : Vars),
      sendRanges rd rr hdr ranges w v = (w', .ok v') →
      (∀ rng ∈ ranges, 0 ≤ rng.Length) →
      0 ≤ v.write_offset → v.write_offset + sumNonSparse ranges < 2 ^ 63 →
      ∃ added, w'.responses = w.responses ++ added ∧
        (∀ p ∈ added, p.Eof = false ∧ p.StoredSize = hdr.StoredSize) ∧
        v'.write_offset = v.write_offset + dataLength added ∧
        (dataLength added : Int) ≤ sumNonSparse ranges ∧
        (rangesCutShort rd rr hdr ranges w v = false →
          (dataLength added : Int) = sumNonSparse ranges) := by
  intro ranges
  induction ranges with
  | nil =>
    intro w v w' v' h _ _ _
    simp only [sendRanges, Prod.mk.injEq, Except.ok.injEq] at h
    obtain ⟨rfl, rfl⟩ := h
    exact ⟨[], by simp, by simp, by simp [dataLength], by simp [dataLength, sumNonSparse],
      fun _ => by simp [dataLength, sumNonSparse]⟩
  | cons rng rest ih =>
    intro w v w' v' h hlen h0 hb
    have hrest : ∀ r ∈ rest, 0 ≤ r.Length := fun r hr => hlen r (List.mem_cons_of_mem _ hr)
    have hnn := sumNonSparse_nonneg rest hrest
    have hl := hlen rng (List.mem_cons_self _ _)
    rw [sumNonSparse_cons] at hb ⊢
    unfold sendRanges at h
    by_cases hsp : rng.IsSparse = true
    · rw [if_pos hsp] at h
      rw [if_pos hsp] at hb ⊢
      obtain ⟨added, h1, h2, h3, h4, h5⟩ := ih w v w' v' h hrest h0 (by omega)
      refine ⟨added, h1, h2, h3, by omega, ?_⟩
      intro hcut
      unfold rangesCutShort at hcut
      rw [if_pos hsp] at hcut
      have := h5 hcut
      omega
    · rw [if_neg hsp] at h
      rw [if_neg hsp] at hb ⊢
      dsimp only at h
      cases hs : (rr.Seek w.reader rng.Offset).2 with
      | some e => rw [hs] at h; cases h
      | none =>
        rw [hs] at h
        dsimp only at h
        rcases hr : sendRange rd hdr rng.Length.toNat rng.Length
            { w with reader := (rr.Seek w.reader rng.Offset).1 }
            { v with read_offset := rng.Offset } with ⟨w1, r1⟩
        rw [hr] at h
        cases r1 with
        | error a => cases h
        | ok v1 =>
          dsimp only at h
          have hmax : max rng.Length 0 = rng.Length := max_eq_left hl
          obtain ⟨a1, g1, g2, g3, g4, g5⟩ := sendRange_sum rd hdr rng.Length.toNat rng.Length
            { w with reader := (rr.Seek w.reader rng.Offset).1 }
            { v with read_offset := rng.Offset } w1 v1 hr h0
            (by rw [hmax]; show v.write_offset + rng.Length < 2 ^ 63; omega)
          rw [hmax] at g4 g5
          dsimp only at g1 g3
          obtain ⟨a2, k1, k2, k3, k4, k5⟩ := ih w1 v1 w' v' h hrest (by omega) (by omega)
          refine ⟨a1 ++ a2, by simp [k1, g1], ?_, ?_, ?_, ?_⟩
          · intro p hp
            rcases List.mem_append.1 hp with hp | hp
            · exact g2 p hp
            · exact k2 p hp
          · rw [k3, g3, dataLength_append]; push_cast; ring
          · rw [dataLength_append]; push_cast; omega
          · intro hcut
            unfold rangesCutShort at hcut
            rw [if_neg hsp, hs] at hcut
            dsimp only at hcut
            rw [hr] at hcut
            simp only [Bool.or_eq_false_iff] at hcut
            have e1 := g5 hcut.1 (le_refl _)
            have e2 := k5 hcut.2
            rw [dataLength_append]; push_cast; omega

theorem toUint64_cast (x : Int) (h0 : 0 ≤ x) (h1 : x < 2 ^ 64) : ((toUint64 x : Nat) : Int) = x := by
  unfold toUint64
  rw [Int.emod_eq_of_lt h0 h1]
  exact Int.toNat_of_nonneg h0

theorem toUint64_natCast (n : Nat) (h : (n : Int) < 2 ^ 64) : toUint64 (n : Int) = n := by
  have := toUint64_cast (n : Int) (by omega) h
  exact_mod_cast this

theorem maxEnd_nonneg (rs : List Range) : 0 ≤ maxEnd rs := by
  induction rs using List.reverseRecOn with
  | nil => simp [maxEnd]
  | append_singleton rs r ih =>
    rw [maxEnd_concat]
    exact le_max_of_le_left ih

/-- For ranges that end at non-negative positions below 2^63, `maxEnd` is the
largest end of a range. -/
theorem maxEnd_spec (rs : List Range)
    (h : ∀ rng ∈ rs, 0 ≤ rng.Offset + rng.Length ∧ rng.Offset + rng.Length < 2 ^ 63) :
    (∀ rng ∈ rs, rng.Offset + rng.Length ≤ maxEnd rs) ∧ maxEnd rs < 2 ^ 63 ∧
    (rs ≠ [] → ∃ rng ∈ rs, rng.Offset + rng.Length = maxEnd rs) := by
  induction rs using List.reverseRecOn with
  | nil => simp [maxEnd]
  | append_singleton rs r ih =>
    have hr := h r (by simp)
    have ih' := ih (fun x hx => h x (by simp [hx]))
    have hw : wrapInt64 (r.Offset + r.Length) = r.Offset + r.Length :=
      wrapInt64_of_inRange _ (by omega) hr.2
    rw [maxEnd_concat, hw]
    refine ⟨?_, ?_, ?_⟩
    · intro x hx
      rcases List.mem_append.1 hx with hx | hx
      · exact le_trans (ih'.1 x hx) (le_max_left _ _)
      · simp only [List.mem_singleton] at hx
        subst hx
        exact le_max_right _ _
    · exact max_lt ih'.2.1 hr.2
    · intro _
      by_cases hle : maxEnd rs ≤ r.Offset + r.Length
      · exact ⟨r, by simp, (max_eq_right hle).symm⟩
      · have hne : rs ≠ [] := by
          intro he
          subst he
          simp only [maxEnd, List.foldl_nil] at hle
          omega
        obtain ⟨x, hx, hxe⟩ := ih'.2.2 hne
        exact ⟨x, by simp [hx], by rw [hxe]; exact (max_eq_left (by omega)).symm⟩

theorem Uploads.FileRanges.lengths {rs : List Range} (h : FileRanges rs) :
    ∀ rng ∈ rs, 0 ≤ rng.Length :=
  fun rng hr => (h.1 rng hr).2.1

theorem Uploads.FileRanges.ends {rs : List Range} (h : FileRanges rs) :
    ∀ rng ∈ rs, 0 ≤ rng.Offset + rng.Length ∧ rng.Offset + rng.Length < 2 ^ 63 :=
  fun rng hr => ⟨by have := h.1 rng hr; omega, (h.1 rng hr).2.2⟩

theorem scanRanges_expected_exact (rs : List Range) (h : FileRanges rs) :
    (scanRanges rs).expected_size = sumNonSparse rs := by
  rw [scanRanges_expected_size]
  have := sumNonSparse_nonneg rs h.lengths
  exact wrapInt64_of_inRange _ (by omega) h.2

theorem tiledFrom_append (start : Nat) (l1 l2 : List FileBuffer) :
    tiledFrom start (l1 ++ l2) = (tiledFrom start l1 && tiledFrom (start + dataLength l1) l2) := by
  induction l1 generalizing start with
  | nil => simp [tiledFrom, dataLength]
  | cons p rest ih =>
    rw [List.cons_append, tiledFrom, tiledFrom, ih, dataLength_cons, Bool.and_assoc,
      Nat.add_assoc]

theorem concatData_append (l1 l2 : List FileBuffer) :
    concatData (l1 ++ l2) = concatData l1 ++ concatData l2 := by
  simp [concatData]

/-- One iteration of the read loop of the sparse path that goes on: the
hashers are given the data of the packet it sends, and nothing when it sends
none. -/
theorem sendChunk_next_hashes {σ : Type} (rd : Reader σ) (hdr : Header) (to_read : Int)
    (w : World σ) (v : Vars) (t : Int) (w' : World σ) (v' : Vars)
    (h : sendChunk rd hdr to_read w v = .next t w' v') :
    (w'.responses = w.responses ∧ v'.sha_sum = v.sha_sum ∧ v'.md5_sum = v.md5_sum) ∨
    (∃ p : FileBuffer, w'.responses = w.responses ++ [p] ∧
      v'.sha_sum = v.sha_sum ++ p.Data ∧ v'.md5_sum = v.md5_sum ++ p.Data) := by
  unfold sendChunk at h
  dsimp only at h
  by_cases h1 : readSize to_read w.BUFF_SIZE < 0
  · rw [if_pos h1] at h
    cases h
  · rw [if_neg h1] at h
    split at h
    · cases h
    · by_cases h2 : ((rd.Read w.reader (readSize to_read w.BUFF_SIZE).toNat).2.1.length == 0 ||
          (rd.Read w.reader (readSize to_read w.BUFF_SIZE).toNat).2.2 == some Error.EOF) = true
      · rw [if_pos h2] at h
        cases h
        exact Or.inl ⟨rfl, rfl, rfl⟩
      · rw [if_neg h2] at h
        by_cases h3 : (rd.Read w.reader (readSize to_read w.BUFF_SIZE).toNat).2.1.length >
            (readSize to_read w.BUFF_SIZE).toNat
        · rw [if_pos h3] at h
          cases h
        · rw [if_neg h3] at h
          split_ifs at h
          cases h
          exact Or.inr ⟨_, rfl, rfl, rfl⟩

/-- The packets the read loop of one range adds tile the stream from
`write_offset` on, and the hashers are given their data. -/
theorem sendRange_packets {σ : Type} (rd : Reader σ) (hdr : Header) :
    ∀ (fuel : Nat) (to_read : Int) (w : World σ) (v : Vars) (w' : World σ) (v' : Vars)
      (off : Nat),
      sendRange rd hdr fuel to_read w v = (w', .ok v') →
      v.write_offset = (off : Int) → (off : Int) + max to_read 0 < 2 ^ 63 →
      ∃ added, w'.responses = w.responses ++ added ∧
        v'.write_offset = ((off + dataLength added : Nat) : Int) ∧
        tiledFrom off added = true ∧
        v'.sha_sum = v.sha_sum ++ concatData added ∧
        v'.md5_sum = v.md5_sum ++ concatData added := by
  intro fuel
  induction fuel with
  | zero =>
    intro to_read w v w' v' off h h0 hb
    simp only [sendRange, Prod.mk.injEq, Except.ok.injEq] at h
    obtain ⟨rfl, rfl⟩ := h
    exact ⟨[], by simp, by simp [dataLength, h0], rfl, by simp [concatData],
      by simp [concatData]⟩
  | succ n ih =>
    intro to_read w v w' v' off h h0 hb
    by_cases hpos : to_read > 0
    · unfold sendRange at h
      rw [if_pos hpos] at h
      cases hc : sendChunk rd hdr to_read w v with
      | stop w1 a => rw [hc] at h; cases h
      | next t w1 v1 =>
        rw [hc] at h
        dsimp only at h
        rcases sendChunk_next_cases rd hdr to_read w v t w1 v1 hc with
          ⟨hend, ht, hresp, hwo⟩ | ⟨hend, p, hresp, hpe, hps, hpo, hp1, hple, ht, hwo⟩
        · subst ht
          rw [sendRange_nonpos rd hdr n 0 w1 v1 (le_refl _)] at h
          simp only [Prod.mk.injEq, Except.ok.injEq] at h
          obtain ⟨rfl, rfl⟩ := h
          rcases sendChunk_next_hashes rd hdr to_read w v 0 w1 v1 hc with
            ⟨_, hs, hm⟩ | ⟨q, hq, _, _⟩
          · exact ⟨[], by simp [hresp], by simp [dataLength, hwo, h0], rfl,
              by simp [concatData, hs], by simp [concatData, hm]⟩
          · rw [hresp] at hq
            have := congrArg List.length hq
            simp at this
        · have hmax : max to_read 0 = to_read := max_eq_left (le_of_lt hpos)
          rw [hmax] at hb
          have ht' : t = to_read - p.Data.length := by
            rw [ht]; exact wrapInt64_of_inRange _ (by omega) (by omega)
          have hwo' : v1.write_offset = ((off + p.Data.length : Nat) : Int) := by
            rw [hwo, h0]; push_cast; exact wrapInt64_of_inRange _ (by omega) (by omega)
          have hmt : max t 0 = t := max_eq_left (by omega)
          obtain ⟨added, hr, hoff, htile, hsha, hmd5⟩ := ih t w1 v1 w' v' (off + p.Data.length)
            h hwo' (by rw [hmt]; push_cast; omega)
          rcases sendChunk_next_hashes rd hdr to_read w v t w1 v1 hc with
            ⟨hq, _, _⟩ | ⟨q, hq, hs, hm⟩
          · rw [hresp] at hq
            have := congrArg List.length hq
            simp at this
          · have hqp : q = p := by
              rw [hresp] at hq
              have := List.append_cancel_left hq
              simpa using this.symm
            subst hqp
            refine ⟨q :: added, by simp [hr, hresp], ?_, ?_, ?_, ?_⟩
            · rw [hoff, dataLength_cons]; push_cast; ring
            · rw [tiledFrom, htile, Bool.and_true]
              rw [hpo, h0, toUint64_natCast off (by omega)]
              simp
            · rw [hsha, hs]; simp [concatData]
            · rw [hmd5, hm]; simp [concatData]
    · rw [sendRange_nonpos rd hdr (n + 1) to_read w v (by omega)] at h
      simp only [Prod.mk.injEq, Except.ok.injEq] at h
      obtain ⟨rfl, rfl⟩ := h
      exact ⟨[], by simp, by simp [dataLength, h0], rfl, by simp [concatData],
        by simp [concatData]⟩

/-- The packets the loop over the ranges adds tile the stream from
`write_offset` on, and the hashers are given their data. -/
theorem sendRanges_packets {σ : Type} (rd : Reader σ) (rr : RangeReader σ) (hdr : Header) :
    ∀ (ranges : List Range) (w : World σ) (v : Vars) (w' : World σ) (v' : Vars) (off : Nat),
      sendRanges rd rr hdr ranges w v = (w', .ok v') →
      (∀ rng ∈ ranges, 0 ≤ rng.Length) →
      v.write_offset = (off : Int) → (off : Int) + sumNonSparse ranges < 2 ^ 63 →
      ∃ added, w'.responses = w.responses ++ added ∧
        v'.write_offset = ((off + dataLength added : Nat) : Int) ∧
        tiledFrom off added = true ∧
        v'.sha_sum = v.sha_sum ++ concatData added ∧
        v'.md5_sum = v.md5_sum ++ concatData added := by
  intro ranges
  induction ranges with
  | nil =>
    intro w v w' v' off h _ h0 _
    simp only [sendRanges, Prod.mk.injEq, Except.ok.injEq] at h
    obtain ⟨rfl, rfl⟩ := h
    exact ⟨[], by simp, by simp [dataLength, h0], rfl, by simp [concatData],
      by simp [concatData]⟩
  | cons rng rest ih =>
    intro w v w' v' off h hlen h0 hb
    have hrest : ∀ r ∈ rest, 0 ≤ r.Length := fun r hr => hlen r (List.mem_cons_of_mem _ hr)
    have hnn := sumNonSparse_nonneg rest hrest
    have hl := hlen rng (List.mem_cons_self _ _)
    rw [sumNonSparse_cons] at hb
    unfold sendRanges at h
    by_cases hsp : rng.IsSparse = true
    · rw [if_pos hsp] at h
      rw [if_pos hsp] at hb
      exact ih w v w' v' off h hrest h0 (by omega)
    · rw [if_neg hsp] at h
      rw [if_neg hsp] at hb
      dsimp only at h
      cases hs : (rr.Seek w.reader rng.Offset).2 with
      | some e => rw [hs] at h; cases h
      | none =>
        rw [hs] at h
        dsimp only at h
        rcases hr : sendRange rd hdr rng.Length.toNat rng.Length
            { w with reader := (rr.Seek w.reader rng.Offset).1 }
            { v with read_offset := rng.Offset } with ⟨w1, r1⟩
        rw [hr] at h
        cases r1 with
        | error a => cases h
        | ok v1 =>
          dsimp only at h
          have hmax : max rng.Length 0 = rng.Length := max_eq_left hl
          obtain ⟨a1, g1, g2, g3, g4, g5⟩ := sendRange_packets rd hdr rng.Length.toNat
            rng.Length { w with reader := (rr.Seek w.reader rng.Offset).1 }
            { v with read_offset := rng.Offset } w1 v1 off hr h0
            (by rw [hmax]; omega)
          obtain ⟨b1, b2, b3, b4, b5⟩ := sendRange_sum rd hdr rng.Length.toNat rng.Length
            { w with reader := (rr.Seek w.reader rng.Offset).1 }
            { v with read_offset := rng.Offset } w1 v1 hr
            (by show 0 ≤ v.write_offset; omega)
            (by rw [hmax]; show v.write_offset + rng.Length < 2 ^ 63; omega)
          have hab : a1 = b1 := List.append_cancel_left (g1.symm.trans b2)
          rw [hmax, ← hab] at b5
          dsimp only at g1 g4 g5
          obtain ⟨a2, k1, k2, k3, k4, k5⟩ := ih w1 v1 w' v' (off + dataLength a1) h hrest g2
            (by push_cast; omega)
          refine ⟨a1 ++ a2, by simp [k1, g1], ?_, ?_, ?_, ?_⟩
          · rw [k2, dataLength_append]; push_cast; ring
          · rw [tiledFrom_append, g3, k3]; rfl
          · rw [k4, g4, concatData_append, List.append_assoc]
          · rw [k5, g5, concatData_append, List.append_assoc]

/-- The sparse path alone: the packets of a successful sparse upload of the
ranges of a file tile the stream from offset 0, and the digests of the result
are those of the data the packets carry. -/
theorem maybeUploadSparse_tiled {σ : Type} (dg : Digests) (rd : Reader σ)
    (rr : RangeReader σ) (filename : OSPath) (accessor : String)
    (store_as_name : Option OSPath) (mtime upload_id : Int) (w w' : World σ)
    (result : UploadResponse)
    (hrr : rd.asRangeReader = some rr)
    (hfile : FileRanges (rr.Ranges w.reader))
    (hok : maybeUploadSparse dg rd filename accessor store_as_name mtime upload_id w =
      (w', .ok result)) :
    ∃ added, w'.responses = w.responses ++ added ∧ tiledFrom 0 added = true ∧
      result.Sha256 = dg.sha256hex (concatData added) ∧
      result.Md5 = dg.md5hex (concatData added) := by
  by_cases h0 : (scanRanges (rr.Ranges w.reader)).expected_size = 0
  · rw [maybeUploadSparse_zero dg rd rr filename accessor store_as_name mtime upload_id w hrr h0]
      at hok
    simp only [Prod.mk.injEq, Except.ok.injEq] at hok
    obtain ⟨rfl, rfl⟩ := hok
    exact ⟨[_], rfl, rfl, rfl, rfl⟩
  · obtain ⟨w1, v1, hs, hw', -, -, hsha, hmd5⟩ := maybeUploadSparse_sent dg rd rr filename
      accessor store_as_name mtime upload_id w w' result hrr h0 hok
    obtain ⟨added, h1, h2, h3, h4, h5⟩ := sendRanges_packets rd rr _ _ _ _ w1 v1 0 hs
      hfile.lengths rfl (by have := hfile.2; push_cast; omega)
    obtain ⟨b1, b2, -, -, b5, -⟩ := sendRanges_sum rd rr _ _ _ _ w1 v1 hs hfile.lengths
      (le_refl _) (by show (0 : Int) + _ < _; have := hfile.2; omega)
    have hab : added = b1 := List.append_cancel_left (h1.symm.trans b2)
    rw [← hab] at b5
    have hsum := hfile.2
    refine ⟨added ++ [sparseEofPacket (store_as_name.getD filename) accessor upload_id
      (scanRanges (rr.Ranges w.reader)) v1.write_offset], ?_, ?_, ?_, ?_⟩
    · rw [hw']
      show w1.responses ++ [_] = _
      rw [h1]
      simp
    · rw [tiledFrom_append, h3, Bool.true_and, tiledFrom, tiledFrom, Bool.and_true]
      show (toUint64 v1.write_offset == 0 + dataLength added) = true
      rw [h2, toUint64_natCast _ (by push_cast; omega)]
      simp
    · rw [hsha, h4, concatData_append]
      simp [concatData, sparseEofPacket]
    · rw [hmd5, h5, concatData_append]
      simp [concatData, sparseEofPacket]

/-- The packet one iteration of the dense loop adds, if any, carries the offset
of the iteration, and the next iteration starts behind its data. -/
theorem denseChunk_tiled {σ : Type} (dg : Digests) (rd : Reader σ) (a : DenseArgs)
    (result : UploadResponse) (offset : Nat) (sha_sum md5_sum : Bytes) (w : World σ) :
    (∀ o s m w', denseChunk dg rd a result offset sha_sum md5_sum w = .next o s m w' →
      ∃ p : FileBuffer, w'.responses = w.responses ++ [p] ∧ p.Offset = offset ∧
        o = (offset + p.Data.length) % 2 ^ 64) ∧
    (∀ w' r, denseChunk dg rd a result offset sha_sum md5_sum w = .done w' r →
      w'.responses = w.responses ∨
        ∃ p : FileBuffer, w'.responses = w.responses ++ [p] ∧ p.Offset = offset) := by
  unfold denseChunk
  dsimp only
  constructor
  · intro o s m w' h
    split at h
    · cases h
    · split_ifs at h
      cases h
      exact ⟨_, rfl, rfl, rfl⟩
  · intro w' r h
    split at h
    · cases h
      exact Or.inl rfl
    · split_ifs at h <;> cases h
      · exact Or.inl rfl
      · exact Or.inl rfl
      · exact Or.inr ⟨_, rfl, rfl⟩

/-- The dense path alone: whatever the result, the packets the dense loop adds
tile the stream from its start offset, as long as the offsets fit `uint64`. -/
theorem denseLoop_tiled {σ : Type} (dg : Digests) (rd : Reader σ) (a : DenseArgs)
    (result : UploadResponse) :
    ∀ (fuel offset : Nat) (sha_sum md5_sum : Bytes) (w w' : World σ)
      (r : Except Abort UploadResponse),
      denseLoop dg rd a result fuel offset sha_sum md5_sum w = some (w', r) →
      ∃ added, w'.responses = w.responses ++ added ∧
        (offset + dataLength added < 2 ^ 64 → tiledFrom offset added = true) := by
  intro fuel
  induction fuel with
  | zero => intro offset sha_sum md5_sum w w' r h; simp [denseLoop] at h
  | succ n ih =>
    intro offset sha_sum md5_sum w w' r h
    unfold denseLoop at h
    obtain ⟨hnext, hdone⟩ := denseChunk_tiled dg rd a result offset sha_sum md5_sum w
    cases hc : denseChunk dg rd a result offset sha_sum md5_sum w with
    | done w1 r1 =>
      rw [hc] at h
      simp only [Option.some.injEq, Prod.mk.injEq] at h
      obtain ⟨rfl, rfl⟩ := h
      rcases hdone w1 r1 hc with h1 | ⟨p, h1, h2⟩
      · exact ⟨[], by simp [h1], fun _ => rfl⟩
      · exact ⟨[p], h1, fun _ => by simp [tiledFrom, h2]⟩
    | next o s m w1 =>
      rw [hc] at h
      dsimp only at h
      obtain ⟨p, h1, h2, h3⟩ := hnext o s m w1 hc
      obtain ⟨added, k1, k2⟩ := ih o s m w1 w' r h
      refine ⟨p :: added, by simp [k1, h1], ?_⟩
      intro hb
      rw [dataLength_cons] at hb
      have ho : o = offset + p.Data.length := by
        rw [h3]; exact Nat.mod_eq_of_lt (by omega)
      rw [tiledFrom, ← ho, k2 (by omega)]
      simp [h2]

theorem plainPackets_refl (l : List FileBuffer) : PlainPackets l l :=
  ⟨[], by simp, by simp⟩

theorem plainPackets_trans {l1 l2 l3 : List FileBuffer} (h1 : PlainPackets l1 l2)
    (h2 : PlainPackets l2 l3) : PlainPackets l1 l3 := by
  obtain ⟨a, ha, ha'⟩ := h1
  obtain ⟨b, hb, hb'⟩ := h2
  refine ⟨a ++ b, by rw [hb, ha, List.append_assoc], ?_⟩
  intro p hp
  rcases List.mem_append.1 hp with h | h
  · exact ha' p h
  · exact hb' p h

theorem sendChunk_next_plain {σ : Type} (rd : Reader σ) (hdr : Header) (to_read : Int)
    (w : World σ) (v : Vars) (t : Int) (w' : World σ) (v' : Vars)
    (h : sendChunk rd hdr to_read w v = .next t w' v') :
    PlainPackets w.responses w'.responses := by
  unfold sendChunk at h
  dsimp only at h
  split_ifs at h <;> (try split at h) <;> (try split_ifs at h) <;> cases h <;>
    first
    | exact plainPackets_refl _
    | exact ⟨[_], rfl, by simp⟩

theorem sendRange_plain {σ : Type} (rd : Reader σ) (hdr : Header) :
    ∀ (fuel : Nat) (to_read : Int) (w : World σ) (v : Vars),
      PlainPackets w.responses (sendRange rd hdr fuel to_read w v).1.responses := by
  intro fuel
  induction fuel with
  | zero => intro to_read w v; exact plainPackets_refl _
  | succ n ih =>
    intro to_read w v
    unfold sendRange
    split_ifs with h
    · cases hc : sendChunk rd hdr to_read w v with
      | next t w' v' =>
        exact plainPackets_trans (sendChunk_next_plain rd hdr to_read w v t w' v' hc)
          (ih t w' v')
      | stop w' a =>
        dsimp only
        rw [sendChunk_stop_responses rd hdr to_read w v w' a hc]
        exact plainPackets_refl _
    · exact plainPackets_refl _

/-- The packets the loop over the ranges adds carry neither the end-of-file
mark nor an index, whatever the outcome of the loop. -/
theorem sendRanges_plain {σ : Type} (rd : Reader σ) (rr : RangeReader σ) (hdr : Header) :
    ∀ (ranges : List Range) (w : World σ) (v : Vars),
      PlainPackets w.responses (sendRanges rd rr hdr ranges w v).1.responses := by
  intro ranges
  induction ranges with
  | nil => intro w v; exact plainPackets_refl _
  | cons rng rest ih =>
    intro w v
    unfold sendRanges
    split_ifs with h
    · exact ih w v
    · dsimp only
      cases hs : (rr.Seek w.reader rng.Offset).2 with
      | some e => exact plainPackets_refl _
      | none =>
        dsimp only
        have h1 := sendRange_plain rd hdr rng.Length.toNat rng.Length
          { w with reader := (rr.Seek w.reader rng.Offset).1 } { v with read_offset := rng.Offset }
        rcases hr : sendRange rd hdr rng.Length.toNat rng.Length
          { w with reader := (rr.Seek w.reader rng.Offset).1 }
          { v with read_offset := rng.Offset } with ⟨w1, r1⟩
        rw [hr] at h1
        cases r1 with
        | ok v1 => exact plainPackets_trans h1 (ih w1 v1)
        | error a => exact h1

/-- The packets of a sparse upload that returns a result: packets without the
end-of-file mark and without an index, then one packet with the mark, which
carries the index the first loop built when a range is a hole, and none
otherwise. -/
theorem maybeUploadSparse_packet_index {σ : Type} (dg : Digests) (rd : Reader σ)
    (rr : RangeReader σ) (filename : OSPath) (accessor : String)
    (store_as_name : Option OSPath) (mtime upload_id : Int) (w w' : World σ)
    (result : UploadResponse)
    (hrr : rd.asRangeReader = some rr)
    (hok : maybeUploadSparse dg rd filename accessor store_as_name mtime upload_id w =
      (w', .ok result)) :
    ∃ pre last, w'.responses = w.responses ++ pre ++ [last] ∧
      (∀ p ∈ pre, p.Eof = false ∧ p.Index = none) ∧ last.Eof = true ∧
      last.Index =
        if (rr.Ranges w.reader).any (fun rng => rng.IsSparse)
        then some (scanRanges (rr.Ranges w.reader)).index else none := by
  by_cases h0 : (scanRanges (rr.Ranges w.reader)).expected_size = 0
  · rw [maybeUploadSparse_zero dg rd rr filename accessor store_as_name mtime upload_id w hrr h0]
      at hok
    simp only [Prod.mk.injEq, Except.ok.injEq] at hok
    obtain ⟨rfl, rfl⟩ := hok
    refine ⟨[],
      { Pathspec := { Path := (store_as_name.getD filename).Path,
                      Components := (store_as_name.getD filename).Components,
                      Accessor := accessor },
        Size := toUint64 (scanRanges (rr.Ranges w.reader)).real_size,
        StoredSize := 0,
        IsSparse := (scanRanges (rr.Ranges w.reader)).is_sparse,
        Index := packetIndex (scanRanges (rr.Ranges w.reader)),
        Mtime := mtime,
        Eof := true,
        UploadNumber := upload_id }, ?_, by simp, rfl, packetIndex_eq _⟩
    simp [AddResponse]
  · obtain ⟨w1, v1, hs, hw', -, -, -, -⟩ := maybeUploadSparse_sent dg rd rr filename
      accessor store_as_name mtime upload_id w w' result hrr h0 hok
    have hp := sendRanges_plain rd rr
      (sparseHeader (store_as_name.getD filename) accessor mtime upload_id
        (scanRanges (rr.Ranges w.reader)))
      (rr.Ranges w.reader) { w with Count := wrapInt64 (w.Count + 1) } {}
    rw [hs] at hp
    obtain ⟨added, h1, h2⟩ := hp
    refine ⟨added, sparseEofPacket (store_as_name.getD filename) accessor upload_id
      (scanRanges (rr.Ranges w.reader)) v1.write_offset, ?_, h2, rfl, packetIndex_eq _⟩
    rw [hw']
    show w1.responses ++ [_] = _
    rw [h1]

end Helpers

section InventoryHelpers

open Inventory

theorem replaceTool_names (tool : Tool) (l : List Tool) :
    ((replaceTool tool l).1.map (fun t => t.Name) = l.map (fun t => t.Name)) ∧
    ((replaceTool tool l).2 = false → tool.Name ∉ l.map (fun t => t.Name)) := by
  induction l with
  | nil => simp [replaceTool]
  | cons item rest ih =>
    unfold replaceTool
    by_cases h : (item.Name == tool.Name) = true
    · rw [if_pos h]
      have h' : item.Name = tool.Name := by simpa using h
      simp [h']
    · rw [if_neg h]
      have h' : ¬ item.Name = tool.Name := by simpa using h
      refine ⟨by simp [ih.1], ?_⟩
      intro h2
      have := ih.2 h2
      simp only [List.map_cons, List.mem_cons, not_or]
      exact ⟨fun e => h' e.symm, this⟩

theorem storeTool_nodup (tool : Tool) (l : List Tool)
    (h : (l.map (fun t => t.Name)).Nodup) :
    ((storeTool tool l).map (fun t => t.Name)).Nodup := by
  unfold storeTool
  have hn := replaceTool_names tool l
  cases hb : (replaceTool tool l).2 with
  | true => simpa [hn.1] using h
  | false =>
    simp only [Bool.not_false, if_true, List.map_append, hn.1, List.map_cons, List.map_nil]
    rw [List.nodup_append]
    refine ⟨h, by simp, ?_⟩
    intro a ha hb'
    simp only [List.mem_singleton] at hb'
    subst hb'
    exact hn.2 hb ha

theorem addToolBody_names (env : Env) (config_obj : Config) (tool_request : Tool)
    (opts : ToolOptions) (aliased : Bool) (s : InventoryService)
    (h : (toolNames s).Nodup) :
    (toolNames (addToolBody env config_obj tool_request opts aliased s).1).Nodup := by
  unfold addToolBody
  dsimp only
  split_ifs
  · exact h
  · exact storeTool_nodup _ _ h

theorem AddToolWith_names
    (probe : InventoryService → Option (InventoryService × Except Error Tool))
    (evicts : InventoryService → Bool)
    (hprobe : ∀ s s' r, (toolNames s).Nodup → probe s = some (s', r) → (toolNames s').Nodup)
    (env : Env) (config_obj : Config) (tool_request : Tool) (opts : ToolOptions)
    (s s' : InventoryService) (e : Option Error) (h : (toolNames s).Nodup)
    (hr : AddToolWith probe evicts env config_obj tool_request opts s = some (s', e)) :
    (toolNames s').Nodup := by
  unfold AddToolWith at hr
  dsimp only at hr
  have hu : (toolNames (if opts.ArtifactDefinition = true
      then UpdateVersion { tool_request with Versions := [] } s else (s, false)).1).Nodup := by
    split_ifs
    · exact h
    · exact h
  generalize (if opts.ArtifactDefinition = true
      then UpdateVersion { tool_request with Versions := [] } s else (s, false)) = u at hr hu
  have key : ∀ (aliased : Bool) (s1 : InventoryService), (toolNames s1).Nodup →
      some (addToolBody env config_obj { tool_request with Versions := [] } opts aliased s1) =
        some (s', e) → (toolNames s').Nodup := by
    intro aliased s1 h1 h2
    have h3 : _ = s' := congrArg Prod.fst (Option.some.inj h2)
    rw [← h3]
    exact addToolBody_names _ _ _ _ _ _ h1
  split_ifs at hr with hup
  · cases hp : probe u.1 with
    | none => simp [hp] at hr
    | some pr =>
      obtain ⟨s1, r1⟩ := pr
      have h1 := hprobe u.1 s1 r1 hu hp
      rw [hp] at hr
      cases r1 with
      | ok existing =>
        dsimp only at hr
        split_ifs at hr
        · have h3 : s1 = s' := congrArg Prod.fst (Option.some.inj hr)
          rw [← h3]; exact h1
        · exact key _ s1 h1 hr
      | error err =>
        dsimp only at hr
        exact key _ s1 h1 hr
  · exact key _ u.1 hu hr

theorem ingestVersions_names
    (addTool : Tool → InventoryService → Option (InventoryService × Option Error))
    (hadd : ∀ v s s' e, (toolNames s).Nodup → addTool v s = some (s', e) → (toolNames s').Nodup) :
    ∀ (vs : List ToolDef) (s s' : InventoryService), (toolNames s).Nodup →
      ingestVersions addTool vs s = some s' → (toolNames s').Nodup := by
  intro vs
  induction vs with
  | nil => intro s s' h hr; simp [ingestVersions] at hr; subst hr; exact h
  | cons v rest ih =>
    intro s s' h hr
    unfold ingestVersions at hr
    cases ha : addTool { toToolDef := v } s with
    | none => simp [ha] at hr
    | some r =>
      obtain ⟨s1, e1⟩ := r
      rw [ha] at hr
      exact ih s1 s' (hadd _ _ _ _ h ha) hr

theorem ProbeToolInfo_names (env : Env) (config_obj : Config) :
    ∀ (fuel : Nat) (name : String) (s s' : InventoryService) (r : Except Error Tool),
      (toolNames s).Nodup → ProbeToolInfo env config_obj name fuel s = some (s', r) →
      (toolNames s').Nodup := by
  intro fuel
  induction fuel with
  | zero => intro name s s' r h hr; simp [ProbeToolInfo] at hr
  | succ n ih =>
    intro name s s' r h hr
    unfold ProbeToolInfo at hr
    cases hf : s.binaries.Tools.find? (fun tool => tool.Name == name) with
    | some tool =>
      simp only [hf] at hr
      cases hr; exact h
    | none =>
      simp only [hf] at hr
      split_ifs at hr with hp
      · cases hpp : env.parentProbe s.tick name with
        | error err =>
          simp only [hpp] at hr
          cases hr; exact h
        | ok tool =>
          simp only [hpp] at hr
          cases hi : ingestVersions
              (fun v s => AddToolWith (ProbeToolInfo env config_obj v.Name n)
                (fun _ => false) env config_obj v { ArtifactDefinition := true } s)
              tool.Versions { s with tick := s.tick + 1 } with
          | none => simp [hi] at hr
          | some s1 =>
            simp only [hi] at hr
            have h1 : (toolNames s1).Nodup := by
              refine ingestVersions_names _ ?_ tool.Versions
                { s with tick := s.tick + 1 } s1 h hi
              intro v s2 s3 e h2 h3
              exact AddToolWith_names _ _ (fun a b c hab hc => ih v.Name a b c hab hc)
                env config_obj v _ s2 s3 e h2 h3
            exact ih name s1 s' r h1 hr
      · cases hr; exact h

theorem AddTool_names (env : Env) (fuel : Nat) (config_obj : Config) (tool_request : Tool)
    (opts : ToolOptions) (s s' : InventoryService) (e : Option Error)
    (h : (toolNames s).Nodup)
    (hr : AddTool env fuel config_obj tool_request opts s = some (s', e)) :
    (toolNames s').Nodup :=
  AddToolWith_names _ _ (fun a b c hab hc => ProbeToolInfo_names env config_obj fuel _ a b c hab hc)
    env config_obj tool_request opts s s' e h hr

theorem RemoveTool_names (env : Env) (tool_name : String) (s : InventoryService)
    (h : (toolNames s).Nodup) : (toolNames (RemoveTool env tool_name s).1).Nodup := by
  have hs : toolNames (RemoveTool env tool_name s).1 =
      (s.binaries.Tools.filter (fun item => item.Name != tool_name)).map (fun t => t.Name) := by
    unfold RemoveTool
    dsimp only
    split <;> rfl
  rw [hs]
  exact List.Nodup.sublist (List.Sublist.map _ (List.filter_sublist _)) h

theorem runCalls_names (env : Env) :
    ∀ (calls : List Call) (s s' : InventoryService), (toolNames s).Nodup →
      runCalls env calls s = some s' → (toolNames s').Nodup := by
  intro calls
  induction calls with
  | nil => intro s s' h hr; simp [runCalls] at hr; subst hr; exact h
  | cons c rest ih =>
    intro s s' h hr
    unfold runCalls at hr
    cases hc : runCall env s c with
    | none => simp [hc] at hr
    | some s1 =>
      rw [hc] at hr
      refine ih s1 s' ?_ hr
      cases c with
      | addTool fuel config_obj tool_request opts =>
        simp only [runCall, Option.map_eq_some'] at hc
        obtain ⟨⟨s2, e⟩, h2, rfl⟩ := hc
        exact AddTool_names env fuel config_obj tool_request opts s s2 e h h2
      | removeTool tool_name =>
        simp only [runCall, Option.some.injEq] at hc
        subst hc
        exact RemoveTool_names env tool_name s h

theorem ProbeToolInfo_local (env : Env) (config_obj : Config) (name : String) (fuel : Nat)
    (s : InventoryService) (tool : Tool)
    (h : s.binaries.Tools.find? (fun tool => tool.Name == name) = some tool) :
    ProbeToolInfo env config_obj name (fuel + 1) s = some (s, .ok (addAllVersions s tool)) := by
  simp only [ProbeToolInfo, h]

theorem isDefinitionBetter_admin (old new : Tool) (hnew : new.AdminOverride = false)
    (hold : old.AdminOverride = true) : isDefinitionBetter old new = true := by
  simp [isDefinitionBetter, hnew, hold]

theorem AddTool_upgrade_skip (env : Env) (fuel : Nat) (config_obj : Config)
    (tool_request : Tool) (opts : ToolOptions) (s : InventoryService) (existing : Tool)
    (hfind : s.binaries.Tools.find? (fun tool => tool.Name == tool_request.Name) = some existing)
    (hadmin : existing.AdminOverride = true)
    (hreq : tool_request.AdminOverride = false)
    (hup : opts.Upgrade = true) :
    AddTool env (fuel + 1) config_obj tool_request opts s =
      some ((if opts.ArtifactDefinition then
        UpdateVersion { tool_request with Versions := [] } s else (s, false)).1, none) := by
  unfold AddTool AddToolWith
  dsimp only
  rw [if_pos hup]
  have hu : (if opts.ArtifactDefinition = true then
      UpdateVersion { tool_request with Versions := [] } s else (s, false)).1.binaries =
      s.binaries := by
    split_ifs <;> rfl
  rw [ProbeToolInfo_local env config_obj tool_request.Name fuel _ existing (by rw [hu]; exact hfind)]
  dsimp only
  rw [if_pos (isDefinitionBetter_admin (addAllVersions _ existing)
    { tool_request with Versions := [] } hreq hadmin)]

theorem addToolBody_tick (env : Env) (config_obj : Config) (tool_request : Tool)
    (opts : ToolOptions) (aliased : Bool) (s : InventoryService) :
    (addToolBody env config_obj tool_request opts aliased s).1.tick = s.tick + 1 := by
  unfold addToolBody
  dsimp only
  split_ifs <;> rfl

/-- An `AddTool` that passes the server URL check sets the version to the
reading of the clock. -/
theorem addToolBody_version (env : Env) (config_obj : Config) (tool_request : Tool)
    (opts : ToolOptions) (aliased : Bool) (s s' : InventoryService)
    (h : addToolBody env config_obj tool_request opts aliased s = (s', none)) :
    s'.binaries.Version = toUint64 (env.now s.tick) := by
  unfold addToolBody at h
  dsimp only at h
  split_ifs at h with h1
  · cases h
  · have := congrArg Prod.fst h
    dsimp only at this
    rw [← this]
    simp

theorem AddToolWith_tick
    (probe : InventoryService → Option (InventoryService × Except Error Tool))
    (evicts : InventoryService → Bool)
    (hprobe : ∀ s s' r, probe s = some (s', r) → s.tick ≤ s'.tick)
    (env : Env) (config_obj : Config) (tool_request : Tool) (opts : ToolOptions)
    (s s' : InventoryService) (e : Option Error)
    (hr : AddToolWith probe evicts env config_obj tool_request opts s = some (s', e)) :
    s.tick ≤ s'.tick := by
  unfold AddToolWith at hr
  dsimp only at hr
  have hu : (if opts.ArtifactDefinition = true
      then UpdateVersion { tool_request with Versions := [] } s else (s, false)).1.tick =
      s.tick := by
    split_ifs <;> rfl
  generalize (if opts.ArtifactDefinition = true
      then UpdateVersion { tool_request with Versions := [] } s else (s, false)) = u at hr hu
  have key : ∀ (aliased : Bool) (s1 : InventoryService), s.tick ≤ s1.tick →
      some (addToolBody env config_obj { tool_request with Versions := [] } opts aliased s1) =
        some (s', e) → s.tick ≤ s'.tick := by
    intro aliased s1 h1 h2
    have h3 : _ = s' := congrArg Prod.fst (Option.some.inj h2)
    rw [← h3, addToolBody_tick]
    omega
  split_ifs at hr with hup
  · cases hp : probe u.1 with
    | none => simp [hp] at hr
    | some pr =>
      obtain ⟨s1, r1⟩ := pr
      have h1 := hprobe u.1 s1 r1 hp
      rw [hp] at hr
      cases r1 with
      | ok existing =>
        dsimp only at hr
        split_ifs at hr
        · have h3 : s1 = s' := congrArg Prod.fst (Option.some.inj hr)
          rw [← h3]; omega
        · exact key _ s1 (by omega) hr
      | error err =>
        dsimp only at hr
        exact key _ s1 (by omega) hr
  · exact key _ u.1 (by omega) hr

theorem ingestVersions_tick
    (addTool : Tool → InventoryService → Option (InventoryService × Option Error))
    (hadd : ∀ v s s' e, addTool v s = some (s', e) → s.tick ≤ s'.tick) :
    ∀ (vs : List ToolDef) (s s' : InventoryService),
      ingestVersions addTool vs s = some s' → s.tick ≤ s'.tick := by
  intro vs
  induction vs with
  | nil => intro s s' hr; simp [ingestVersions] at hr; subst hr; exact le_refl _
  | cons v rest ih =>
    intro s s' hr
    unfold ingestVersions at hr
    cases ha : addTool { toToolDef := v } s with
    | none => simp [ha] at hr
    | some r =>
      obtain ⟨s1, e1⟩ := r
      rw [ha] at hr
      exact le_trans (hadd _ _ _ _ ha) (ih s1 s' hr)

theorem ProbeToolInfo_tick (env : Env) (config_obj : Config) :
    ∀ (fuel : Nat) (name : String) (s s' : InventoryService) (r : Except Error Tool),
      ProbeToolInfo env config_obj name fuel s = some (s', r) → s.tick ≤ s'.tick := by
  intro fuel
  induction fuel with
  | zero => intro name s s' r hr; simp [ProbeToolInfo] at hr
  | succ n ih =>
    intro name s s' r hr
    unfold ProbeToolInfo at hr
    cases hf : s.binaries.Tools.find? (fun tool => tool.Name == name) with
    | some tool =>
      simp only [hf] at hr
      cases hr; exact le_refl _
    | none =>
      simp only [hf] at hr
      split_ifs at hr with hp
      · cases hpp : env.parentProbe s.tick name with
        | error err =>
          simp only [hpp] at hr
          cases hr; exact Nat.le_succ _
        | ok tool =>
          simp only [hpp] at hr
          cases hi : ingestVersions
              (fun v s => AddToolWith (ProbeToolInfo env config_obj v.Name n)
                (fun _ => false) env config_obj v { ArtifactDefinition := true } s)
              tool.Versions { s with tick := s.tick + 1 } with
          | none => simp [hi] at hr
          | some s1 =>
            simp only [hi] at hr
            have h1 : s.tick + 1 ≤ s1.tick := by
              refine ingestVersions_tick _ ?_ tool.Versions
                { s with tick := s.tick + 1 } s1 hi
              intro v s2 s3 e h3
              exact AddToolWith_tick _ _ (fun a b c hc => ih v.Name a b c hc)
                env config_obj v _ s2 s3 e h3
            have h2 := ih name s1 s' r hr
            omega
      · cases hr; exact le_refl _

theorem AddTool_tick (env : Env) (fuel : Nat) (config_obj : Config) (tool_request : Tool)
    (opts : ToolOptions) (s s' : InventoryService) (e : Option Error)
    (hr : AddTool env fuel config_obj tool_request opts s = some (s', e)) :
    s.tick ≤ s'.tick :=
  AddToolWith_tick _ _ (fun a b c hc => ProbeToolInfo_tick env config_obj fuel _ a b c hc)
    env config_obj tool_request opts s s' e hr

theorem runOps_tick (env : Env) :
    ∀ (ops : List Op) (s s' : InventoryService), runOps env ops s = some s' →
      s.tick ≤ s'.tick := by
  intro ops
  induction ops with
  | nil => intro s s' hr; simp [runOps] at hr; subst hr; exact le_refl _
  | cons op rest ih =>
    intro s s' hr
    unfold runOps at hr
    cases hc : runOp env s op with
    | none => simp [hc] at hr
    | some s1 =>
      rw [hc] at hr
      refine le_trans ?_ (ih s1 s' hr)
      cases op with
      | addTool fuel config_obj tool_request opts =>
        simp only [runOp, Option.map_eq_some'] at hc
        obtain ⟨⟨s2, e⟩, h2, rfl⟩ := hc
        exact AddTool_tick env fuel config_obj tool_request opts s s2 e h2
      | removeTool tool_name =>
        simp only [runOp, Option.some.injEq] at hc
        subst hc
        unfold RemoveTool
        dsimp only
        split <;> exact Nat.le_succ _
      | getToolInfo config_obj tool =>
        simp only [runOp, Option.some.injEq] at hc
        subst hc
        unfold GetToolInfo
        dsimp only
        split <;> exact Nat.le_succ _

/-- A successful `AddTool` that is not skipped by the upgrade rule sets the
version to a reading of the clock taken at or after the start of the call. -/
theorem AddTool_update_version (env : Env) (fuel : Nat) (config_obj : Config)
    (tool_request : Tool) (opts : ToolOptions) (s s' : InventoryService)
    (hr : AddTool env fuel config_obj tool_request opts s = some (s', none))
    (hskip : skippedByUpgrade (ProbeToolInfo env config_obj tool_request.Name fuel)
      tool_request opts s = false) :
    ∃ t, s.tick ≤ t ∧ s'.tick = t + 1 ∧ s'.binaries.Version = toUint64 (env.now t) := by
  unfold AddTool AddToolWith at hr
  unfold skippedByUpgrade at hskip
  dsimp only at hr
  have hu : (if opts.ArtifactDefinition = true
      then UpdateVersion { tool_request with Versions := [] } s else (s, false)).1.tick =
      s.tick := by
    split_ifs <;> rfl
  generalize (if opts.ArtifactDefinition = true
      then UpdateVersion { tool_request with Versions := [] } s else (s, false)) = u
    at hr hu hskip
  have key : ∀ (aliased : Bool) (s1 : InventoryService), s.tick ≤ s1.tick →
      some (addToolBody env config_obj { tool_request with Versions := [] } opts aliased s1) =
        some (s', none) →
      ∃ t, s.tick ≤ t ∧ s'.tick = t + 1 ∧ s'.binaries.Version = toUint64 (env.now t) := by
    intro aliased s1 h1 h2
    have h3 := Option.some.inj h2
    refine ⟨s1.tick, h1, ?_, addToolBody_version _ _ _ _ _ _ _ h3⟩
    have h4 : _ = s' := congrArg Prod.fst h3
    rw [← h4, addToolBody_tick]
  split_ifs at hr with hup
  · rw [hup] at hskip
    simp only [Bool.true_and] at hskip
    cases hp : ProbeToolInfo env config_obj tool_request.Name fuel u.1 with
    | none => simp [hp] at hr
    | some pr =>
      obtain ⟨s1, r1⟩ := pr
      have h1 := ProbeToolInfo_tick env config_obj fuel _ u.1 s1 r1 hp
      rw [hp] at hr hskip
      cases r1 with
      | ok existing =>
        dsimp only at hr hskip
        rw [if_neg (by simp [hskip])] at hr
        exact key _ s1 (by omega) hr
      | error err =>
        dsimp only at hr
        exact key _ s1 (by omega) hr
  · exact key _ u.1 (by omega) hr

/-- The loop of `GetToolInfo` stops at the first record of the name. -/
theorem getToolLoop_find (env : Env) (client : Bool) (t : Nat) (config_obj : Config)
    (tool : String) :
    ∀ (tools : List Tool) (item : Tool),
      tools.find? (fun x => x.Name == tool) = some item →
      (getToolLoop env client t config_obj tool tools).2 =
        some (if item.Hash == "" then materializeTool env client t config_obj item
              else (item, none)) := by
  intro tools
  induction tools with
  | nil => intro item h; simp at h
  | cons x rest ih =>
    intro item h
    unfold getToolLoop
    by_cases hx : (x.Name == tool) = true
    · simp only [List.find?_cons, hx, Option.some.injEq] at h
      subst h
      rw [if_pos hx]
      split_ifs <;> rfl
    · have hx' : (x.Name == tool) = false := by simpa using hx
      simp only [List.find?_cons, hx'] at h
      rw [if_neg hx]
      exact ih item h

/-- The run of `materializeTool` in which every step succeeds. -/
theorem materializeTool_ok (env : Env) (t : Nat) (config_obj : Config) (item : Tool)
    (hurl : item.Url ≠ "") (hgithub : item.GithubProject = "")
    (horg : (env.download t config_obj item).orgConfig = none)
    (hfs : (env.download t config_obj item).fileStore = true)
    (hwrite : (env.download t config_obj item).writeFile = none)
    (htrunc : (env.download t config_obj item).truncate = none)
    (hreq : (env.download t config_obj item).newRequest = none)
    (hdo : (env.download t config_obj item).doErr = none)
    (hstatus : (env.download t config_obj item).StatusCode = 200)
    (hcopy : (env.download t config_obj item).copy = none)
    (hlocal : item.ServeLocally = true → serverUrls config_obj ≠ [])
    (hdb : env.getDB t = none) (hset : env.setSubject t = none) :
    materializeTool env true t config_obj item =
      ({ item with
          Hash := env.sha256hex (env.download t config_obj item).body,
          ServeUrl :=
            if item.ServeLocally then
              (serverUrls config_obj).headD "" ++ "public/" ++ item.FilestorePath
            else item.Url }, none) := by
  unfold materializeTool
  have hne : ¬ ((item.ServeLocally && (serverUrls config_obj).length == 0) = true) := by
    intro hc
    simp only [Bool.and_eq_true, beq_iff_eq, List.length_eq_zero] at hc
    exact hlocal hc.1 hc.2
  simp only [Bool.not_true, Bool.false_eq_true, if_false, hgithub, bne_self_eq_false,
    horg, hfs, hwrite, htrunc, hreq, hdo, hstatus, hcopy, Option.isSome_none,
    Option.isNone_none, if_true, hdb, hset]
  have hu : (item.Url == "") = false := by simpa using hurl
  simp only [hu, Bool.false_eq_true, if_false]
  rw [if_neg hne]
  split_ifs <;> rfl

theorem public_url_ne_empty (a b : String) : a ++ "public/" ++ b ≠ "" := by
  intro h
  have := congrArg String.length h
  simp only [String.length_append] at this
  have h7 : "public/".length = 7 := by decide
  have h0 : "".length = 0 := by decide
  omega

/-- `materializeTool` is its two parts, one after the other. -/
theorem materializeTool_parts (env : Env) (client : Bool) (t : Nat) (config_obj : Config)
    (tool : Tool) :
    materializeTool env client t config_obj tool =
      if !client then (tool, some (.msg "Client not configured"))
      else
        match resolveGithub env (env.download t config_obj tool) tool with
        | (tool1, some err) => (tool1, some err)
        | (tool1, none) => fetchTool env t config_obj (env.download t config_obj tool) tool1 :=
  rfl

theorem resolveGithub_fields (env : Env) (d : Download) (tool : Tool) :
    (resolveGithub env d tool).1.Hash = tool.Hash ∧
    (resolveGithub env d tool).1.ServeUrl = tool.ServeUrl ∧
    (resolveGithub env d tool).1.ServeLocally = tool.ServeLocally ∧
    (resolveGithub env d tool).1.Name = tool.Name := by
  unfold resolveGithub
  dsimp only
  split_ifs <;> (try split) <;> exact ⟨rfl, rfl, rfl, rfl⟩

theorem fetchTool_servable (env : Env) (t : Nat) (config_obj : Config) (d : Download)
    (tool : Tool) (h : Servable tool) :
    Servable (fetchTool env t config_obj d tool).1 := by
  unfold fetchTool
  by_cases hu : (tool.Url == "") = true
  · rw [if_pos hu]; exact h
  rw [if_neg hu]
  have hurl : tool.Url ≠ "" := by simpa using hu
  by_cases h1 : d.orgConfig.isSome = true
  · rw [if_pos h1]; exact h
  rw [if_neg h1]
  by_cases h2 : (!d.fileStore) = true
  · rw [if_pos h2]; exact h
  rw [if_neg h2]
  by_cases h3 : d.writeFile.isSome = true
  · rw [if_pos h3]; exact h
  rw [if_neg h3]
  by_cases h4 : d.truncate.isSome = true
  · rw [if_pos h4]; exact h
  rw [if_neg h4]
  by_cases h5 : d.newRequest.isSome = true
  · rw [if_pos h5]; exact h
  rw [if_neg h5]
  by_cases h6 : d.doErr.isSome = true
  · rw [if_pos h6]; exact h
  rw [if_neg h6]
  by_cases h7 : (d.StatusCode != 200) = true
  · rw [if_pos h7]; exact h
  rw [if_neg h7]
  dsimp only
  have hb := h.2
  cases hsl : tool.ServeLocally <;> cases hcp : d.copy.isNone <;>
    cases hlen : ((serverUrls config_obj).length == 0) <;>
    simp only [hsl, hcp, hlen, Bool.false_eq_true, if_false, if_true, Bool.and_true,
      Bool.and_false, Bool.false_and, Bool.true_and] <;>
    (try split) <;>
    (constructor <;> intro hx <;>
      first
      | exact hurl
      | exact public_url_ne_empty _ _
      | exact hb hsl)

theorem materializeTool_servable (env : Env) (client : Bool) (t : Nat) (config_obj : Config)
    (tool : Tool) (h : Servable tool) :
    Servable (materializeTool env client t config_obj tool).1 := by
  rw [materializeTool_parts]
  split_ifs
  · exact h
  · have hf := resolveGithub_fields env (env.download t config_obj tool) tool
    split
    · rename_i tool1 err heq
      rw [heq] at hf
      dsimp only at hf ⊢
      exact ⟨by rw [hf.1, hf.2.1]; exact h.1, by rw [hf.2.2.1, hf.2.1]; exact h.2⟩
    · rename_i tool1 heq
      rw [heq] at hf
      dsimp only at hf
      exact fetchTool_servable _ _ _ _ _
        ⟨by rw [hf.1, hf.2.1]; exact h.1, by rw [hf.2.2.1, hf.2.1]; exact h.2⟩

theorem replaceTool_mem (tool : Tool) (l : List Tool) :
    ∀ x ∈ (replaceTool tool l).1, x = tool ∨ x ∈ l := by
  induction l with
  | nil => intro x hx; simp [replaceTool] at hx
  | cons item rest ih =>
    intro x hx
    unfold replaceTool at hx
    split_ifs at hx
    · rcases List.mem_cons.1 hx with h | h
      · exact Or.inl h
      · exact Or.inr (List.mem_cons_of_mem _ h)
    · rcases List.mem_cons.1 hx with h | h
      · exact Or.inr (by rw [h]; exact List.mem_cons_self _ _)
      · rcases ih x h with h | h
        · exact Or.inl h
        · exact Or.inr (List.mem_cons_of_mem _ h)

theorem storeTool_mem (tool : Tool) (l : List Tool) :
    ∀ x ∈ storeTool tool l, x = tool ∨ x ∈ l := by
  intro x hx
  unfold storeTool at hx
  split_ifs at hx
  · rcases List.mem_append.1 hx with h | h
    · exact replaceTool_mem tool l x h
    · exact Or.inl (by simpa using h)
  · exact replaceTool_mem tool l x hx

/-- The record `AddTool` stores for a request that has no hash or names a serve
URL is `Servable`, when the server URL check passes. -/
theorem completeTool_servable (env : Env) (config_obj : Config) (tool_request : Tool)
    (opts : ToolOptions)
    (hreq : tool_request.Hash = "" ∨ tool_request.ServeUrl ≠ "") :
    Servable (completeTool env config_obj
      (cloneRequest env config_obj (markAdmin opts tool_request))) := by
  have hm : (markAdmin opts tool_request).Hash = tool_request.Hash ∧
      (markAdmin opts tool_request).ServeUrl = tool_request.ServeUrl := by
    unfold markAdmin
    split_ifs <;> exact ⟨rfl, rfl⟩
  generalize markAdmin opts tool_request = r at hm
  have hc : (cloneRequest env config_obj r).Hash = tool_request.Hash ∧
      (cloneRequest env config_obj r).ServeUrl = tool_request.ServeUrl := by
    unfold cloneRequest
    dsimp only
    split_ifs <;> exact hm
  generalize cloneRequest env config_obj r = c at hc
  unfold completeTool
  dsimp only
  cases hsl : c.ServeLocally <;>
    simp only [hsl, Bool.false_eq_true, if_false, if_true] <;>
    split_ifs <;>
    (constructor <;> intro hx <;>
      first
      | exact public_url_ne_empty _ _
      | (simp [hsl] at hx; done)
      | (rcases hreq with hr | hr
         · exact absurd (hc.1.trans hr) hx
         · rw [hc.2]; exact hr))

theorem addToolBody_servable (env : Env) (config_obj : Config) (tool_request : Tool)
    (opts : ToolOptions) (aliased : Bool) (s : InventoryService)
    (hreq : tool_request.Hash = "" ∨ tool_request.ServeUrl ≠ "")
    (h : AllServable s) :
    AllServable (addToolBody env config_obj tool_request opts aliased s).1 := by
  unfold addToolBody
  dsimp only
  split_ifs
  · exact h
  · intro x hx
    rcases storeTool_mem _ _ x hx with hx | hx
    · rw [hx]; exact completeTool_servable env config_obj tool_request opts hreq
    · exact h x hx

theorem AddToolWith_servable
    (probe : InventoryService → Option (InventoryService × Except Error Tool))
    (evicts : InventoryService → Bool)
    (hprobe : ∀ s s' r, AllServable s → probe s = some (s', r) → AllServable s')
    (env : Env) (config_obj : Config) (tool_request : Tool) (opts : ToolOptions)
    (s s' : InventoryService) (e : Option Error)
    (hreq : tool_request.Hash = "" ∨ tool_request.ServeUrl ≠ "")
    (h : AllServable s)
    (hr : AddToolWith probe evicts env config_obj tool_request opts s = some (s', e)) :
    AllServable s' := by
  unfold AddToolWith at hr
  dsimp only at hr
  have hu : AllServable (if opts.ArtifactDefinition = true
      then UpdateVersion { tool_request with Versions := [] } s else (s, false)).1 := by
    split_ifs
    · exact h
    · exact h
  generalize (if opts.ArtifactDefinition = true
      then UpdateVersion { tool_request with Versions := [] } s else (s, false)) = u at hr hu
  have key : ∀ (aliased : Bool) (s1 : InventoryService), AllServable s1 →
      some (addToolBody env config_obj { tool_request with Versions := [] } opts aliased s1) =
        some (s', e) → AllServable s' := by
    intro aliased s1 h1 h2
    have h3 : _ = s' := congrArg Prod.fst (Option.some.inj h2)
    rw [← h3]
    exact addToolBody_servable _ _ _ _ _ _ hreq h1
  split_ifs at hr with hup
  · cases hp : probe u.1 with
    | none => simp [hp] at hr
    | some pr =>
      obtain ⟨s1, r1⟩ := pr
      have h1 := hprobe u.1 s1 r1 hu hp
      rw [hp] at hr
      cases r1 with
      | ok existing =>
        dsimp only at hr
        split_ifs at hr
        · have h3 : s1 = s' := congrArg Prod.fst (Option.some.inj hr)
          rw [← h3]; exact h1
        · exact key _ s1 h1 hr
      | error err =>
        dsimp only at hr
        exact key _ s1 h1 hr
  · exact key _ u.1 hu hr

theorem ingestVersions_servable
    (addTool : Tool → InventoryService → Option (InventoryService × Option Error)) :
    ∀ (vs : List ToolDef)
      (_ : ∀ v ∈ vs, ∀ s s' e, AllServable s → addTool { toToolDef := v } s = some (s', e) →
        AllServable s')
      (s s' : InventoryService), AllServable s →
      ingestVersions addTool vs s = some s' → AllServable s' := by
  intro vs
  induction vs with
  | nil => intro _ s s' h hr; simp [ingestVersions] at hr; subst hr; exact h
  | cons v rest ih =>
    intro hadd s s' h hr
    unfold ingestVersions at hr
    cases ha : addTool { toToolDef := v } s with
    | none => simp [ha] at hr
    | some r =>
      obtain ⟨s1, e1⟩ := r
      rw [ha] at hr
      exact ih (fun x hx => hadd x (List.mem_cons_of_mem _ hx)) s1 s'
        (hadd v (List.mem_cons_self _ _) _ _ _ h ha) hr

theorem ProbeToolInfo_servable (env : Env) (config_obj : Config)
    (hparent : ∀ t name tool, env.parentProbe t name = .ok tool →
      ∀ v ∈ tool.Versions, v.Hash = "" ∨ v.ServeUrl ≠ "") :
    ∀ (fuel : Nat) (name : String) (s s' : InventoryService) (r : Except Error Tool),
      AllServable s → ProbeToolInfo env config_obj name fuel s = some (s', r) →
      AllServable s' := by
  intro fuel
  induction fuel with
  | zero => intro name s s' r h hr; simp [ProbeToolInfo] at hr
  | succ n ih =>
    intro name s s' r h hr
    unfold ProbeToolInfo at hr
    cases hf : s.binaries.Tools.find? (fun tool => tool.Name == name) with
    | some tool =>
      simp only [hf] at hr
      cases hr; exact h
    | none =>
      simp only [hf] at hr
      split_ifs at hr with hp
      · cases hpp : env.parentProbe s.tick name with
        | error err =>
          simp only [hpp] at hr
          cases hr; exact h
        | ok tool =>
          simp only [hpp] at hr
          cases hi : ingestVersions
              (fun v s => AddToolWith (ProbeToolInfo env config_obj v.Name n)
                (fun _ => false) env config_obj v { ArtifactDefinition := true } s)
              tool.Versions { s with tick := s.tick + 1 } with
          | none => simp [hi] at hr
          | some s1 =>
            simp only [hi] at hr
            have h1 : AllServable s1 := by
              refine ingestVersions_servable _ tool.Versions ?_
                { s with tick := s.tick + 1 } s1 h hi
              intro v hv s2 s3 e h2 h3
              exact AddToolWith_servable _ _ (fun a b c hab hc => ih _ a b c hab hc)
                env config_obj _ _ s2 s3 e (hparent _ _ _ hpp v hv) h2 h3
            exact ih name s1 s' r h1 hr
      · cases hr; exact h

theorem getToolLoop_mem (env : Env) (client : Bool) (t : Nat) (config_obj : Config)
    (tool : String) :
    ∀ (tools : List Tool), ∀ x ∈ (getToolLoop env client t config_obj tool tools).1,
      x ∈ tools ∨ ∃ item ∈ tools, x = (materializeTool env client t config_obj item).1 := by
  intro tools
  induction tools with
  | nil => intro x hx; simp [getToolLoop] at hx
  | cons item rest ih =>
    intro x hx
    unfold getToolLoop at hx
    split_ifs at hx
    · rcases List.mem_cons.1 hx with h | h
      · exact Or.inr ⟨item, List.mem_cons_self _ _, h⟩
      · exact Or.inl (List.mem_cons_of_mem _ h)
    · exact Or.inl hx
    · rcases List.mem_cons.1 hx with h | h
      · exact Or.inl (by rw [h]; exact List.mem_cons_self _ _)
      · rcases ih x h with h | ⟨y, hy, he⟩
        · exact Or.inl (List.mem_cons_of_mem _ h)
        · exact Or.inr ⟨y, List.mem_cons_of_mem _ hy, he⟩

theorem GetToolInfo_servable (env : Env) (config_obj : Config) (tool : String)
    (s : InventoryService) (h : AllServable s) :
    AllServable (GetToolInfo env config_obj tool s).1 := by
  have hs : (GetToolInfo env config_obj tool s).1.binaries.Tools =
      (getToolLoop env s.Client s.tick config_obj tool s.binaries.Tools).1 := by
    unfold GetToolInfo
    dsimp only
    split <;> rfl
  intro x hx
  rw [hs] at hx
  rcases getToolLoop_mem _ _ _ _ _ _ x hx with h1 | ⟨y, hy, he⟩
  · exact h x h1
  · rw [he]; exact materializeTool_servable _ _ _ _ _ (h y hy)

theorem RemoveTool_servable (env : Env) (tool_name : String) (s : InventoryService)
    (h : AllServable s) : AllServable (RemoveTool env tool_name s).1 := by
  have hs : (RemoveTool env tool_name s).1.binaries.Tools =
      s.binaries.Tools.filter (fun item => item.Name != tool_name) := by
    unfold RemoveTool
    dsimp only
    split <;> rfl
  intro x hx
  rw [hs] at hx
  exact h x (List.mem_of_mem_filter hx)

theorem runOps_servable (env : Env)
    (hparent : ∀ t name tool, env.parentProbe t name = .ok tool →
      ∀ v ∈ tool.Versions, v.Hash = "" ∨ v.ServeUrl ≠ "") :
    ∀ (ops : List Op) (s s' : InventoryService), (∀ op ∈ ops, opServable op) →
      AllServable s → runOps env ops s = some s' → AllServable s' := by
  intro ops
  induction ops with
  | nil => intro s s' _ h hr; simp [runOps] at hr; subst hr; exact h
  | cons op rest ih =>
    intro s s' hops h hr
    unfold runOps at hr
    cases hc : runOp env s op with
    | none => simp [hc] at hr
    | some s1 =>
      rw [hc] at hr
      refine ih s1 s' (fun o ho => hops o (List.mem_cons_of_mem _ ho)) ?_ hr
      have hop := hops op (List.mem_cons_self _ _)
      cases op with
      | addTool fuel config_obj tool_request opts =>
        simp only [runOp, Option.map_eq_some'] at hc
        obtain ⟨⟨s2, e⟩, h2, rfl⟩ := hc
        exact AddToolWith_servable _ _
          (fun a b c hab hc => ProbeToolInfo_servable env config_obj hparent fuel _ a b c hab hc)
          env config_obj tool_request opts s s2 e hop h h2
      | removeTool tool_name =>
        simp only [runOp, Option.some.injEq] at hc
        subst hc
        exact RemoveTool_servable env tool_name s h
      | getToolInfo config_obj tool =>
        simp only [runOp, Option.some.injEq] at hc
        subst hc
        exact GetToolInfo_servable env config_obj tool s h

theorem replaceVersion_mem_self (t : Tool) (l : List Tool) :
    (replaceVersion t l).2 = true → t ∈ (replaceVersion t l).1 := by
  induction l with
  | nil => intro h; simp [replaceVersion] at h
  | cons v rest ih =>
    intro h
    unfold replaceVersion at h ⊢
    split_ifs at h ⊢
    · exact List.mem_cons_self _ _
    · exact List.mem_cons_of_mem _ (ih h)

theorem replaceVersion_mem_other (t : Tool) (l : List Tool) (x : Tool)
    (hx : x ∈ l) (hne : x.Artifact ≠ t.Artifact) : x ∈ (replaceVersion t l).1 := by
  induction l with
  | nil => simp at hx
  | cons v rest ih =>
    unfold replaceVersion
    split_ifs with hv
    · rcases List.mem_cons.1 hx with h | h
      · subst h
        exact absurd (by simpa using hv) hne
      · exact List.mem_cons_of_mem _ h
    · rcases List.mem_cons.1 hx with h | h
      · rw [h]; exact List.mem_cons_self _ _
      · exact List.mem_cons_of_mem _ (ih h)

theorem UpdateVersion_binaries (t : Tool) (s : InventoryService) :
    (UpdateVersion t s).1.binaries = s.binaries ∧ (UpdateVersion t s).1.parent = s.parent :=
  ⟨rfl, rfl⟩

theorem UpdateVersion_mem_self (t : Tool) (s : InventoryService) :
    t ∈ (UpdateVersion t s).1.versions t.Name := by
  unfold UpdateVersion
  simp only [beq_self_eq_true, if_true]
  cases h : (replaceVersion t (s.versions t.Name)).2
  · simp
  · simpa using replaceVersion_mem_self t _ h

theorem UpdateVersion_mem_other (t : Tool) (s : InventoryService) (name : String) (x : Tool)
    (hx : x ∈ s.versions name) (hne : x.Artifact ≠ t.Artifact) :
    x ∈ (UpdateVersion t s).1.versions name := by
  unfold UpdateVersion
  dsimp only
  by_cases hn : (name == t.Name) = true
  · rw [if_pos hn]
    have hn' : name = t.Name := by simpa using hn
    rw [hn'] at hx
    have := replaceVersion_mem_other t _ x hx hne
    split_ifs
    · exact List.mem_append_left _ this
    · exact this
  · rw [if_neg hn]
    exact hx

theorem completeTool_name (env : Env) (config_obj : Config) (tool : Tool) :
    (completeTool env config_obj tool).Name = tool.Name := by
  unfold completeTool
  dsimp only
  split_ifs <;> rfl

theorem cloneRequest_name (env : Env) (config_obj : Config) (tool : Tool) :
    (cloneRequest env config_obj tool).Name = tool.Name := by
  unfold cloneRequest
  dsimp only
  split_ifs <;> rfl

theorem cloneRequest_serveLocally (env : Env) (config_obj : Config) (tool : Tool) :
    (cloneRequest env config_obj tool).ServeLocally =
      (tool.ServeLocally && config_obj.Client.isSome) := by
  unfold cloneRequest
  dsimp only
  cases h1 : tool.ServeLocally <;> cases h2 : config_obj.Client <;> simp [h1]

theorem storeTool_mem_self (tool : Tool) (l : List Tool) :
    tool.Name ∈ (storeTool tool l).map (fun t => t.Name) := by
  unfold storeTool
  have hn := replaceTool_names tool l
  cases hb : (replaceTool tool l).2
  · simp
  · simp only [Bool.not_true, Bool.false_eq_true, if_false, hn.1]
    by_contra hc
    have : ∀ l : List Tool, (replaceTool tool l).2 = true →
        tool.Name ∈ l.map (fun t => t.Name) := by
      intro l
      induction l with
      | nil => intro h; simp [replaceTool] at h
      | cons item rest ih =>
        intro h
        unfold replaceTool at h
        split_ifs at h with hi
        · have : item.Name = tool.Name := by simpa using hi
          simp [this]
        · simp only [List.map_cons, List.mem_cons]
          exact Or.inr (ih h)
    exact hc (this l hb)

theorem storeTool_names_subset (tool : Tool) (l : List Tool) :
    ∀ n ∈ l.map (fun t => t.Name), n ∈ (storeTool tool l).map (fun t => t.Name) := by
  intro n hn
  unfold storeTool
  have h := (replaceTool_names tool l).1
  split_ifs
  · rw [List.map_append, h]
    exact List.mem_append_left _ hn
  · rw [h]; exact hn

/-- What `AddTool` with the option `ArtifactDefinition` alone does with a
variant that passes the server URL check. -/
theorem ingest_step (env : Env) (config_obj : Config)
    (probe : InventoryService → Option (InventoryService × Except Error Tool))
    (evicts : InventoryService → Bool)
    (v : ToolDef) (s : InventoryService) (hing : ingestible config_obj v = true) :
    ∃ s', AddToolWith probe evicts env config_obj { toToolDef := v }
        { ArtifactDefinition := true } s = some (s', none) ∧
      s'.parent = s.parent ∧
      (∀ n ∈ toolNames s, n ∈ toolNames s') ∧
      v.Name ∈ toolNames s' ∧
      ({ toToolDef := v } : Tool) ∈ s'.versions v.Name ∧
      (∀ name x, x ∈ s.versions name → x.Artifact ≠ v.Artifact → x ∈ s'.versions name) := by
  have hne : ¬ (((cloneRequest env config_obj
      (markAdmin { ArtifactDefinition := true } { toToolDef := v })).ServeLocally &&
      (serverUrls config_obj).length == 0) = true) := by
    rw [cloneRequest_serveLocally]
    unfold ingestible at hing
    simp only [markAdmin, Bool.false_eq_true, if_false]
    intro hc
    rw [hc] at hing
    simp at hing
  refine ⟨(addToolBody env config_obj { toToolDef := v } { ArtifactDefinition := true }
    (UpdateVersion { toToolDef := v } s).2 (UpdateVersion { toToolDef := v } s).1).1, ?_, ?_, ?_,
    ?_, ?_, ?_⟩
  · unfold AddToolWith
    simp only [Bool.false_eq_true, if_false, if_true]
    unfold addToolBody
    dsimp only
    rw [if_neg hne]
    simp only [Option.some.injEq, Prod.mk.injEq, true_and]
    split
    · rfl
    · split <;> rfl
  all_goals
    unfold addToolBody
    dsimp only
    rw [if_neg hne]
  · rfl
  · intro n hn
    exact storeTool_names_subset _ _ n hn
  · have := storeTool_mem_self
      (completeTool env config_obj (cloneRequest env config_obj
        (markAdmin { ArtifactDefinition := true } { toToolDef := v })))
      (UpdateVersion { toToolDef := v } s).1.binaries.Tools
    rw [completeTool_name, cloneRequest_name] at this
    exact this
  · exact UpdateVersion_mem_self { toToolDef := v } s
  · intro name x hx hne'
    exact UpdateVersion_mem_other { toToolDef := v } s name x hx hne'

/-- The ingestion of the variants of a parent: every variant passes into the
version map under its name, and a record of the name into the inventory. -/
theorem ingest_spec (env : Env) (config_obj : Config) (name : String) (fuel : Nat) :
    ∀ (vs : List ToolDef) (s : InventoryService),
      (∀ v ∈ vs, v.Name = name) → (∀ v ∈ vs, ingestible config_obj v = true) →
      (vs.map (fun v => v.Artifact)).Nodup →
      ∃ s', ingestVersions
          (fun v s => AddToolWith (ProbeToolInfo env config_obj v.Name fuel)
            (fun _ => false) env config_obj v { ArtifactDefinition := true } s) vs s = some s' ∧
        s'.parent = s.parent ∧
        (∀ n ∈ toolNames s, n ∈ toolNames s') ∧
        (vs ≠ [] → name ∈ toolNames s') ∧
        (∀ v ∈ vs, ({ toToolDef := v } : Tool) ∈ s'.versions name) ∧
        (∀ x ∈ s.versions name, (∀ v ∈ vs, x.Artifact ≠ v.Artifact) →
          x ∈ s'.versions name) := by
  intro vs
  induction vs with
  | nil =>
    intro s _ _ _
    exact ⟨s, rfl, rfl, fun n hn => hn, fun h => absurd rfl h, by simp, fun x hx _ => hx⟩
  | cons v rest ih =>
    intro s hnames hing hnd
    have hv := hnames v (List.mem_cons_self _ _)
    obtain ⟨s1, e1, p1, n1, m1, v1, o1⟩ := ingest_step env config_obj
      (ProbeToolInfo env config_obj v.Name fuel) (fun _ => false) v s
      (hing v (List.mem_cons_self _ _))
    rw [List.map_cons, List.nodup_cons] at hnd
    obtain ⟨s2, e2, p2, n2, _, v2, o2⟩ := ih s1
      (fun x hx => hnames x (List.mem_cons_of_mem _ hx))
      (fun x hx => hing x (List.mem_cons_of_mem _ hx)) hnd.2
    refine ⟨s2, ?_, by rw [p2, p1], fun n hn => n2 n (n1 n hn), ?_, ?_, ?_⟩
    · unfold ingestVersions
      have e1' : AddToolWith (ProbeToolInfo env config_obj ({ toToolDef := v } : Tool).Name fuel)
          (fun _ => false) env config_obj { toToolDef := v } { ArtifactDefinition := true } s =
          some (s1, none) := e1
      simp only [e1']
      exact e2
    · intro _
      exact n2 name (by rw [← hv]; exact m1)
    · intro x hx
      rcases List.mem_cons.1 hx with h | h
      · subst h
        refine o2 _ (by rw [← hv]; exact v1) ?_
        intro y hy hc
        exact hnd.1 (List.mem_map.2 ⟨y, hy, hc.symm⟩)
      · exact v2 x h
    · intro x hx hall
      exact o2 x (o1 name x hx (hall v (List.mem_cons_self _ _)))
        (fun y hy => hall y (List.mem_cons_of_mem _ hy))

theorem find_of_name_mem (name : String) (tools : List Tool)
    (h : name ∈ tools.map (fun t => t.Name)) :
    ∃ item, tools.find? (fun tool => tool.Name == name) = some item ∧ item ∈ tools ∧
      item.Name = name := by
  induction tools with
  | nil => simp at h
  | cons x rest ih =>
    by_cases hx : (x.Name == name) = true
    · exact ⟨x, by simp [List.find?_cons, hx], List.mem_cons_self _ _, by simpa using hx⟩
    · have hx' : (x.Name == name) = false := by simpa using hx
      have hr : name ∈ rest.map (fun t => t.Name) := by
        simp only [List.map_cons, List.mem_cons] at h
        rcases h with h | h
        · exact absurd (by simp [h]) hx
        · exact h
      obtain ⟨item, h1, h2, h3⟩ := ih hr
      exact ⟨item, by simp [List.find?_cons, hx', h1], List.mem_cons_of_mem _ h2, h3⟩

theorem replaceVersion_keyed (t : Tool) (l : List Tool)
    (hn : ∀ x ∈ l, x.Name = t.Name) (hd : (l.map (fun x => x.Artifact)).Nodup) :
    (∀ x ∈ (replaceVersion t l).1, x.Name = t.Name) ∧
    ((replaceVersion t l).2 = true → ((replaceVersion t l).1.map (fun x => x.Artifact)).Nodup) ∧
    ((replaceVersion t l).2 = false → (replaceVersion t l).1 = l ∧
      t.Artifact ∉ l.map (fun x => x.Artifact)) := by
  induction l with
  | nil => simp [replaceVersion]
  | cons v rest ih =>
    rw [List.map_cons, List.nodup_cons] at hd
    obtain ⟨ih1, ih2, ih3⟩ := ih (fun x hx => hn x (List.mem_cons_of_mem _ hx)) hd.2
    unfold replaceVersion
    by_cases hv : (v.Artifact == t.Artifact) = true
    · rw [if_pos hv]
      have hv' : v.Artifact = t.Artifact := by simpa using hv
      refine ⟨?_, ?_, ?_⟩
      · intro x hx
        rcases List.mem_cons.1 hx with h | h
        · rw [h]
        · exact hn x (List.mem_cons_of_mem _ h)
      · intro _
        rw [List.map_cons, List.nodup_cons, ← hv']
        exact hd
      · intro h; cases h
    · rw [if_neg hv]
      have hv' : ¬ v.Artifact = t.Artifact := by simpa using hv
      refine ⟨?_, ?_, ?_⟩
      · intro x hx
        rcases List.mem_cons.1 hx with h | h
        · rw [h]; exact hn v (List.mem_cons_self _ _)
        · exact ih1 x h
      · intro h
        have h2 := ih2 h
        show ((v :: (replaceVersion t rest).1).map (fun x => x.Artifact)).Nodup
        rw [List.map_cons, List.nodup_cons]
        refine ⟨?_, h2⟩
        intro hc
        obtain ⟨y, hy, hya⟩ := List.mem_map.1 hc
        have key : ∀ (l : List Tool) (y : Tool), y ∈ (replaceVersion t l).1 →
            y = t ∨ y ∈ l := by
          intro l
          induction l with
          | nil => intro y hy; simp [replaceVersion] at hy
          | cons w r ihr =>
            intro y hy
            unfold replaceVersion at hy
            split_ifs at hy
            · rcases List.mem_cons.1 hy with h | h
              · exact Or.inl h
              · exact Or.inr (List.mem_cons_of_mem _ h)
            · rcases List.mem_cons.1 hy with h | h
              · exact Or.inr (h ▸ List.mem_cons_self _ _)
              · rcases ihr y h with h | h
                · exact Or.inl h
                · exact Or.inr (List.mem_cons_of_mem _ h)
        rcases key rest y hy with h | h
        · rw [h] at hya
          exact hv' hya.symm
        · exact hd.1 (List.mem_map.2 ⟨y, h, hya⟩)
      · intro h
        obtain ⟨e, hnot⟩ := ih3 h
        refine ⟨?_, ?_⟩
        · show v :: (replaceVersion t rest).1 = v :: rest
          rw [e]
        · rw [List.map_cons, List.mem_cons]
          rintro (hc | hc)
          · exact hv' hc.symm
          · exact hnot hc

/-- The call `UpdateVersion` keeps the shape of the map `versions`. -/
theorem UpdateVersion_keyed (t : Tool) (s : InventoryService)
    (h : VersionsKeyed s.versions) : VersionsKeyed (UpdateVersion t s).1.versions := by
  intro name
  unfold UpdateVersion
  dsimp only
  by_cases hn : (name == t.Name) = true
  · rw [if_pos hn]
    have hn' : name = t.Name := by simpa using hn
    obtain ⟨k1, k2, k3⟩ := replaceVersion_keyed t (s.versions t.Name) (h t.Name).1 (h t.Name).2
    rw [hn']
    cases hb : (replaceVersion t (s.versions t.Name)).2
    · obtain ⟨e, hnot⟩ := k3 hb
      simp only [Bool.not_false, if_true, e]
      refine ⟨?_, ?_⟩
      · intro x hx
        rcases List.mem_append.1 hx with hx | hx
        · exact (h t.Name).1 x hx
        · rw [List.mem_singleton.1 hx]
      · rw [List.map_append, List.nodup_append]
        refine ⟨(h t.Name).2, by simp, ?_⟩
        intro a ha hb'
        simp only [List.map_cons, List.map_nil, List.mem_singleton] at hb'
        rw [hb'] at ha
        exact hnot ha
    · simp only [Bool.not_true, Bool.false_eq_true, if_false]
      exact ⟨k1, k2 hb⟩
  · rw [if_neg hn]
    exact h name

/-- What a store without a parent returns from `ProbeToolInfo`: the variants
its map holds under the name, so with a map of the shape `VersionsKeyed` they
carry the name and no two of them the same declaring artifact. -/
theorem ProbeToolInfo_root_versions (env : Env) (config_obj : Config) (name : String)
    (fuel : Nat) (s s' : InventoryService) (tool : Tool)
    (hroot : s.parent = false) (hk : VersionsKeyed s.versions)
    (h : ProbeToolInfo env config_obj name (fuel + 1) s = some (s', .ok tool)) :
    tool.Name = name ∧ (∀ v ∈ tool.Versions, v.Name = name) ∧
      (tool.Versions.map (fun v => v.Artifact)).Nodup := by
  rw [ProbeToolInfo] at h
  cases hf : s.binaries.Tools.find? (fun tool => tool.Name == name) with
  | none =>
    simp only [hf, hroot, Bool.false_eq_true, if_false] at h
    cases h
  | some item =>
    simp only [hf, Option.some.injEq, Prod.mk.injEq, Except.ok.injEq] at h
    have hname : item.Name = name := by simpa using List.find?_some hf
    rw [← h.2]
    simp only [addAllVersions, hname]
    refine ⟨trivial, ?_, ?_⟩
    · intro v hv
      obtain ⟨x, hx, hxv⟩ := List.mem_map.1 hv
      rw [← hxv]
      exact (hk name).1 x hx
    · rw [List.map_map]
      exact (hk name).2

theorem replaceTool_cases (tool : Tool) (l : List Tool) :
    ((∀ x ∈ l, x.Name ≠ tool.Name) ∧ replaceTool tool l = (l, false)) ∨
    ∃ pre old post, l = pre ++ old :: post ∧ old.Name = tool.Name ∧
      (∀ x ∈ pre, x.Name ≠ tool.Name) ∧ replaceTool tool l = (pre ++ tool :: post, true) := by
  induction l with
  | nil => exact Or.inl ⟨by simp, rfl⟩
  | cons item rest ih =>
    by_cases hi : (item.Name == tool.Name) = true
    · refine Or.inr ⟨[], item, rest, rfl, by simpa using hi, by simp, ?_⟩
      unfold replaceTool
      rw [if_pos hi]
      rfl
    · have hi' : item.Name ≠ tool.Name := by simpa using hi
      rcases ih with ⟨h1, h2⟩ | ⟨pre, old, post, h1, h2, h3, h4⟩
      · refine Or.inl ⟨?_, ?_⟩
        · intro x hx
          rcases List.mem_cons.1 hx with h | h
          · rw [h]; exact hi'
          · exact h1 x h
        · unfold replaceTool
          rw [if_neg hi, h2]
      · refine Or.inr ⟨item :: pre, old, post, by rw [h1]; rfl, h2, ?_, ?_⟩
        · intro x hx
          rcases List.mem_cons.1 hx with h | h
          · rw [h]; exact hi'
          · exact h3 x h
        · unfold replaceTool
          rw [if_neg hi, h4]
          rfl

/-- The two cases of "Replace the tool in the inventory": without a record of
the name the record is appended, otherwise it takes the place of the first
record of the name. -/
theorem storeTool_cases (tool : Tool) (l : List Tool) :
    ((∀ x ∈ l, x.Name ≠ tool.Name) ∧ storeTool tool l = l ++ [tool]) ∨
    ∃ pre old post, l = pre ++ old :: post ∧ old.Name = tool.Name ∧
      (∀ x ∈ pre, x.Name ≠ tool.Name) ∧ storeTool tool l = pre ++ tool :: post := by
  rcases replaceTool_cases tool l with ⟨h1, h2⟩ | ⟨pre, old, post, h1, h2, h3, h4⟩
  · refine Or.inl ⟨h1, ?_⟩
    unfold storeTool
    rw [h2]
    rfl
  · refine Or.inr ⟨pre, old, post, h1, h2, h3, ?_⟩
    unfold storeTool
    rw [h4]
    rfl

theorem storeTool_append (tool : Tool) (l : List Tool) (h : ∀ x ∈ l, x.Name ≠ tool.Name) :
    storeTool tool l = l ++ [tool] := by
  rcases storeTool_cases tool l with ⟨_, h2⟩ | ⟨pre, old, post, h1, h2, _, _⟩
  · exact h2
  · exact absurd h2 (h old (by rw [h1]; simp))

theorem storeTool_replace (tool old : Tool) (pre post : List Tool)
    (hold : old.Name = tool.Name) (hpre : ∀ x ∈ pre, x.Name ≠ tool.Name) :
    storeTool tool (pre ++ old :: post) = pre ++ tool :: post := by
  rcases storeTool_cases tool (pre ++ old :: post) with ⟨h1, _⟩ | ⟨pre2, old2, post2, h1, h2, h3, h4⟩
  · exact absurd hold (h1 old (by simp))
  · have key : ∀ (p1 p2 : List Tool) (o1 o2 : Tool) (q1 q2 : List Tool),
        p1 ++ o1 :: q1 = p2 ++ o2 :: q2 → o1.Name = tool.Name → o2.Name = tool.Name →
        (∀ x ∈ p1, x.Name ≠ tool.Name) → (∀ x ∈ p2, x.Name ≠ tool.Name) →
        p1 = p2 ∧ q1 = q2 := by
      intro p1
      induction p1 with
      | nil =>
        intro p2 o1 o2 q1 q2 he ho1 ho2 _ hp2
        cases p2 with
        | nil =>
          simp only [List.nil_append, List.cons.injEq] at he
          exact ⟨rfl, he.2⟩
        | cons y ys =>
          simp only [List.nil_append, List.cons_append, List.cons.injEq] at he
          exact absurd (he.1 ▸ ho1) (hp2 y (List.mem_cons_self _ _))
      | cons y ys ih =>
        intro p2 o1 o2 q1 q2 he ho1 ho2 hp1 hp2
        cases p2 with
        | nil =>
          simp only [List.nil_append, List.cons_append, List.cons.injEq] at he
          exact absurd (he.1 ▸ ho2) (hp1 y (List.mem_cons_self _ _))
        | cons z zs =>
          simp only [List.cons_append, List.cons.injEq] at he
          obtain ⟨e1, e2⟩ := ih zs o1 o2 q1 q2 he.2 ho1 ho2
            (fun x hx => hp1 x (List.mem_cons_of_mem _ hx))
            (fun x hx => hp2 x (List.mem_cons_of_mem _ hx))
          exact ⟨by rw [he.1, e1], e2⟩
    obtain ⟨e1, e2⟩ := key pre pre2 old old2 post post2 h1 hold h2 hpre h3
    rw [h4, e1, e2]

/-- Storing a record after a record of the same name is storing it alone. -/
theorem storeTool_storeTool (x tool : Tool) (l : List Tool) (h : x.Name = tool.Name) :
    storeTool tool (storeTool x l) = storeTool tool l := by
  rcases storeTool_cases x l with ⟨h1, h2⟩ | ⟨pre, old, post, h1, h2, h3, h4⟩
  · rw [h2, storeTool_replace tool x l [] h (fun y hy => h ▸ h1 y hy),
      storeTool_append tool l (fun y hy => h ▸ h1 y hy)]
  · rw [h4, h1, storeTool_replace tool x pre post h (fun y hy => h ▸ h3 y hy),
      storeTool_replace tool old pre post (h2.trans h) (fun y hy => h ▸ h3 y hy)]

theorem Inventory.StoredAt.unchanged (name : String) (l : List Tool) : StoredAt name l l :=
  Or.inl rfl

theorem Inventory.StoredAt.andThen {name : String} {l1 l2 l3 : List Tool}
    (h1 : StoredAt name l1 l2) (h2 : StoredAt name l2 l3) : StoredAt name l1 l3 := by
  rcases h2 with h2 | ⟨y, hy, h2⟩
  · rw [h2]; exact h1
  · rcases h1 with h1 | ⟨x, hx, h1⟩
    · rw [h1] at h2; exact Or.inr ⟨y, hy, h2⟩
    · refine Or.inr ⟨y, hy, ?_⟩
      rw [h2, h1, storeTool_storeTool x y _ (hx.trans hy.symm)]

theorem storedRecord_name (env : Env) (config_obj : Config) (tool_request : Tool)
    (opts : ToolOptions) : (storedRecord env config_obj tool_request opts).Name =
      tool_request.Name := by
  unfold storedRecord
  rw [completeTool_name, cloneRequest_name]
  unfold markAdmin
  split_ifs <;> rfl

/-- The part of `AddTool` from `if opts.AdminOverride` on, as a function of
the rejection for missing server URLs. -/
theorem addToolBody_tools (env : Env) (config_obj : Config) (tool_request : Tool)
    (opts : ToolOptions) (aliased : Bool) (s : InventoryService) :
    (rejectedForUrls config_obj tool_request = true ∧
      (addToolBody env config_obj { tool_request with Versions := [] } opts aliased s).1.binaries =
        s.binaries ∧
      (addToolBody env config_obj { tool_request with Versions := [] } opts aliased s).2 =
        some (.msg "No server URLs configured!")) ∨
    (rejectedForUrls config_obj tool_request = false ∧
      (addToolBody env config_obj { tool_request with Versions := [] } opts aliased s).1.binaries.Tools =
        storeTool (storedRecord env config_obj tool_request opts) s.binaries.Tools ∧
      (addToolBody env config_obj { tool_request with Versions := [] } opts aliased s).2 = none) := by
  have hsl : ((cloneRequest env config_obj
      (markAdmin opts { tool_request with Versions := [] })).ServeLocally &&
      (serverUrls config_obj).length == 0) = rejectedForUrls config_obj tool_request := by
    rw [cloneRequest_serveLocally]
    unfold rejectedForUrls markAdmin
    split_ifs <;> rfl
  cases hrej : rejectedForUrls config_obj tool_request
  · right
    rw [hrej] at hsl
    refine ⟨rfl, ?_, ?_⟩
    · unfold addToolBody
      dsimp only
      rw [if_neg (by rw [hsl]; simp)]
      rfl
    · unfold addToolBody
      dsimp only
      rw [if_neg (by rw [hsl]; simp)]
      dsimp only
      split
      · rfl
      · split <;> rfl
  · left
    rw [hrej] at hsl
    refine ⟨rfl, ?_, ?_⟩
    · unfold addToolBody
      dsimp only
      rw [if_pos hsl]
    · unfold addToolBody
      dsimp only
      rw [if_pos hsl]

theorem addToolBody_storedAt (env : Env) (config_obj : Config) (tool_request : Tool)
    (opts : ToolOptions) (aliased : Bool) (s : InventoryService) :
    StoredAt tool_request.Name s.binaries.Tools
      (addToolBody env config_obj { tool_request with Versions := [] } opts aliased
        s).1.binaries.Tools := by
  rcases addToolBody_tools env config_obj tool_request opts aliased s with ⟨_, h, _⟩ | ⟨_, h, _⟩
  · rw [h]; exact Or.inl rfl
  · exact Or.inr ⟨_, storedRecord_name env config_obj tool_request opts, h⟩

theorem probedStore_binaries (tool_request : Tool) (opts : ToolOptions) (s : InventoryService) :
    (probedStore tool_request opts s).binaries = s.binaries := by
  unfold probedStore
  split_ifs <;> rfl

theorem AddToolWith_storedAt
    (probe : InventoryService → Option (InventoryService × Except Error Tool))
    (evicts : InventoryService → Bool)
    (env : Env) (config_obj : Config) (tool_request : Tool) (opts : ToolOptions)
    (hprobe : ∀ s s' r, probe s = some (s', r) →
      StoredAt tool_request.Name s.binaries.Tools s'.binaries.Tools)
    (s s' : InventoryService) (e : Option Error)
    (hr : AddToolWith probe evicts env config_obj tool_request opts s = some (s', e)) :
    StoredAt tool_request.Name s.binaries.Tools s'.binaries.Tools := by
  unfold AddToolWith at hr
  dsimp only at hr
  have hu : (if opts.ArtifactDefinition = true
      then UpdateVersion { tool_request with Versions := [] } s else (s, false)).1.binaries =
      s.binaries := by
    split_ifs <;> rfl
  generalize (if opts.ArtifactDefinition = true
      then UpdateVersion { tool_request with Versions := [] } s else (s, false)) = u at hr hu
  have key : ∀ (aliased : Bool) (s1 : InventoryService),
      StoredAt tool_request.Name s.binaries.Tools s1.binaries.Tools →
      some (addToolBody env config_obj { tool_request with Versions := [] } opts aliased s1) =
        some (s', e) →
      StoredAt tool_request.Name s.binaries.Tools s'.binaries.Tools := by
    intro aliased s1 h1 h2
    have h3 := Option.some.inj h2
    have h4 : _ = s' := congrArg Prod.fst h3
    rw [← h4]
    exact h1.andThen (addToolBody_storedAt env config_obj tool_request opts aliased s1)
  split_ifs at hr with hup
  · cases hp : probe u.1 with
    | none => simp [hp] at hr
    | some pr =>
      obtain ⟨s1, r1⟩ := pr
      have h1 := hprobe u.1 s1 r1 hp
      rw [hu] at h1
      rw [hp] at hr
      cases r1 with
      | ok existing =>
        dsimp only at hr
        split_ifs at hr
        · have h3 := Option.some.inj hr
          have h4 : s1 = s' := congrArg Prod.fst h3
          rw [← h4]
          exact h1
        · exact key _ s1 h1 hr
      | error err =>
        dsimp only at hr
        exact key _ s1 h1 hr
  · exact key _ u.1 (by rw [hu]; exact Or.inl rfl) hr

theorem ingestVersions_storedAt (name : String)
    (addTool : Tool → InventoryService → Option (InventoryService × Option Error)) :
    ∀ (vs : List ToolDef)
      (_ : ∀ v ∈ vs, ∀ s s' e, addTool { toToolDef := v } s = some (s', e) →
        StoredAt name s.binaries.Tools s'.binaries.Tools)
      (s s' : InventoryService),
      ingestVersions addTool vs s = some s' →
      StoredAt name s.binaries.Tools s'.binaries.Tools := by
  intro vs
  induction vs with
  | nil =>
    intro _ s s' h
    simp only [ingestVersions, Option.some.injEq] at h
    rw [h]; exact Or.inl rfl
  | cons v rest ih =>
    intro hadd s s' h
    unfold ingestVersions at h
    cases ha : addTool { toToolDef := v } s with
    | none => simp [ha] at h
    | some pr =>
      obtain ⟨s1, e1⟩ := pr
      rw [ha] at h
      dsimp only at h
      exact (hadd v (List.mem_cons_self _ _) s s1 e1 ha).andThen
        (ih (fun x hx => hadd x (List.mem_cons_of_mem _ hx)) s1 s' h)

/-- With a parent that answers with variants of the name it was asked for,
`ProbeToolInfo` changes the inventory list only by storing a record of the
name. -/
theorem ProbeToolInfo_storedAt (env : Env) (config_obj : Config)
    (hparent : ∀ t name tool, env.parentProbe t name = .ok tool →
      ∀ v ∈ tool.Versions, v.Name = name) :
    ∀ (fuel : Nat) (name : String) (s s' : InventoryService) (r : Except Error Tool),
      ProbeToolInfo env config_obj name fuel s = some (s', r) →
      StoredAt name s.binaries.Tools s'.binaries.Tools := by
  intro fuel
  induction fuel with
  | zero =>
    intro name s s' r h
    simp [ProbeToolInfo] at h
  | succ fuel ih =>
    intro name s s' r h
    rw [ProbeToolInfo] at h
    cases hf : s.binaries.Tools.find? (fun tool => tool.Name == name) with
    | some item =>
      simp only [hf, Option.some.injEq, Prod.mk.injEq] at h
      rw [← h.1]; exact Or.inl rfl
    | none =>
      simp only [hf] at h
      by_cases hp : s.parent = true
      · rw [if_pos hp] at h
        cases hpp : env.parentProbe s.tick name with
        | error err =>
          simp only [hpp, Option.some.injEq, Prod.mk.injEq] at h
          rw [← h.1]; exact Or.inl rfl
        | ok tool =>
          simp only [hpp] at h
          cases hi : ingestVersions
              (fun v s => AddToolWith (ProbeToolInfo env config_obj v.Name fuel)
                (fun _ => false) env config_obj v { ArtifactDefinition := true } s)
              tool.Versions { s with tick := s.tick + 1 } with
          | none => simp [hi] at h
          | some s1 =>
            rw [hi] at h
            dsimp only at h
            have h1 := ingestVersions_storedAt name _ tool.Versions
              (fun v hv s2 s3 e hadd => by
                have hn : ({ toToolDef := v } : Tool).Name = name := hparent _ _ _ hpp v hv
                have := AddToolWith_storedAt _ _ env config_obj { toToolDef := v }
                  { ArtifactDefinition := true }
                  (fun a b c hc => ih _ a b c hc) s2 s3 e hadd
                rw [hn] at this
                exact this)
              _ s1 hi
            exact h1.andThen (ih name s1 s' r h)
      · rw [if_neg hp] at h
        simp only [Option.some.injEq, Prod.mk.injEq] at h
        rw [← h.1]; exact Or.inl rfl

theorem replaceVersion_cases (t : Tool) (l : List Tool) :
    ((∀ x ∈ l, x.Artifact ≠ t.Artifact) ∧ replaceVersion t l = (l, false)) ∨
    ∃ pre old post, l = pre ++ old :: post ∧ old.Artifact = t.Artifact ∧
      (∀ x ∈ pre, x.Artifact ≠ t.Artifact) ∧ replaceVersion t l = (pre ++ t :: post, true) := by
  induction l with
  | nil => exact Or.inl ⟨by simp, rfl⟩
  | cons item rest ih =>
    by_cases hi : (item.Artifact == t.Artifact) = true
    · refine Or.inr ⟨[], item, rest, rfl, by simpa using hi, by simp, ?_⟩
      unfold replaceVersion
      rw [if_pos hi]
      rfl
    · have hi' : item.Artifact ≠ t.Artifact := by simpa using hi
      rcases ih with ⟨h1, h2⟩ | ⟨pre, old, post, h1, h2, h3, h4⟩
      · refine Or.inl ⟨?_, ?_⟩
        · intro x hx
          rcases List.mem_cons.1 hx with h | h
          · rw [h]; exact hi'
          · exact h1 x h
        · unfold replaceVersion
          rw [if_neg hi, h2]
      · refine Or.inr ⟨item :: pre, old, post, by rw [h1]; rfl, h2, ?_, ?_⟩
        · intro x hx
          rcases List.mem_cons.1 hx with h | h
          · rw [h]; exact hi'
          · exact h3 x h
        · unfold replaceVersion
          rw [if_neg hi, h4]
          rfl

theorem replaceVersion_at (t old : Tool) (pre post : List Tool)
    (hold : old.Artifact = t.Artifact) (hpre : ∀ x ∈ pre, x.Artifact ≠ t.Artifact) :
    replaceVersion t (pre ++ old :: post) = (pre ++ t :: post, true) := by
  induction pre with
  | nil =>
    rw [List.nil_append]
    unfold replaceVersion
    rw [if_pos (by simp [hold])]
    rfl
  | cons y ys ih =>
    have hy : ¬ (y.Artifact == t.Artifact) = true := by
      simpa using hpre y (List.mem_cons_self _ _)
    rw [List.cons_append]
    unfold replaceVersion
    rw [if_neg hy, ih (fun x hx => hpre x (List.mem_cons_of_mem _ hx))]
    rfl

theorem addToolBody_versions (env : Env) (config_obj : Config) (tool_request : Tool)
    (opts : ToolOptions) (aliased : Bool) (s : InventoryService) :
    (addToolBody env config_obj tool_request opts aliased s).1.versions =
      aliasVersions (markAdmin opts tool_request) opts aliased s.versions := by
  unfold addToolBody
  dsimp only
  split_ifs <;> rfl

/-- A call of `ProbeToolInfo` that gets no record from a parent returns, and
leaves the map `versions` and the inventory as they are. -/
theorem ProbeToolInfo_no_ingest (env : Env) (config_obj : Config) (name : String) (fuel : Nat)
    (u : InventoryService)
    (h : (u.parent && (u.binaries.Tools.find? (fun tool => tool.Name == name)).isNone &&
      (match env.parentProbe u.tick name with
       | .ok _ => true
       | .error _ => false)) = false) :
    ∃ s1 r1, ProbeToolInfo env config_obj name (fuel + 1) u = some (s1, r1) ∧
      s1.versions = u.versions ∧ s1.binaries = u.binaries := by
  rw [ProbeToolInfo]
  cases hf : u.binaries.Tools.find? (fun tool => tool.Name == name) with
  | some item => exact ⟨_, _, rfl, rfl, rfl⟩
  | none =>
    dsimp only
    by_cases hp : u.parent = true
    · rw [if_pos hp]
      cases hpp : env.parentProbe u.tick name with
      | error err => exact ⟨_, _, rfl, rfl, rfl⟩
      | ok tool => simp [hp, hf, hpp] at h
    · rw [if_neg hp]
      exact ⟨_, _, rfl, rfl, rfl⟩

/-- A call of `ProbeToolInfo` that gets no record from a parent puts no variant
in the place of the request. -/
theorem probeEvicts_no_ingest (env : Env) (config_obj : Config) (tool_request : Tool)
    (fuel : Nat) (u : InventoryService)
    (h : (u.parent &&
      (u.binaries.Tools.find? (fun tool => tool.Name == tool_request.Name)).isNone &&
      (match env.parentProbe u.tick tool_request.Name with
       | .ok _ => true
       | .error _ => false)) = false) :
    probeEvicts env config_obj tool_request (fuel + 1) u = false := by
  rw [probeEvicts]
  cases hf : u.binaries.Tools.find? (fun tool => tool.Name == tool_request.Name) with
  | some item => rfl
  | none =>
    dsimp only
    by_cases hp : u.parent = true
    · rw [if_pos hp]
      cases hpp : env.parentProbe u.tick tool_request.Name with
      | error err => rfl
      | ok tool => simp [hp, hf, hpp] at h
    · rw [if_neg hp]

/-- The map `versions` after `AddTool` with the option `ArtifactDefinition`,
when the call gets no variants from a parent: the map after `UpdateVersion`
for a call that returns under the upgrade rule, and otherwise that map after
the assignment to `AdminOverride` of the request. -/
theorem AddTool_versions (env : Env) (fuel : Nat) (config_obj : Config)
    (tool_request : Tool) (opts : ToolOptions) (s : InventoryService)
    (hart : opts.ArtifactDefinition = true)
    (hing : ingestsVariants env tool_request.Name opts s = false) :
    ∃ s' r, AddTool env (fuel + 1) config_obj tool_request opts s = some (s', r) ∧
      s'.versions =
        if skippedByUpgrade (ProbeToolInfo env config_obj tool_request.Name (fuel + 1))
            tool_request opts s
        then (UpdateVersion { tool_request with Versions := [] } s).1.versions
        else aliasVersions (markAdmin opts { tool_request with Versions := [] }) opts
          (UpdateVersion { tool_request with Versions := [] } s).2
          (UpdateVersion { tool_request with Versions := [] } s).1.versions := by
  unfold AddTool AddToolWith skippedByUpgrade
  simp only [hart, if_true]
  by_cases hup : opts.Upgrade = true
  · rw [if_pos hup]
    simp only [hup, Bool.true_and]
    have hu : ((UpdateVersion { tool_request with Versions := [] } s).1.parent &&
        ((UpdateVersion { tool_request with Versions := [] } s).1.binaries.Tools.find?
          (fun tool => tool.Name == tool_request.Name)).isNone &&
        (match env.parentProbe (UpdateVersion { tool_request with Versions := [] } s).1.tick
            tool_request.Name with
         | .ok _ => true
         | .error _ => false)) = false := by
      unfold ingestsVariants at hing
      rw [hup] at hing
      simpa using hing
    obtain ⟨s1, r1, hp, hv, -⟩ := ProbeToolInfo_no_ingest env config_obj tool_request.Name fuel
      (UpdateVersion { tool_request with Versions := [] } s).1 hu
    have hev := probeEvicts_no_ingest env config_obj tool_request fuel
      (UpdateVersion { tool_request with Versions := [] } s).1 hu
    rw [hp, hev]
    simp only [Bool.not_false, Bool.and_true]
    cases r1 with
    | ok existing =>
      dsimp only
      by_cases hb : isDefinitionBetter existing { tool_request with Versions := [] } = true
      · rw [if_pos hb, if_pos hb]
        exact ⟨_, _, rfl, hv⟩
      · rw [if_neg hb, if_neg hb]
        exact ⟨(addToolBody env config_obj _ opts _ s1).1,
          (addToolBody env config_obj _ opts _ s1).2, rfl, by rw [addToolBody_versions, hv]⟩
    | error err =>
      dsimp only
      exact ⟨(addToolBody env config_obj _ opts _ s1).1,
        (addToolBody env config_obj _ opts _ s1).2, rfl,
        by rw [addToolBody_versions, hv]; simp⟩
  · rw [if_neg hup]
    have hup' : opts.Upgrade = false := by simpa using hup
    simp only [hup', Bool.false_and]
    exact ⟨(addToolBody env config_obj _ opts _ _).1,
      (addToolBody env config_obj _ opts _ _).2, rfl, by rw [addToolBody_versions]; simp⟩

/-- The list of a name after a variant took the place of the only variant of
its artifact. -/
theorem variants_replaced (pre post : List Tool) (old v : Tool)
    (hold : old.Artifact = v.Artifact)
    (hnd : ((pre ++ old :: post).map (fun x => x.Artifact)).Nodup) :
    (pre ++ v :: post).filter (fun x => x.Artifact == v.Artifact) = [v] ∧
    (pre ++ v :: post).filter (fun x => x.Artifact != v.Artifact) =
      (pre ++ old :: post).filter (fun x => x.Artifact != v.Artifact) ∧
    (pre ++ v :: post).map (fun x => x.Artifact) =
      (pre ++ old :: post).map (fun x => x.Artifact) ∧
    (pre ++ v :: post).length = (pre ++ old :: post).length ∧
    (pre ++ old :: post).any (fun x => x.Artifact == v.Artifact) = true := by
  rw [List.map_append, List.map_cons, List.nodup_append] at hnd
  obtain ⟨_, h2, h3⟩ := hnd
  rw [List.nodup_cons] at h2
  have hpre : ∀ x ∈ pre, (x.Artifact == v.Artifact) = false := by
    intro x hx
    have : x.Artifact ≠ v.Artifact := by
      intro hc
      exact h3 (List.mem_map.2 ⟨x, hx, rfl⟩) (by rw [hc, ← hold]; exact List.mem_cons_self _ _)
    simpa using this
  have hpost : ∀ x ∈ post, (x.Artifact == v.Artifact) = false := by
    intro x hx
    have : x.Artifact ≠ v.Artifact := by
      intro hc
      exact h2.1 (by rw [hold, ← hc]; exact List.mem_map.2 ⟨x, hx, rfl⟩)
    simpa using this
  have fpre : pre.filter (fun x => x.Artifact == v.Artifact) = [] :=
    List.filter_eq_nil_iff.2 (fun x hx => by simp [hpre x hx])
  have fpost : post.filter (fun x => x.Artifact == v.Artifact) = [] :=
    List.filter_eq_nil_iff.2 (fun x hx => by simp [hpost x hx])
  refine ⟨?_, ?_, ?_, ?_, ?_⟩
  · rw [List.filter_append, List.filter_cons, fpre, fpost]
    simp
  · rw [List.filter_append, List.filter_append, List.filter_cons, List.filter_cons]
    simp [hold]
  · simp [hold]
  · simp
  · simp [hold]

/-- The list of a name after a variant of a new artifact was appended. -/
theorem variants_appended (l : List Tool) (v : Tool)
    (hnew : ∀ x ∈ l, x.Artifact ≠ v.Artifact) :
    (l ++ [v]).filter (fun x => x.Artifact == v.Artifact) = [v] ∧
    (l ++ [v]).filter (fun x => x.Artifact != v.Artifact) =
      l.filter (fun x => x.Artifact != v.Artifact) ∧
    (l ++ [v]).map (fun x => x.Artifact) = l.map (fun x => x.Artifact) ++ [v.Artifact] ∧
    (l ++ [v]).length = l.length + 1 ∧
    l.any (fun x => x.Artifact == v.Artifact) = false := by
  have fl : l.filter (fun x => x.Artifact == v.Artifact) = [] :=
    List.filter_eq_nil_iff.2 (fun x hx => by simpa using hnew x hx)
  refine ⟨?_, ?_, ?_, ?_, ?_⟩
  · rw [List.filter_append, fl]
    simp
  · rw [List.filter_append]
    simp
  · simp
  · simp
  · rw [List.any_eq_false]
    intro x hx
    simpa using hnew x hx

/-- The list the map `versions` holds for the name of the request after
`AddTool` with the option `ArtifactDefinition`, when the call gets no variants
from a parent; the lists of the other names stay. -/
theorem AddTool_variants (env : Env) (fuel : Nat) (config_obj : Config)
    (tool_request : Tool) (opts : ToolOptions) (s : InventoryService)
    (hart : opts.ArtifactDefinition = true)
    (hing : ingestsVariants env tool_request.Name opts s = false) :
    ∃ s' r, AddTool env (fuel + 1) config_obj tool_request opts s = some (s', r) ∧
      (∀ name, name ≠ tool_request.Name → s'.versions name = s.versions name) ∧
      (((∀ x ∈ s.versions tool_request.Name, x.Artifact ≠ tool_request.Artifact) ∧
        s'.versions tool_request.Name = s.versions tool_request.Name ++
          [storedVariant tool_request opts false
            (skippedByUpgrade (ProbeToolInfo env config_obj tool_request.Name (fuel + 1))
              tool_request opts s)]) ∨
      ∃ pre old post, s.versions tool_request.Name = pre ++ old :: post ∧
        old.Artifact = tool_request.Artifact ∧
        (∀ x ∈ pre, x.Artifact ≠ tool_request.Artifact) ∧
        s'.versions tool_request.Name = pre ++
          storedVariant tool_request opts true
            (skippedByUpgrade (ProbeToolInfo env config_obj tool_request.Name (fuel + 1))
              tool_request opts s) :: post) := by
  obtain ⟨s', r, h, hv⟩ := AddTool_versions env fuel config_obj tool_request opts s hart hing
  refine ⟨s', r, h, ?_, ?_⟩
  · intro name hname
    rw [hv]
    split_ifs
    · simp [UpdateVersion, hname]
    · unfold aliasVersions
      split_ifs
      · have hm : (markAdmin opts { tool_request with Versions := [] }).Name =
            tool_request.Name := by
          unfold markAdmin
          split_ifs <;> rfl
        simp [hm, UpdateVersion, hname]
      · simp [UpdateVersion, hname]
  · generalize skippedByUpgrade (ProbeToolInfo env config_obj tool_request.Name (fuel + 1))
      tool_request opts s = skipped at hv ⊢
    rcases replaceVersion_cases { tool_request with Versions := [] }
      (s.versions tool_request.Name) with ⟨h1, h2⟩ | ⟨pre, old, post, h1, h2, h3, h4⟩
    · left
      refine ⟨h1, ?_⟩
      have hU : UpdateVersion { tool_request with Versions := [] } s =
          ({ s with versions := fun name =>
              if name == tool_request.Name
              then s.versions tool_request.Name ++ [{ tool_request with Versions := [] }]
              else s.versions name }, false) := by
        unfold UpdateVersion
        dsimp only
        rw [h2]
        rfl
      rw [hv, hU]
      have hsv : storedVariant tool_request opts false skipped =
          { tool_request with Versions := [] } := by
        unfold storedVariant
        simp
      rw [hsv]
      unfold aliasVersions
      cases skipped <;> simp
    · right
      refine ⟨pre, old, post, h1, h2, h3, ?_⟩
      have hU : UpdateVersion { tool_request with Versions := [] } s =
          ({ s with versions := fun name =>
              if name == tool_request.Name
              then pre ++ { tool_request with Versions := [] } :: post
              else s.versions name }, true) := by
        unfold UpdateVersion
        dsimp only
        rw [h4]
        rfl
      rw [hv, hU]
      cases skipped
      · simp only [Bool.false_eq_true, if_false]
        unfold aliasVersions storedVariant markAdmin
        cases hao : opts.AdminOverride
        · simp
        · simp only [Bool.and_self, if_true, beq_self_eq_true, Bool.not_false, Bool.and_true]
          exact congrArg Prod.fst (replaceVersion_at
            ({ tool_request with Versions := [], AdminOverride := true } : Tool)
            { tool_request with Versions := [] } pre post rfl h3)
      · simp only [if_true]
        unfold storedVariant
        simp

end InventoryHelpers

/-- C1: `isDefinitionBetter(old, new)` is false when `new.admin_override` is
set; otherwise true when `old.admin_override` is set; otherwise false when
`old.url`, `old.github_project` and `old.serve_url` are all empty; otherwise
true. -/
theorem isDefinitionBetter_rules (old new : Inventory.Tool) :
    Inventory.isDefinitionBetter old new =
      if new.AdminOverride = true then false
      else if old.AdminOverride = true then true
      else if old.Url = "" ∧ old.GithubProject = "" ∧ old.ServeUrl = "" then false
      else true := by
  unfold Inventory.isDefinitionBetter
  by_cases h1 : new.AdminOverride = true
  · simp [h1]
  · by_cases h2 : old.AdminOverride = true
    · simp [h1, h2]
    · by_cases h3 : old.Url = "" ∧ old.GithubProject = "" ∧ old.ServeUrl = ""
      · obtain ⟨a, b, c⟩ := h3
        simp [h1, h2, a, b, c]
      · simp only [h1, h2, h3, if_false]
        simp only [Bool.false_eq_true, if_false]
        have : (old.Url == "" && old.GithubProject == "" && old.ServeUrl == "") = false := by
          by_contra hc
          simp only [Bool.not_eq_false, Bool.and_eq_true, beq_iff_eq] at hc
          exact h3 ⟨hc.1.1, hc.1.2, hc.2⟩
        simp [this]

/-- C2: for every list of ranges the reader's `Ranges()` returns, in every
sparse upload that returns a result the index `maybeUploadSparse` builds has
one entry per range in the same order, and entry `i` is file_offset = the sum
of the lengths of the non-hole ranges before `i` (the `int64` sum the code
computes, which is the exact sum whenever that fits in `int64`),
original_offset = offset of range `i`, file_length = 0 if range `i` is a hole
and its length otherwise, length = length of range `i`. The index leaves
`maybeUploadSparse` in the last packet, the one with the end-of-file mark,
when a range is a hole (otherwise the code sends no index); the packets before
it carry none. For the ranges (0, 4, data), (100, 2, hole), (200, 3, data) the
upload of a file of 203 bytes ends with a packet that carries the index
{0,0,4,4}, {4,100,0,2}, {4,200,3,3}. -/
theorem maybeUploadSparse_index_entries {σ : Type} (dg : Uploads.Digests)
    (rd : Uploads.Reader σ) (rr : Uploads.RangeReader σ) (filename : Uploads.OSPath)
    (accessor : String) (store_as_name : Option Uploads.OSPath) (mtime upload_id : Int)
    (w w' : Uploads.World σ) (result : Uploads.UploadResponse)
    (hrr : rd.asRangeReader = some rr)
    (hok : Uploads.maybeUploadSparse dg rd filename accessor store_as_name mtime upload_id w =
      (w', .ok result)) :
    (∃ index : List Uploads.IndexRange,
      index.length = (rr.Ranges w.reader).length ∧
      (∀ i : Nat, index[i]? =
        ((rr.Ranges w.reader)[i]?).map (fun rng =>
          { FileOffset := wrapInt64 (Uploads.sumNonSparse ((rr.Ranges w.reader).take i)),
            OriginalOffset := rng.Offset,
            FileLength := if rng.IsSparse then 0 else rng.Length,
            Length := rng.Length })) ∧
      ∃ pre last, w'.responses = w.responses ++ pre ++ [last] ∧
        (∀ p ∈ pre, p.Eof = false ∧ p.Index = none) ∧ last.Eof = true ∧
        last.Index =
          if (rr.Ranges w.reader).any (fun rng => rng.IsSparse) then some index else none) ∧
    ((Uploads.maybeUploadSparse Uploads.noDigests
        (Uploads.fileReader Uploads.exampleContent false
          (some [⟨0, 4, false⟩, ⟨100, 2, true⟩, ⟨200, 3, false⟩]))
        ⟨"f", ["f"]⟩ "file" none 0 0 { reader := {} }).1.responses.getLast?.bind
        (fun p => p.Index)) =
      some [⟨0, 0, 4, 4⟩, ⟨4, 100, 0, 2⟩, ⟨4, 200, 3, 3⟩] := by
  obtain ⟨pre, last, h1, h2, h3, h4⟩ := maybeUploadSparse_packet_index dg rd rr filename
    accessor store_as_name mtime upload_id w w' result hrr hok
  refine ⟨⟨(Uploads.scanRanges (rr.Ranges w.reader)).index,
    scanRanges_index_length _, ?_, pre, last, h1, h2, h3, h4⟩, rfl⟩
  intro i
  exact scanRanges_index_get _ i

open Uploads in
/-- Witness of C2: the sparse upload of the file of 203 bytes with the ranges
(0, 4, data), (100, 2, hole), (200, 3, data) returns a result, and its last
packet carries the index {0,0,4,4}, {4,100,0,2}, {4,200,3,3}. -/
theorem maybeUploadSparse_index_entries_witness :
    ∃ index : List IndexRange,
      index.length = exampleRanges.length ∧
      (∀ i : Nat, index[i]? =
        (exampleRanges[i]?).map (fun rng =>
          { FileOffset := wrapInt64 (sumNonSparse (exampleRanges.take i)),
            OriginalOffset := rng.Offset,
            FileLength := if rng.IsSparse then 0 else rng.Length,
            Length := rng.Length })) ∧
      ∃ pre last, exampleWorld.responses = [] ++ pre ++ [last] ∧
        (∀ p ∈ pre, p.Eof = false ∧ p.Index = none) ∧ last.Eof = true ∧
        last.Index = if exampleRanges.any (fun rng => rng.IsSparse) then some index else none :=
  (maybeUploadSparse_index_entries noDigests
    (fileReader exampleContent false (some exampleRanges))
    { Ranges := fun _ => exampleRanges,
      Seek := fun s off => ({ s with pos := off.toNat }, none) }
    ⟨"f", ["f"]⟩ "file" none 0 0 { reader := {} } exampleWorld
    { Path := "f", StoredName := "f", Components := ["f"], Accessor := "file",
      Size := 203, StoredSize := 7 }
    rfl rfl).1

open Uploads in
/-- C4: in every call of `Upload` that returns success and is not answered
from the deduplication cache, the packets the call adds to the responder are
packets without the end-of-file mark followed by exactly one packet with
`eof = true`; that packet is the last one added and carries no data. -/
theorem upload_single_eof {σ : Type} (dg : Digests) (rd : Reader σ) (fuel : Nat)
    (filename : OSPath) (accessor : String) (store_as_name : Option OSPath)
    (expected_size mtime atime ctime btime : Int) (w w' : World σ) (result : UploadResponse)
    (hcache : answeredFromCache filename store_as_name w = false)
    (hok : Upload dg rd fuel filename accessor store_as_name expected_size
      mtime atime ctime btime w = some (w', .ok result)) :
    ∃ pre last, w'.responses = w.responses ++ pre ++ [last] ∧
      last.Eof = true ∧ last.Data = [] ∧ ∀ p ∈ pre, p.Eof = false := by
  unfold Upload at hok
  unfold answeredFromCache at hcache
  dsimp only at hok
  cases hc : DeduplicateUploads w.cached (store_as_name.getD filename) with
  | some c => simp [hc] at hcache
  | none =>
    simp only [hc] at hok
    rcases hs : maybeUploadSparse dg rd filename accessor
      (some (store_as_name.getD filename)) mtime w.next_upload_id
      { w with next_upload_id := w.next_upload_id + 1 } with ⟨w1, r1⟩
    rw [hs] at hok
    cases r1 with
    | ok r =>
      simp only [Option.some.injEq, Prod.mk.injEq] at hok
      obtain ⟨rfl, _⟩ := hok
      have h1 := maybeUploadSparse_ok_responses _ _ _ _ _ _ _ _ _ _ hs
      exact h1
    | error e =>
      have h1 := maybeUploadSparse_error_responses _ _ _ _ _ _ _ _ _ _ hs
      cases e with
      | panic => simp at hok
      | err e1 =>
        dsimp only at hok
        have h2 := denseLoop_responses dg rd _ _ fuel 0 [] [] _ w' result hok
        exact h1.endsWithEof h2

/-- Witness of C4: a dense upload of the three bytes "abc" from a reader
without ranges. -/
theorem upload_single_eof_witness :
    Uploads.answeredFromCache ⟨"f", ["f"]⟩ none
        ({ reader := {} } : Uploads.World Uploads.FileState) = false ∧
    ∃ pre last,
      [({ Pathspec := { Path := "f", Components := ["f"], Accessor := "file" },
          Size := 3, StoredSize := 3, Data := [97, 98, 99] } : Uploads.FileBuffer),
       { Pathspec := { Path := "f", Components := ["f"], Accessor := "file" },
         Offset := 3, Size := 3, StoredSize := 3, Eof := true }] = [] ++ pre ++ [last] ∧
      last.Eof = true ∧ last.Data = [] ∧ ∀ p ∈ pre, p.Eof = false :=
  ⟨rfl, upload_single_eof Uploads.noDigests (Uploads.fileReader [97, 98, 99] false none) 5
    ⟨"f", ["f"]⟩ "file" none 3 0 0 0 0 { reader := {} }
    { reader := { pos := 3 },
      responses :=
        [{ Pathspec := { Path := "f", Components := ["f"], Accessor := "file" },
           Size := 3, StoredSize := 3, Data := [97, 98, 99] },
         { Pathspec := { Path := "f", Components := ["f"], Accessor := "file" },
           Offset := 3, Size := 3, StoredSize := 3, Eof := true }],
      next_upload_id := 1,
      cached := [("f", { Path := "f", StoredName := "f", Accessor := "file",
                         Components := ["f"], Size := 3, StoredSize := 3 })],
      Count := 1 }
    { Path := "f", StoredName := "f", Accessor := "file", Components := ["f"],
      Size := 3, StoredSize := 3 }
    rfl rfl⟩

open Uploads in
/-- C3, at a failing input. The source file is 0, 0, 97, 98 with the ranges
(0, 2, hole), (2, 2, data): sorted, without overlap, covering the file, the
hole reading as zeros. After `Seek(2)` the reader serves the two bytes of the
data range in one read and reports `io.EOF` with them, as `io.Reader` allows
at the end of the input. The sparse upload succeeds, its only packet is the
end-of-file packet, with `size = 4` and the index, so the stream is empty, and
the reconstruction of a file of length 4 from the index and the empty stream
yields 0, 0, 0, 0, which is not the source file. -/
theorem sparse_upload_breaks_reconstruction (dg : Digests) :
    coversFile [⟨0, 2, true⟩, ⟨2, 2, false⟩] 0 4 = true ∧
    holesReadZero [0, 0, 97, 98] [⟨0, 2, true⟩, ⟨2, 2, false⟩] = true ∧
    (fileReader [0, 0, 97, 98] true (some [⟨0, 2, true⟩, ⟨2, 2, false⟩])).Read { pos := 2 } 2 =
      ({ pos := 4 }, [97, 98], some .EOF) ∧
    ∃ w' result,
      maybeUploadSparse dg
        (fileReader [0, 0, 97, 98] true (some [⟨0, 2, true⟩, ⟨2, 2, false⟩]))
        ⟨"f", ["f"]⟩ "file" none 0 0 { reader := {} } = (w', .ok result) ∧
      result.Size = 4 ∧
      w'.responses.map (fun p => p.Index) = [some [⟨0, 0, 0, 2⟩, ⟨0, 2, 2, 2⟩]] ∧
      concatData w'.responses = [] ∧
      reconstruct 4 [⟨0, 0, 0, 2⟩, ⟨0, 2, 2, 2⟩] [] = [0, 0, 0, 0] ∧
      reconstruct 4 [⟨0, 0, 0, 2⟩, ⟨0, 2, 2, 2⟩] [] ≠ [0, 0, 97, 98] :=
  ⟨by decide, by decide, rfl, _, _, rfl, rfl, rfl, rfl, by decide, by decide⟩

open Uploads in
/-- C5, at a failing input. The reader reports the ranges (0, 2, data),
(2, 2, data) of the file "abcd"; its second read fails. The sparse path has
sent "ab" when it gives up, `Upload` goes on with the dense loop, which sends
"cd" and the end-of-file packet and returns success with `stored_size = 2`,
while the packets added during the call carry 4 bytes. -/
theorem upload_stored_size_misses_sparse_packets (dg : Digests) :
    answeredFromCache ⟨"f", ["f"]⟩ none
      ({ reader := { failIn := some 1 } } : World FileState) = false ∧
    ∃ w' result,
      Upload dg (fileReader [97, 98, 99, 100] false (some [⟨0, 2, false⟩, ⟨2, 2, false⟩])) 10
        ⟨"f", ["f"]⟩ "file" none 4 0 0 0 0 { reader := { failIn := some 1 } } =
          some (w', .ok result) ∧
      w'.responses.map (fun p => p.Data) = [[97, 98], [99, 100], []] ∧
      dataLength w'.responses = 4 ∧
      result.StoredSize = 2 :=
  ⟨rfl, _, _, rfl, rfl, rfl, rfl⟩

open Inventory in
/-- C6: starting from an empty inventory, after every finite sequence of
`AddTool` and `RemoveTool` calls (any records, any options, whether or not a
call returns an error) no two records of the inventory list have the same
name. -/
theorem inventory_names_unique (env : Env) (calls : List Call) (s0 s : InventoryService)
    (h0 : s0.binaries.Tools = [])
    (h : runCalls env calls s0 = some s) :
    (toolNames s).Nodup := by
  refine runCalls_names env calls s0 s ?_ h
  simp [toolNames, h0]

open Inventory in
/-- Witness of C6: two tools are added, the first is added again and the second
is removed. -/
theorem inventory_names_unique_witness :
    ({} : InventoryService).binaries.Tools = [] ∧
    (toolNames
      { binaries :=
          { Tools := [{ Name := "a", Url := "u2", Filename := "u2", FilestorePath := "/a" }],
            Version := 3 },
        tick := 4 }).Nodup :=
  ⟨rfl, inventory_names_unique (plainEnv (fun _ => ""))
    [.addTool 1 {} { Name := "a", Url := "u1" } {},
     .addTool 1 {} { Name := "b" } { Upgrade := true },
     .addTool 1 {} { Name := "a", Url := "u2" } {},
     .removeTool "b"]
    {}
    { binaries :=
        { Tools := [{ Name := "a", Url := "u2", Filename := "u2", FilestorePath := "/a" }],
          Version := 3 },
      tick := 4 }
    rfl rfl⟩

open Inventory in
/-- C7, at a failing input. The child inventory is empty and the parent answers
the probe with a record that carries no versions. Nothing is added to the
child, so the call of `ProbeToolInfo` on itself finds the child as it was, one
tick later, and asks the parent again: the call returns for no bound on the
depth of these calls. -/
theorem probeToolInfo_never_returns (sha : List UInt8 → String) (fuel t : Nat) :
    ProbeToolInfo (parentWithoutVersions sha) {} "mimikatz" (fuel + 1)
        { parent := true, tick := t } =
      ProbeToolInfo (parentWithoutVersions sha) {} "mimikatz" fuel
        { parent := true, tick := t + 1 } ∧
    ProbeToolInfo (parentWithoutVersions sha) {} "mimikatz" fuel
        { parent := true, tick := t } = none := by
  refine ⟨rfl, ?_⟩
  induction fuel generalizing t with
  | zero => rfl
  | succ n ih => exact ih (t + 1)

open Uploads in
/-- C8, at a failing input. The reader reports one range over the file "abcd"
and its first read fails, so the sparse upload returns the read error.
`Upload` does not return it: it goes on with the dense loop, which reads the
four bytes and then the end of the file, adds two packets and caches and
returns a result. -/
theorem upload_goes_on_after_sparse_error (dg : Digests) :
    (maybeUploadSparse dg (fileReader [97, 98, 99, 100] false (some [⟨0, 4, false⟩]))
      ⟨"f", ["f"]⟩ "file" none 0 0 { reader := { failIn := some 0 } }).2 =
        .error (.err (.msg "read error")) ∧
    ∃ w' result,
      Upload dg (fileReader [97, 98, 99, 100] false (some [⟨0, 4, false⟩])) 10
        ⟨"f", ["f"]⟩ "file" none 4 0 0 0 0 { reader := { failIn := some 0 } } =
          some (w', .ok result) ∧
      w'.reader.pos = 4 ∧
      w'.responses.map (fun p => p.Data) = [[97, 98, 99, 100], []] ∧
      w'.cached = [("f", result)] :=
  ⟨rfl, _, _, rfl, rfl, rfl, rfl⟩

open Inventory in
/-- C9, at a failing input. The tool "autoruns" is untracked, the download
succeeds with the body "ABC" and the datastore write fails. `GetToolInfo`
returns the error of the datastore, and the record in the inventory has the
hash of "ABC" afterwards. -/
theorem getToolInfo_error_sets_hash (sha : List UInt8 → String) :
    (untrackedStore.binaries.Tools.map (fun tool => tool.Hash)) = [""] ∧
    (GetToolInfo (failingDatastore sha) {} "autoruns" untrackedStore).2 =
      .error (.msg "datastore failure") ∧
    (GetToolInfo (failingDatastore sha) {} "autoruns" untrackedStore).1.binaries.Tools =
      [{ Name := "autoruns", Url := "http://x/a.exe", ServeUrl := "http://x/a.exe",
         Hash := sha [65, 66, 67] }] :=
  ⟨rfl, rfl, rfl⟩

open Inventory in
/-- C10, at a failing input. The GET for the untracked tool "autoruns" returns
status 200 and the copy of the body fails. `materializeTool` returns nil, and
`GetToolInfo` returns the record, with an empty hash, and no error. -/
theorem materializeTool_drops_copy_error (sha : List UInt8 → String) :
    materializeTool (failingCopy sha) true 0 {}
        { Name := "autoruns", Url := "http://x/a.exe" } =
      ({ Name := "autoruns", Url := "http://x/a.exe", ServeUrl := "http://x/a.exe" }, none) ∧
    (GetToolInfo (failingCopy sha) {} "autoruns" untrackedStore).2 =
      .ok { Name := "autoruns", Url := "http://x/a.exe", ServeUrl := "http://x/a.exe" } :=
  ⟨rfl, rfl⟩

open Inventory in
/-- C18: in a store in which the record named X has `admin_override = true`,
an `AddTool` call with only the upgrade option, for a request named X whose
`admin_override` is false, returns success and leaves the store as it was: the
inventory list with the admin record, the inventory version, and the rest of
the state. -/
theorem addTool_upgrade_keeps_admin_record (env : Env) (fuel : Nat) (config_obj : Config)
    (tool_request : Tool) (s : InventoryService) (existing : Tool)
    (hfind : s.binaries.Tools.find? (fun tool => tool.Name == tool_request.Name) = some existing)
    (hadmin : existing.AdminOverride = true)
    (hreq : tool_request.AdminOverride = false) :
    AddTool env (fuel + 1) config_obj tool_request { Upgrade := true } s = some (s, none) := by
  rw [AddTool_upgrade_skip env fuel config_obj tool_request _ s existing hfind hadmin hreq rfl]
  rfl

open Inventory in
/-- C11, amended: in a store in which the record named X has
`admin_override = true`, every `AddTool` call for the name X with the upgrade
option in which neither the request nor the options set `admin_override`
returns success, leaves the inventory as it was, and the record named X still
has `admin_override = true` afterwards. -/
theorem addTool_upgrade_admin_sticky (env : Env) (fuel : Nat) (config_obj : Config)
    (tool_request : Tool) (opts : ToolOptions) (s : InventoryService) (existing : Tool)
    (hfind : s.binaries.Tools.find? (fun tool => tool.Name == tool_request.Name) = some existing)
    (hadmin : existing.AdminOverride = true)
    (hreq : tool_request.AdminOverride = false)
    (hup : opts.Upgrade = true)
    (_hopt : opts.AdminOverride = false) :
    ∃ s', AddTool env (fuel + 1) config_obj tool_request opts s = some (s', none) ∧
      s'.binaries = s.binaries ∧
      (s'.binaries.Tools.find? (fun tool => tool.Name == tool_request.Name)).map
        (fun tool => tool.AdminOverride) = some true := by
  refine ⟨_, AddTool_upgrade_skip env fuel config_obj tool_request opts s existing hfind hadmin
    hreq hup, ?_, ?_⟩
  · split_ifs <;> rfl
  · have hb : (if opts.ArtifactDefinition = true then
        UpdateVersion { tool_request with Versions := [] } s else (s, false)).1.binaries =
        s.binaries := by
      split_ifs <;> rfl
    rw [hb, hfind]
    simp [hadmin]

open Inventory in
/-- C11 fails as stated: without the upgrade option `AddTool` replaces the
record of the name whatever it holds. The store has the record X with
`admin_override = true`; after `AddTool` for X with no option and no
`admin_override` the record X has `admin_override = false`. -/
theorem addTool_without_upgrade_replaces_admin :
    (AddTool (plainEnv (fun _ => "")) 1 {} { Name := "X" } {}
        { binaries := { Tools := [{ Name := "X", AdminOverride := true }] } }).map
      (fun r => (r.1.binaries.Tools.map (fun tool => (tool.Name, tool.AdminOverride)), r.2)) =
    some ([("X", false)], none) := by
  rfl

open Inventory in
/-- C20: `RemoveTool(name)` leaves the inventory list equal to the previous
list with every record named `name` removed and the other records kept in
their order (and the version as it was), and it returns the result of
persisting the inventory: the error of `GetDB` if there is one, else the
result of `SetSubject`. -/
theorem removeTool_filters_and_reports (env : Env) (tool_name : String) (s : InventoryService) :
    (RemoveTool env tool_name s).1.binaries.Tools =
      s.binaries.Tools.filter (fun item => decide (item.Name ≠ tool_name)) ∧
    (RemoveTool env tool_name s).1.binaries.Version = s.binaries.Version ∧
    (RemoveTool env tool_name s).2 =
      (match env.getDB s.tick with
       | some err => some err
       | none => env.setSubject s.tick) := by
  have hf : (fun item : Tool => item.Name != tool_name) =
      (fun item => decide (item.Name ≠ tool_name)) := by
    funext item
    cases h : decide (item.Name = tool_name) <;> simp_all [bne]
  unfold RemoveTool
  dsimp only
  rw [← hf]
  split <;> exact ⟨rfl, rfl, rfl⟩

open Uploads in
/-- C16: when the non-hole ranges sum to zero length, `maybeUploadSparse` adds
exactly one packet to the responder, with `eof = true`, no data,
`size = real_size`, `stored_size = 0` and the index present only if some range
is a hole; the reader is left in its state (it is neither sought nor read),
and the result has `size = real_size` and the SHA-256 and MD5 digests of the
empty byte string. -/
theorem maybeUploadSparse_placeholder {σ : Type} (dg : Digests) (rd : Reader σ)
    (rr : RangeReader σ) (filename : OSPath) (accessor : String)
    (store_as_name : Option OSPath) (mtime upload_id : Int) (w : World σ)
    (hrr : rd.asRangeReader = some rr)
    (hsum : sumNonSparse (rr.Ranges w.reader) = 0) :
    maybeUploadSparse dg rd filename accessor store_as_name mtime upload_id w =
      ({ w with
          Count := wrapInt64 (w.Count + 1),
          responses := w.responses ++
            [{ Pathspec := { Path := (store_as_name.getD filename).Path,
                             Components := (store_as_name.getD filename).Components,
                             Accessor := accessor },
               Size := toUint64 (maxEnd (rr.Ranges w.reader)),
               StoredSize := 0,
               IsSparse := (rr.Ranges w.reader).any (fun rng => rng.IsSparse),
               Index :=
                 if (rr.Ranges w.reader).any (fun rng => rng.IsSparse)
                 then some (scanRanges (rr.Ranges w.reader)).index else none,
               Mtime := mtime,
               Data := [],
               Eof := true,
               UploadNumber := upload_id }] },
       .ok { Path := filename.Path,
             StoredName := (store_as_name.getD filename).Path,
             Components := (store_as_name.getD filename).Components,
             Accessor := accessor,
             Size := toUint64 (maxEnd (rr.Ranges w.reader)),
             StoredSize := 0,
             Sha256 := dg.sha256hex [],
             Md5 := dg.md5hex [] }) := by
  have h0 : (scanRanges (rr.Ranges w.reader)).expected_size = 0 := by
    rw [scanRanges_expected_size, hsum]; rfl
  rw [maybeUploadSparse_zero dg rd rr filename accessor store_as_name mtime upload_id w hrr h0,
    scanRanges_real_size, scanRanges_is_sparse, packetIndex_eq]
  rfl

open Uploads in
/-- Witness of C16: a reader that reports a single hole of 8 bytes. -/
theorem maybeUploadSparse_placeholder_witness :
    sumNonSparse [⟨0, 8, true⟩] = 0 ∧
    maybeUploadSparse noDigests (fileReader [] false (some [⟨0, 8, true⟩]))
        ⟨"f", ["f"]⟩ "file" none 5 1 { reader := { pos := 3 } } =
      ({ reader := { pos := 3 },
         Count := 1,
         responses :=
           [{ Pathspec := { Path := "f", Components := ["f"], Accessor := "file" },
              Size := 8, StoredSize := 0, IsSparse := true,
              Index := some [⟨0, 0, 0, 8⟩], Mtime := 5, Eof := true, UploadNumber := 1 }] },
       .ok { Path := "f", StoredName := "f", Components := ["f"], Accessor := "file",
             Size := 8, Sha256 := "", Md5 := "" }) :=
  ⟨rfl, maybeUploadSparse_placeholder noDigests (fileReader [] false (some [⟨0, 8, true⟩]))
    { Ranges := fun _ => [⟨0, 8, true⟩],
      Seek := fun s off => ({ s with pos := off.toNat }, none) }
    ⟨"f", ["f"]⟩ "file" none 5 1 { reader := { pos := 3 } } rfl rfl⟩

open Uploads in
/-- C15: for ranges of a file (non-negative offsets and lengths, below 2^63)
whose non-hole lengths sum to more than zero, the final packet of a successful
sparse upload has `eof = true` and carries `size` = the maximum of
`offset + length` over all ranges, holes included, `stored_size` = the sum of
the lengths of the non-hole ranges, `is_sparse = true` exactly when at least
one range is a hole, and the index exactly when `is_sparse` is true. -/
theorem maybeUploadSparse_eof_packet {σ : Type} (dg : Digests) (rd : Reader σ)
    (rr : RangeReader σ) (filename : OSPath) (accessor : String)
    (store_as_name : Option OSPath) (mtime upload_id : Int) (w w' : World σ)
    (result : UploadResponse)
    (hrr : rd.asRangeReader = some rr)
    (hfile : FileRanges (rr.Ranges w.reader))
    (hpos : 0 < sumNonSparse (rr.Ranges w.reader))
    (hok : maybeUploadSparse dg rd filename accessor store_as_name mtime upload_id w =
      (w', .ok result)) :
    ∃ pre last, w'.responses = w.responses ++ pre ++ [last] ∧
      (∀ p ∈ pre, p.Eof = false) ∧ last.Eof = true ∧
      (∀ rng ∈ rr.Ranges w.reader, rng.Offset + rng.Length ≤ (last.Size : Int)) ∧
      (∃ rng ∈ rr.Ranges w.reader, rng.Offset + rng.Length = (last.Size : Int)) ∧
      (last.StoredSize : Int) = sumNonSparse (rr.Ranges w.reader) ∧
      (last.IsSparse = true ↔ ∃ rng ∈ rr.Ranges w.reader, rng.IsSparse = true) ∧
      last.Index =
        (if last.IsSparse then some (scanRanges (rr.Ranges w.reader)).index else none) := by
  have hexp := scanRanges_expected_exact _ hfile
  have h0 : (scanRanges (rr.Ranges w.reader)).expected_size ≠ 0 := by rw [hexp]; omega
  obtain ⟨w1, v1, hs, hw', -, -, -, -⟩ := maybeUploadSparse_sent dg rd rr filename accessor
    store_as_name mtime upload_id w w' result hrr h0 hok
  obtain ⟨added, h1, h2, -, -, -⟩ := sendRanges_sum rd rr _ _ _ _ w1 v1 hs hfile.lengths
    (le_refl _) (by show (0 : Int) + _ < _; have := hfile.2; omega)
  obtain ⟨hmax1, hmax2, hmax3⟩ := maxEnd_spec _ hfile.ends
  have hne : rr.Ranges w.reader ≠ [] := by
    intro he
    rw [he] at hpos
    simp [sumNonSparse] at hpos
  have hsize : ((toUint64 (scanRanges (rr.Ranges w.reader)).real_size : Nat) : Int) =
      maxEnd (rr.Ranges w.reader) := by
    rw [scanRanges_real_size]
    exact toUint64_cast _ (maxEnd_nonneg _) (by omega)
  refine ⟨added, sparseEofPacket (store_as_name.getD filename) accessor upload_id
    (scanRanges (rr.Ranges w.reader)) v1.write_offset, ?_, fun p hp => (h2 p hp).1, rfl,
    ?_, ?_, ?_, ?_, ?_⟩
  · rw [hw']
    show w1.responses ++ [_] = _
    rw [h1]
  · intro rng hr
    show _ ≤ ((toUint64 (scanRanges (rr.Ranges w.reader)).real_size : Nat) : Int)
    rw [hsize]
    exact hmax1 rng hr
  · obtain ⟨rng, hr, he⟩ := hmax3 hne
    exact ⟨rng, hr, by
      show _ = ((toUint64 (scanRanges (rr.Ranges w.reader)).real_size : Nat) : Int)
      rw [hsize]; exact he⟩
  · show ((toUint64 (scanRanges (rr.Ranges w.reader)).expected_size : Nat) : Int) = _
    rw [hexp]
    exact toUint64_cast _ (by omega) (by have := hfile.2; omega)
  · show (scanRanges (rr.Ranges w.reader)).is_sparse = true ↔ _
    rw [scanRanges_is_sparse]
    simp [List.any_eq_true]
  · show packetIndex (scanRanges (rr.Ranges w.reader)) =
      if (scanRanges (rr.Ranges w.reader)).is_sparse = true then _ else _
    unfold packetIndex
    cases (scanRanges (rr.Ranges w.reader)).is_sparse <;> rfl

open Uploads in
/-- C13, amended: for ranges of a file whose non-hole lengths sum to more than
zero, in every successful sparse upload every packet carries `stored_size` =
`expected_size`, the sum of the lengths of the non-hole ranges; the sum of the
data lengths over all packets and the offset of the final packet both equal
the `stored_size` of the result (`write_offset` at the end), which is at most
`expected_size`, and equals `expected_size` when no read of a non-hole range
returned zero bytes or `io.EOF` before the range was read to its length. -/
theorem sparse_upload_stored_size {σ : Type} (dg : Digests) (rd : Reader σ)
    (rr : RangeReader σ) (filename : OSPath) (accessor : String)
    (store_as_name : Option OSPath) (mtime upload_id : Int) (w w' : World σ)
    (result : UploadResponse)
    (hrr : rd.asRangeReader = some rr)
    (hfile : FileRanges (rr.Ranges w.reader))
    (hpos : 0 < sumNonSparse (rr.Ranges w.reader))
    (hok : maybeUploadSparse dg rd filename accessor store_as_name mtime upload_id w =
      (w', .ok result)) :
    ∃ pre last, w'.responses = w.responses ++ pre ++ [last] ∧
      (∀ p ∈ pre, p.Eof = false) ∧ last.Eof = true ∧ last.Data = [] ∧
      (∀ p ∈ pre ++ [last], (p.StoredSize : Int) = sumNonSparse (rr.Ranges w.reader)) ∧
      dataLength (pre ++ [last]) = result.StoredSize ∧
      last.Offset = result.StoredSize ∧
      (result.StoredSize : Int) ≤ sumNonSparse (rr.Ranges w.reader) ∧
      (uploadCutShort rd rr filename accessor store_as_name mtime upload_id w = false →
        (result.StoredSize : Int) = sumNonSparse (rr.Ranges w.reader)) := by
  have hexp := scanRanges_expected_exact _ hfile
  have h0 : (scanRanges (rr.Ranges w.reader)).expected_size ≠ 0 := by rw [hexp]; omega
  obtain ⟨w1, v1, hs, hw', -, hst, -, -⟩ := maybeUploadSparse_sent dg rd rr filename accessor
    store_as_name mtime upload_id w w' result hrr h0 hok
  obtain ⟨added, h1, h2, h3, h4, h5⟩ := sendRanges_sum rd rr _ _ _ _ w1 v1 hs hfile.lengths
    (le_refl _) (by show (0 : Int) + _ < _; have := hfile.2; omega)
  have hsum := hfile.2
  have hwo : v1.write_offset = (dataLength added : Int) := by
    rw [h3]; show (0 : Int) + _ = _; omega
  have hres : result.StoredSize = dataLength added := by
    rw [hst, hwo]
    exact toUint64_natCast _ (by omega)
  have hstored : ((toUint64 (scanRanges (rr.Ranges w.reader)).expected_size : Nat) : Int) =
      sumNonSparse (rr.Ranges w.reader) := by
    rw [hexp]
    exact toUint64_cast _ (by omega) (by omega)
  refine ⟨added, sparseEofPacket (store_as_name.getD filename) accessor upload_id
    (scanRanges (rr.Ranges w.reader)) v1.write_offset, ?_, fun p hp => (h2 p hp).1, rfl, rfl,
    ?_, ?_, ?_, ?_, ?_⟩
  · rw [hw']
    show w1.responses ++ [_] = _
    rw [h1]
  · intro p hp
    rcases List.mem_append.1 hp with hp | hp
    · rw [(h2 p hp).2]
      exact hstored
    · simp only [List.mem_singleton] at hp
      subst hp
      exact hstored
  · rw [dataLength_append, hres]
    simp [dataLength, sparseEofPacket]
  · rw [hres]
    show toUint64 v1.write_offset = _
    rw [hwo]
    exact toUint64_natCast _ (by omega)
  · rw [hres]; exact h4
  · intro hcut
    rw [hres]
    exact h5 hcut

open Uploads in
/-- Witness of C15: the upload of a file of 203 bytes with the ranges
(0, 4, data), (100, 2, hole), (200, 3, data); the final packet carries
`size = 203`, `stored_size = 7`, `is_sparse = true` and the index. -/
theorem maybeUploadSparse_eof_packet_witness :
    FileRanges exampleRanges ∧ 0 < sumNonSparse exampleRanges ∧
    maybeUploadSparse noDigests (fileReader exampleContent false (some exampleRanges))
        ⟨"f", ["f"]⟩ "file" none 0 0 { reader := {} } =
      (exampleWorld, .ok { Path := "f", StoredName := "f", Components := ["f"],
                           Accessor := "file", Size := 203, StoredSize := 7 }) ∧
    ∃ pre last, exampleWorld.responses = [] ++ pre ++ [last] ∧
      (∀ p ∈ pre, p.Eof = false) ∧ last.Eof = true ∧
      (∀ rng ∈ exampleRanges, rng.Offset + rng.Length ≤ (last.Size : Int)) ∧
      (∃ rng ∈ exampleRanges, rng.Offset + rng.Length = (last.Size : Int)) ∧
      (last.StoredSize : Int) = sumNonSparse exampleRanges ∧
      (last.IsSparse = true ↔ ∃ rng ∈ exampleRanges, rng.IsSparse = true) ∧
      last.Index = (if last.IsSparse then some (scanRanges exampleRanges).index else none) :=
  ⟨⟨by decide, by decide⟩, by decide, rfl,
    maybeUploadSparse_eof_packet noDigests
      (fileReader exampleContent false (some exampleRanges))
      { Ranges := fun _ => exampleRanges,
        Seek := fun s off => ({ s with pos := off.toNat }, none) }
      ⟨"f", ["f"]⟩ "file" none 0 0 { reader := {} } exampleWorld
      { Path := "f", StoredName := "f", Components := ["f"], Accessor := "file",
        Size := 203, StoredSize := 7 }
      rfl ⟨by decide, by decide⟩ (by decide) rfl⟩

open Uploads in
/-- C13 fails as stated: the reader reports the range (0, 4, data) over a file
that holds two bytes. The second read returns zero bytes and `io.EOF`, which
ends the range; the upload succeeds, every packet carries `stored_size = 4`
(`expected_size`), and the packets carry 2 bytes, the offset of the final
packet and the `stored_size` of the result being 2. -/
theorem sparse_upload_short_range :
    (scanRanges [⟨0, 4, false⟩]).expected_size = 4 ∧
    ∃ w' result,
      maybeUploadSparse noDigests (fileReader [97, 98] false (some [⟨0, 4, false⟩]))
        ⟨"f", ["f"]⟩ "file" none 0 0 { reader := {} } = (w', .ok result) ∧
      w'.responses.map (fun p => (p.Data, p.Offset, p.StoredSize, p.Eof)) =
        [([97, 98], 0, 4, false), ([], 2, 4, true)] ∧
      dataLength w'.responses = 2 ∧ result.StoredSize = 2 :=
  ⟨by decide, _, _, rfl, rfl, rfl, rfl⟩

open Uploads in
/-- Witness of C13: the upload of the file of 203 bytes with the ranges
(0, 4, data), (100, 2, hole), (200, 3, data), in which no range is cut
short: the packets carry 7 bytes. -/
theorem sparse_upload_stored_size_witness :
    FileRanges exampleRanges ∧ 0 < sumNonSparse exampleRanges ∧
    maybeUploadSparse noDigests (fileReader exampleContent false (some exampleRanges))
        ⟨"f", ["f"]⟩ "file" none 0 0 { reader := {} } =
      (exampleWorld, .ok { Path := "f", StoredName := "f", Components := ["f"],
                           Accessor := "file", Size := 203, StoredSize := 7 }) ∧
    ∃ pre last, exampleWorld.responses = [] ++ pre ++ [last] ∧
      (∀ p ∈ pre, p.Eof = false) ∧ last.Eof = true ∧ last.Data = [] ∧
      (∀ p ∈ pre ++ [last], (p.StoredSize : Int) = sumNonSparse exampleRanges) ∧
      dataLength (pre ++ [last]) = 7 ∧
      last.Offset = 7 ∧
      ((7 : Nat) : Int) ≤ sumNonSparse exampleRanges ∧
      (uploadCutShort (fileReader exampleContent false (some exampleRanges))
          { Ranges := fun _ => exampleRanges,
            Seek := fun s off => ({ s with pos := off.toNat }, none) }
          ⟨"f", ["f"]⟩ "file" none 0 0 { reader := {} } = false →
        ((7 : Nat) : Int) = sumNonSparse exampleRanges) :=
  ⟨⟨by decide, by decide⟩, by decide, rfl,
    sparse_upload_stored_size noDigests
      (fileReader exampleContent false (some exampleRanges))
      { Ranges := fun _ => exampleRanges,
        Seek := fun s off => ({ s with pos := off.toNat }, none) }
      ⟨"f", ["f"]⟩ "file" none 0 0 { reader := {} } exampleWorld
      { Path := "f", StoredName := "f", Components := ["f"], Accessor := "file",
        Size := 203, StoredSize := 7 }
      rfl ⟨by decide, by decide⟩ (by decide) rfl⟩

open Inventory in
/-- C14, amended: when the readings of the clock up to the later call strictly
increase (and are nanoseconds since the epoch, not negative and below 2^63),
for every two `AddTool` calls on the same store that both return success and
both reach the inventory update (neither is skipped by the upgrade rule),
whatever `AddTool`, `RemoveTool` and `GetToolInfo` calls are made between
them, the inventory version after the later call is strictly greater than the
inventory version after the earlier call. -/
theorem addTool_version_increases (env : Env)
    (fuel1 : Nat) (config1 : Config) (request1 : Tool) (opts1 : ToolOptions)
    (s1 s1' : InventoryService) (between : List Op) (s2 : InventoryService)
    (fuel2 : Nat) (config2 : Config) (request2 : Tool) (opts2 : ToolOptions)
    (s2' : InventoryService)
    (hclock : ∀ a b : Nat, a < b → b < s2'.tick → env.now a < env.now b)
    (hrange : ∀ a : Nat, a < s2'.tick → 0 ≤ env.now a ∧ env.now a < 2 ^ 63)
    (h1 : AddTool env fuel1 config1 request1 opts1 s1 = some (s1', none))
    (hu1 : skippedByUpgrade (ProbeToolInfo env config1 request1.Name fuel1)
      request1 opts1 s1 = false)
    (hb : runOps env between s1' = some s2)
    (h2 : AddTool env fuel2 config2 request2 opts2 s2 = some (s2', none))
    (hu2 : skippedByUpgrade (ProbeToolInfo env config2 request2.Name fuel2)
      request2 opts2 s2 = false) :
    s1'.binaries.Version < s2'.binaries.Version := by
  obtain ⟨t1, _, ht1, hv1⟩ := AddTool_update_version env fuel1 config1 request1 opts1 s1 s1'
    h1 hu1
  obtain ⟨t2, ht2, ht2', hv2⟩ := AddTool_update_version env fuel2 config2 request2 opts2 s2
    s2' h2 hu2
  have hbt := runOps_tick env between s1' s2 hb
  have hlt := hclock t1 t2 (by omega) (by omega)
  have r1 := hrange t1 (by omega)
  have r2 := hrange t2 (by omega)
  have c1 := toUint64_cast (env.now t1) r1.1 (by omega)
  have c2 := toUint64_cast (env.now t2) r2.1 (by omega)
  rw [hv1, hv2]
  have : ((toUint64 (env.now t1) : Nat) : Int) < ((toUint64 (env.now t2) : Nat) : Int) := by
    rw [c1, c2]; exact hlt
  exact_mod_cast this

open Inventory in
/-- C14 fails as stated, for two reasons. With a clock that strictly increases,
an `AddTool` with the upgrade option for a tool whose record has a URL returns
success without touching the inventory: the version is 1 after both calls.
With a clock that stands still, two `AddTool` calls that both update the
inventory leave the same version 5. -/
theorem addTool_version_not_increasing :
    ((AddTool (plainEnv (fun _ => "")) 1 {} { Name := "X", Url := "u" } {} {}).bind
      (fun r1 => (AddTool (plainEnv (fun _ => "")) 1 {} { Name := "X", Url := "v" }
        { Upgrade := true } r1.1).map
        (fun r2 => (r1.2, r1.1.binaries.Version, r2.2, r2.1.binaries.Version)))) =
      some (none, 1, none, 1) ∧
    ((AddTool (pinnedClock (fun _ => "")) 1 {} { Name := "X" } {} {}).bind
      (fun r1 => (AddTool (pinnedClock (fun _ => "")) 1 {} { Name := "Y" } {} r1.1).map
        (fun r2 => (r1.2, r1.1.binaries.Version, r2.2, r2.1.binaries.Version)))) =
      some (none, 5, none, 5) :=
  ⟨rfl, rfl⟩

open Inventory in
/-- Witness of C14: the tool X is added at the reading 1 of the clock, then
removed, and the tool Y is added at the reading 3. -/
theorem addTool_version_increases_witness :
    (∀ a b : Nat, a < b → b < 3 → (plainEnv (fun _ => "")).now a <
      (plainEnv (fun _ => "")).now b) ∧
    (∀ a : Nat, a < 3 → 0 ≤ (plainEnv (fun _ => "")).now a ∧
      (plainEnv (fun _ => "")).now a < 2 ^ 63) ∧
    (1 : Nat) < 3 :=
  ⟨fun a b h _ => by show (a : Int) + 1 < (b : Int) + 1; omega,
   fun a h => by
    constructor
    · show (0 : Int) ≤ (a : Int) + 1; omega
    · show (a : Int) + 1 < 2 ^ 63; omega,
   addTool_version_increases (plainEnv (fun _ => ""))
    1 {} { Name := "X" } {} {}
    { binaries := { Tools := [{ Name := "X", FilestorePath := "/X" }], Version := 1 },
      tick := 1 }
    [.removeTool "X"]
    { binaries := { Tools := [], Version := 1 }, tick := 2 }
    1 {} { Name := "Y" } {}
    { binaries := { Tools := [{ Name := "Y", FilestorePath := "/Y" }], Version := 3 },
      tick := 3 }
    (fun a b (h : a < b) (_ : b < 3) => by show (a : Int) + 1 < (b : Int) + 1; omega)
    (fun a (h : a < 3) => by
      constructor
      · show (0 : Int) ≤ (a : Int) + 1; omega
      · show (a : Int) + 1 < 2 ^ 63; omega)
    rfl rfl rfl rfl rfl⟩

open Inventory in
/-- Witness of C18: the store holds the admin record X; the request for X asks
for an upgrade with a URL. -/
theorem addTool_upgrade_keeps_admin_record_witness :
    adminStore.binaries.Tools.find? (fun tool => tool.Name == "X") =
      some { Name := "X", AdminOverride := true } ∧
    AddTool (plainEnv (fun _ => "")) 1 {} { Name := "X", Url := "u" } { Upgrade := true }
      adminStore = some (adminStore, none) :=
  ⟨rfl, addTool_upgrade_keeps_admin_record (plainEnv (fun _ => "")) 0 {}
    { Name := "X", Url := "u" } adminStore { Name := "X", AdminOverride := true }
    rfl rfl rfl⟩

open Inventory in
/-- Witness of C11: the store holds the admin record X; the request for X is an
artifact definition that asks for an upgrade. -/
theorem addTool_upgrade_admin_sticky_witness :
    adminStore.binaries.Tools.find? (fun tool => tool.Name == "X") =
      some { Name := "X", AdminOverride := true } ∧
    ∃ s', AddTool (plainEnv (fun _ => "")) 1 {} { Name := "X", Url := "u" }
        { Upgrade := true, ArtifactDefinition := true } adminStore = some (s', none) ∧
      s'.binaries = adminStore.binaries ∧
      (s'.binaries.Tools.find? (fun tool => tool.Name == "X")).map
        (fun tool => tool.AdminOverride) = some true :=
  ⟨rfl, addTool_upgrade_admin_sticky (plainEnv (fun _ => "")) 0 {}
    { Name := "X", Url := "u" } { Upgrade := true, ArtifactDefinition := true } adminStore
    { Name := "X", AdminOverride := true } rfl rfl rfl rfl rfl⟩

open Inventory in
/-- C17: for an untracked tool with a non-empty url and no github_project,
when the GET returns status 200 with body B and the copy and the persistence
succeed, `GetToolInfo` returns the record with `hash = hex(sha256(B))` and with
`serve_url = url` when `serve_locally` is false, and
`serve_url = server_urls[0] + "public/" + filestore_path` when `serve_locally`
is true (and there is a server URL). -/
theorem getToolInfo_materializes (env : Env) (config_obj : Config) (name : String)
    (s : InventoryService) (item : Tool)
    (hfind : s.binaries.Tools.find? (fun tool => tool.Name == name) = some item)
    (hhash : item.Hash = "") (hurl : item.Url ≠ "") (hgithub : item.GithubProject = "")
    (hclient : s.Client = true)
    (horg : (env.download s.tick config_obj item).orgConfig = none)
    (hfs : (env.download s.tick config_obj item).fileStore = true)
    (hwrite : (env.download s.tick config_obj item).writeFile = none)
    (htrunc : (env.download s.tick config_obj item).truncate = none)
    (hreq : (env.download s.tick config_obj item).newRequest = none)
    (hdo : (env.download s.tick config_obj item).doErr = none)
    (hstatus : (env.download s.tick config_obj item).StatusCode = 200)
    (hcopy : (env.download s.tick config_obj item).copy = none)
    (hlocal : item.ServeLocally = true → serverUrls config_obj ≠ [])
    (hdb : env.getDB s.tick = none) (hset : env.setSubject s.tick = none) :
    ∃ tool, (GetToolInfo env config_obj name s).2 = .ok tool ∧
      tool.Name = item.Name ∧
      tool.Hash = env.sha256hex (env.download s.tick config_obj item).body ∧
      (item.ServeLocally = false → tool.ServeUrl = item.Url) ∧
      (item.ServeLocally = true →
        tool.ServeUrl =
          (serverUrls config_obj).headD "" ++ "public/" ++ item.FilestorePath) := by
  have hloop := getToolLoop_find env s.Client s.tick config_obj name s.binaries.Tools item hfind
  have hh : (item.Hash == "") = true := by simp [hhash]
  rw [if_pos hh, hclient, materializeTool_ok env s.tick config_obj item hurl hgithub horg hfs
    hwrite htrunc hreq hdo hstatus hcopy hlocal hdb hset] at hloop
  unfold GetToolInfo
  dsimp only
  rw [hclient, hloop]
  refine ⟨_, rfl, rfl, rfl, ?_, ?_⟩
  · intro hl
    simp [addAllVersions, hl]
  · intro hl
    simp [addAllVersions, hl]

open Inventory in
/-- Witness of C17: the two scenarios of the spec. "autoruns" with the URL
http://x/a.exe is materialized from a download with the body "ABC", once
served from its URL and once served locally with the server URL https://s/. -/
theorem getToolInfo_materializes_witness :
    (∃ tool, (GetToolInfo (plainEnv (fun _ => "digest")) {} "autoruns" untrackedStore).2 =
        .ok tool ∧
      tool.Name = "autoruns" ∧
      tool.Hash = "digest" ∧
      ((false : Bool) = false → tool.ServeUrl = "http://x/a.exe") ∧
      ((false : Bool) = true → tool.ServeUrl = "" ++ "public/" ++ "")) ∧
    (∃ tool, (GetToolInfo (plainEnv (fun _ => "digest"))
        { Client := some { ServerUrls := ["https://s/"] } } "autoruns" servedLocallyStore).2 =
        .ok tool ∧
      tool.Name = "autoruns" ∧
      tool.Hash = "digest" ∧
      ((true : Bool) = false → tool.ServeUrl = "http://x/a.exe") ∧
      ((true : Bool) = true → tool.ServeUrl = "https://s/" ++ "public/" ++ "/autoruns")) :=
  ⟨getToolInfo_materializes (plainEnv (fun _ => "digest")) {} "autoruns" untrackedStore
    { Name := "autoruns", Url := "http://x/a.exe" }
    rfl rfl (by decide) rfl rfl rfl rfl rfl rfl rfl rfl rfl rfl (by decide) rfl rfl,
   getToolInfo_materializes (plainEnv (fun _ => "digest"))
    { Client := some { ServerUrls := ["https://s/"] } } "autoruns" servedLocallyStore
    { Name := "autoruns", Url := "http://x/a.exe", ServeLocally := true,
      FilestorePath := "/autoruns", ServeUrl := "https://s/public//autoruns" }
    rfl rfl (by decide) rfl rfl rfl rfl rfl rfl rfl rfl rfl rfl (by decide) rfl rfl⟩

open Inventory in
/-- C12, amended: in every inventory state reachable from an empty store
through `RemoveTool` and `GetToolInfo` calls and through `AddTool` calls (the
caller's, and those that ingest the variants a parent returns) whose request
has an empty hash or a non-empty serve_url, every tool record whose hash is
non-empty has a non-empty serve_url. -/
theorem tracked_tools_have_serve_url (env : Env) (ops : List Op) (s0 s : InventoryService)
    (h0 : s0.binaries.Tools = [])
    (hops : ∀ op ∈ ops, opServable op)
    (hparent : ∀ t name tool, env.parentProbe t name = .ok tool →
      ∀ v ∈ tool.Versions, v.Hash = "" ∨ v.ServeUrl ≠ "")
    (h : runOps env ops s0 = some s) :
    ∀ tool ∈ s.binaries.Tools, tool.Hash ≠ "" → tool.ServeUrl ≠ "" := by
  have hs : AllServable s := by
    refine runOps_servable env hparent ops s0 s hops ?_ h
    intro x hx
    rw [h0] at hx
    simp at hx
  exact fun tool ht => (hs tool ht).1

open Inventory in
/-- C12 fails as stated: `AddTool` stores the hash of the request as it is. From
the empty store, `AddTool` for a request with a hash and no serve_url leaves a
record with a non-empty hash and an empty serve_url. -/
theorem addTool_stores_hash_without_serve_url :
    (runOps (plainEnv (fun _ => "")) [.addTool 1 {} { Name := "x", Hash := "abc" } {}] {}).map
      (fun s => s.binaries.Tools.map (fun tool => (tool.Name, tool.Hash, tool.ServeUrl))) =
    some [("x", "abc", "")] :=
  rfl

open Inventory in
/-- Witness of C12: "autoruns" is added with a URL and materialized by
`GetToolInfo`; its record then has a hash and the URL as serve_url. -/
theorem tracked_tools_have_serve_url_witness :
    ({} : InventoryService).binaries.Tools = [] ∧
    (∀ op ∈ [Op.addTool 1 {} { Name := "autoruns", Url := "http://x/a.exe" } {},
              Op.getToolInfo {} "autoruns"], opServable op) ∧
    ∀ tool ∈ [({ Name := "autoruns", Url := "http://x/a.exe", Filename := "a.exe",
                 FilestorePath := "/autoruns", Hash := "digest",
                 ServeUrl := "http://x/a.exe" } : Tool)],
      tool.Hash ≠ "" → tool.ServeUrl ≠ "" :=
  ⟨rfl,
   fun op hop => by
    simp only [List.mem_cons, List.mem_singleton, List.not_mem_nil, or_false] at hop
    rcases hop with rfl | rfl <;> simp [opServable],
   tracked_tools_have_serve_url (plainEnv (fun _ => "digest"))
    [Op.addTool 1 {} { Name := "autoruns", Url := "http://x/a.exe" } {},
     Op.getToolInfo {} "autoruns"]
    {}
    { binaries :=
        { Tools := [{ Name := "autoruns", Url := "http://x/a.exe",
                      Filename := "a.exe", FilestorePath := "/autoruns",
                      Hash := "digest", ServeUrl := "http://x/a.exe" }],
          Version := 1 },
      tick := 2 }
    rfl
    (fun op hop => by
      simp only [List.mem_cons, List.mem_singleton, List.not_mem_nil, or_false] at hop
      rcases hop with rfl | rfl <;> simp [opServable])
    (fun t name tool h => by cases h)
    rfl⟩

open Inventory in
/-- C19: for a child store with no tool named n and a parent whose
`ProbeToolInfo(n)` succeeds with a non-empty list of variants (the variants a
version map holds for n: named n, one per declaring artifact) whose ingestion
succeeds, `child.ProbeToolInfo(n)` succeeds, afterwards the child inventory
contains a record named n and the child's version map entry for n contains
every parent variant, and a second `child.ProbeToolInfo(n)` returns the same
record from the child inventory whatever the parent would answer, and leaves
the child as it is. -/
theorem probeToolInfo_delegates (env : Env) (config_obj : Config) (name : String)
    (fuel : Nat) (s : InventoryService) (ptool : Tool)
    (hchild : s.binaries.Tools.find? (fun tool => tool.Name == name) = none)
    (hparent : s.parent = true)
    (hprobe : env.parentProbe s.tick name = .ok ptool)
    (hne : ptool.Versions ≠ [])
    (hnames : ∀ v ∈ ptool.Versions, v.Name = name)
    (hart : (ptool.Versions.map (fun v => v.Artifact)).Nodup)
    (hing : ∀ v ∈ ptool.Versions, ingestible config_obj v = true) :
    ∃ s' tool, ProbeToolInfo env config_obj name (fuel + 2) s = some (s', .ok tool) ∧
      tool.Name = name ∧
      (∃ item ∈ s'.binaries.Tools, item.Name = name) ∧
      (∀ v ∈ ptool.Versions, ({ toToolDef := v } : Tool) ∈ s'.versions name) ∧
      (∀ v ∈ ptool.Versions, v ∈ tool.Versions) ∧
      (∀ (env2 : Env) (fuel2 : Nat),
        ProbeToolInfo env2 config_obj name (fuel2 + 1) s' = some (s', .ok tool)) := by
  obtain ⟨s1, e1, _, _, n1, v1, _⟩ := ingest_spec env config_obj name (fuel + 1)
    ptool.Versions { s with tick := s.tick + 1 } hnames hing hart
  obtain ⟨item, hf, hmem, hname⟩ := find_of_name_mem name s1.binaries.Tools (n1 hne)
  refine ⟨s1, addAllVersions s1 item, ?_, hname, ⟨item, hmem, hname⟩, v1, ?_, ?_⟩
  · rw [ProbeToolInfo]
    simp only [hchild]
    rw [if_pos hparent]
    simp only [hprobe]
    rw [e1]
    exact ProbeToolInfo_local env config_obj name fuel s1 item hf
  · intro v hv
    have := v1 v hv
    simp only [addAllVersions, hname]
    exact List.mem_map.2 ⟨_, this, rfl⟩
  · intro env2 fuel2
    exact ProbeToolInfo_local env2 config_obj name fuel2 s1 item hf

open Inventory in
/-- Witness of C19: the scenario of the spec. The child store has no
"mimikatz", the parent returns it with two variants. -/
theorem probeToolInfo_delegates_witness :
    ∃ s' tool, ProbeToolInfo (parentWithMimikatz (fun _ => "digest")) {} "mimikatz" 2
        childStore = some (s', .ok tool) ∧
      tool.Name = "mimikatz" ∧
      (∃ item ∈ s'.binaries.Tools, item.Name = "mimikatz") ∧
      (∀ v ∈ mimikatzOfParent.Versions, ({ toToolDef := v } : Tool) ∈ s'.versions "mimikatz") ∧
      (∀ v ∈ mimikatzOfParent.Versions, v ∈ tool.Versions) ∧
      (∀ (env2 : Env) (fuel2 : Nat),
        ProbeToolInfo env2 {} "mimikatz" (fuel2 + 1) s' = some (s', .ok tool)) :=
  probeToolInfo_delegates (parentWithMimikatz (fun _ => "digest")) {} "mimikatz" 0
    childStore mimikatzOfParent rfl rfl rfl (by decide) (by decide) (by decide) (by decide)

open Inventory in
/-- C21: for every `AddTool` call that reaches the inventory update (its call
of `ProbeToolInfo` under the upgrade option returns, it is not skipped by the
upgrade rule, and it is not rejected for missing server URLs), with a parent
that answers with variants of the name it is asked for, the call returns
success whatever the datastore does, and the inventory list afterwards differs
from the list before only at the name of the request: without a record of the
name the new record is appended at the end, otherwise it takes the place of
the record of the name, and the records before and after it stay. -/
theorem addTool_replaces_or_appends (env : Env) (fuel : Nat) (config_obj : Config)
    (tool_request : Tool) (opts : ToolOptions) (s : InventoryService)
    (hparent : ∀ t name tool, env.parentProbe t name = .ok tool →
      ∀ v ∈ tool.Versions, v.Name = name)
    (hret : opts.Upgrade = true →
      (ProbeToolInfo env config_obj tool_request.Name fuel
        (probedStore tool_request opts s)).isSome = true)
    (hskip : skippedByUpgrade (ProbeToolInfo env config_obj tool_request.Name fuel)
      tool_request opts s = false)
    (hurls : rejectedForUrls config_obj tool_request = false) :
    ∃ s', AddTool env fuel config_obj tool_request opts s = some (s', none) ∧
      (storedRecord env config_obj tool_request opts).Name = tool_request.Name ∧
      (((∀ x ∈ s.binaries.Tools, x.Name ≠ tool_request.Name) ∧
          s'.binaries.Tools =
            s.binaries.Tools ++ [storedRecord env config_obj tool_request opts]) ∨
        ∃ pre old post, s.binaries.Tools = pre ++ old :: post ∧
          old.Name = tool_request.Name ∧ (∀ x ∈ pre, x.Name ≠ tool_request.Name) ∧
          s'.binaries.Tools =
            pre ++ storedRecord env config_obj tool_request opts :: post) := by
  have hname := storedRecord_name env config_obj tool_request opts
  have key : ∀ (aliased : Bool) (s1 : InventoryService),
      StoredAt tool_request.Name s.binaries.Tools s1.binaries.Tools →
      (addToolBody env config_obj { tool_request with Versions := [] } opts aliased s1).2 =
        none ∧
      (addToolBody env config_obj { tool_request with Versions := [] } opts aliased
        s1).1.binaries.Tools =
        storeTool (storedRecord env config_obj tool_request opts) s.binaries.Tools := by
    intro aliased s1 h1
    rcases addToolBody_tools env config_obj tool_request opts aliased s1 with
      ⟨h, _, _⟩ | ⟨_, h2, h3⟩
    · rw [hurls] at h; cases h
    · refine ⟨h3, ?_⟩
      rw [h2]
      rcases h1 with h1 | ⟨x, hx, h1⟩
      · rw [h1]
      · rw [h1, storeTool_storeTool x _ _ (hx.trans hname.symm)]
  have fin : ∀ s' : InventoryService,
      s'.binaries.Tools =
        storeTool (storedRecord env config_obj tool_request opts) s.binaries.Tools →
      ((∀ x ∈ s.binaries.Tools, x.Name ≠ tool_request.Name) ∧
          s'.binaries.Tools =
            s.binaries.Tools ++ [storedRecord env config_obj tool_request opts]) ∨
        ∃ pre old post, s.binaries.Tools = pre ++ old :: post ∧
          old.Name = tool_request.Name ∧ (∀ x ∈ pre, x.Name ≠ tool_request.Name) ∧
          s'.binaries.Tools =
            pre ++ storedRecord env config_obj tool_request opts :: post := by
    intro s' hs'
    rw [hs']
    have := storeTool_cases (storedRecord env config_obj tool_request opts) s.binaries.Tools
    rw [hname] at this
    exact this
  unfold skippedByUpgrade at hskip
  unfold probedStore at hret
  unfold AddTool AddToolWith
  dsimp only
  have hu : (if opts.ArtifactDefinition = true
      then UpdateVersion { tool_request with Versions := [] } s else (s, false)).1.binaries =
      s.binaries := by
    split_ifs <;> rfl
  generalize (if opts.ArtifactDefinition = true
      then UpdateVersion { tool_request with Versions := [] } s else (s, false)) = u
    at hret hskip hu ⊢
  by_cases hup : opts.Upgrade = true
  · rw [if_pos hup]
    rw [hup] at hskip
    simp only [Bool.true_and] at hskip
    have hsome := hret hup
    cases hp : ProbeToolInfo env config_obj tool_request.Name fuel u.1 with
    | none => rw [hp] at hsome; cases hsome
    | some pr =>
      obtain ⟨s1, r1⟩ := pr
      have h1 := ProbeToolInfo_storedAt env config_obj hparent fuel _ u.1 s1 r1 hp
      rw [hu] at h1
      rw [hp] at hskip
      obtain ⟨k1, k2⟩ := key (u.2 && !probeEvicts env config_obj tool_request fuel u.1) s1 h1
      cases r1 with
      | ok existing =>
        dsimp only at hskip ⊢
        rw [if_neg (by simp [hskip])]
        exact ⟨_, by rw [← k1], hname, fin _ k2⟩
      | error err =>
        dsimp only
        exact ⟨_, by rw [← k1], hname, fin _ k2⟩
  · rw [if_neg hup]
    obtain ⟨k1, k2⟩ := key u.2 u.1 (by rw [hu]; exact Or.inl rfl)
    exact ⟨_, by rw [← k1], hname, fin _ k2⟩

open Inventory in
/-- Witness of C21: with a datastore whose write fails, `AddTool` for x
returns success and the new record takes the place of the record x between a
and b. -/
theorem addTool_replaces_or_appends_witness :
    (AddTool (failingDatastore (fun _ => "")) 0 {} { Name := "x", Url := "http://x/new" } {}
        threeTools).map (fun r => (r.1.binaries.Tools.map (fun t => (t.Name, t.Url)), r.2)) =
      some ([("a", ""), ("x", "http://x/new"), ("b", "")], none) ∧
    ∃ s', AddTool (failingDatastore (fun _ => "")) 0 {} { Name := "x", Url := "http://x/new" } {}
        threeTools = some (s', none) ∧
      (storedRecord (failingDatastore (fun _ => "")) {} { Name := "x", Url := "http://x/new" }
        {}).Name = "x" ∧
      (((∀ x ∈ threeTools.binaries.Tools, x.Name ≠ "x") ∧
          s'.binaries.Tools = threeTools.binaries.Tools ++
            [storedRecord (failingDatastore (fun _ => "")) {}
              { Name := "x", Url := "http://x/new" } {}]) ∨
        ∃ pre old post, threeTools.binaries.Tools = pre ++ old :: post ∧
          old.Name = "x" ∧ (∀ x ∈ pre, x.Name ≠ "x") ∧
          s'.binaries.Tools = pre ++
            storedRecord (failingDatastore (fun _ => "")) {}
              { Name := "x", Url := "http://x/new" } {} :: post) :=
  ⟨rfl, addTool_replaces_or_appends (failingDatastore (fun _ => "")) 0 {}
    { Name := "x", Url := "http://x/new" } {} threeTools
    (fun _ _ _ h => by cases h) (fun h => by cases h) rfl rfl⟩

open Inventory in
/-- C22, at a failing input. The map `versions` holds the variant of X declared
by the artifact A. `AddTool` with the options `ArtifactDefinition` and
`AdminOverride` for the request X declared by A with the URL u, whose
`AdminOverride` is false, returns success, and the variant the map then holds
for A has `AdminOverride = true`: `UpdateVersion` stored the request itself in
the place of the old variant, and `AddTool` assigned the flag to the request
afterwards. The variant is not the request, and the definition kept for the
artifact is not the clean one. On a store without a variant of X the same call
appends a clone, which stays as the request was, with `AdminOverride = false`. -/
theorem addTool_marks_recorded_variant :
    oneVariant.versions "X" = [{ Name := "X", Artifact := "A" }] ∧
    (AddTool (plainEnv (fun _ => "")) 1 {} { Name := "X", Artifact := "A", Url := "u" }
        { ArtifactDefinition := true, AdminOverride := true } oneVariant).map
      (fun r => (r.1.versions "X", r.2)) =
      some ([{ Name := "X", Artifact := "A", Url := "u", AdminOverride := true }], none) ∧
    ({ Name := "X", Artifact := "A", Url := "u", AdminOverride := true } : Tool) ≠
      { Name := "X", Artifact := "A", Url := "u" } ∧
    (AddTool (plainEnv (fun _ => "")) 1 {} { Name := "X", Artifact := "A", Url := "u" }
        { ArtifactDefinition := true, AdminOverride := true } {}).map
      (fun r => (r.1.versions "X", r.2)) =
      some ([{ Name := "X", Artifact := "A", Url := "u" }], none) :=
  ⟨rfl, rfl, by decide, rfl⟩

open Inventory in
/-- What `AddTool` with the option `ArtifactDefinition` records when it gets no
variants from a parent and the option `AdminOverride` is not set: for every
map `versions` in which no two variants of a name share a declaring artifact,
the call returns, and afterwards the list for the name of the request contains
exactly one variant of the artifact of the request, the request with
`Versions` cleared; the variants declared by other artifacts are unchanged and
keep their order and their places, the list grows by one exactly when no
variant had the artifact before, and the lists of other names are unchanged. -/
theorem AddTool_records_request (env : Env) (fuel : Nat) (config_obj : Config)
    (tool_request : Tool) (opts : ToolOptions) (s : InventoryService)
    (hnd : ∀ name, ((s.versions name).map (fun x => x.Artifact)).Nodup)
    (hart : opts.ArtifactDefinition = true)
    (hadmin : opts.AdminOverride = false)
    (hing : ingestsVariants env tool_request.Name opts s = false) :
    ∃ s' r, AddTool env (fuel + 1) config_obj tool_request opts s = some (s', r) ∧
      (s'.versions tool_request.Name).filter (fun x => x.Artifact == tool_request.Artifact) =
        [{ tool_request with Versions := [] }] ∧
      (s'.versions tool_request.Name).filter (fun x => x.Artifact != tool_request.Artifact) =
        (s.versions tool_request.Name).filter (fun x => x.Artifact != tool_request.Artifact) ∧
      (s'.versions tool_request.Name).map (fun x => x.Artifact) =
        (s.versions tool_request.Name).map (fun x => x.Artifact) ++
          (if (s.versions tool_request.Name).any (fun x => x.Artifact == tool_request.Artifact)
           then [] else [tool_request.Artifact]) ∧
      (s'.versions tool_request.Name).length =
        (s.versions tool_request.Name).length +
          (if (s.versions tool_request.Name).any (fun x => x.Artifact == tool_request.Artifact)
           then 0 else 1) ∧
      (∀ name, name ≠ tool_request.Name → s'.versions name = s.versions name) := by
  obtain ⟨s', r, h, hother, hlist⟩ :=
    AddTool_variants env fuel config_obj tool_request opts s hart hing
  have hsv : ∀ known skipped,
      storedVariant tool_request opts known skipped = { tool_request with Versions := [] } := by
    intro known skipped
    unfold storedVariant
    rw [hadmin]
    rfl
  simp only [hsv] at hlist
  refine ⟨s', r, h, ?_⟩
  rcases hlist with ⟨h1, h2⟩ | ⟨pre, old, post, h1, h2, h3, h4⟩
  · obtain ⟨a1, a2, a3, a4, a5⟩ := variants_appended (s.versions tool_request.Name)
      { tool_request with Versions := [] } h1
    rw [h2]
    exact ⟨a1, a2, by rw [a3, a5]; rfl, by rw [a4, a5]; rfl, hother⟩
  · have hnd' := hnd tool_request.Name
    rw [h1] at hnd'
    obtain ⟨a1, a2, a3, a4, a5⟩ := variants_replaced pre post old
      { tool_request with Versions := [] } h2 hnd'
    rw [h4, h1]
    exact ⟨a1, a2, by rw [a3, a5]; simp, by rw [a4, a5]; rfl, hother⟩

open Inventory in
/-- What a child store records under the option `Upgrade`: `ProbeToolInfo` adds
the variants of the parent after `UpdateVersion` has recorded the request.
For the request "mimikatz" declared by "Windows.Mimikatz" with its own URL the
list goes from no variant to the two variants of the parent, and the variant
of "Windows.Mimikatz" is the one of the parent. When the request had taken the
place of a variant and a variant of the parent then takes the place of the
request, the later assignment to `AdminOverride` of the request does not show
in the map: with the variant of X declared by A in the map of the child and a
parent whose variant of X declared by A has no URL, `AddTool` for X declared
by A with the URL u and the options `Upgrade`, `ArtifactDefinition` and
`AdminOverride` leaves the variant of the parent in the map, and the marked
request in the inventory. -/
theorem addTool_ingests_parent_variants :
    (AddTool (parentWithMimikatz (fun _ => "")) 2 {}
        { Name := "mimikatz", Url := "http://y/m.zip", Artifact := "Windows.Mimikatz" }
        { Upgrade := true, ArtifactDefinition := true } childStore).map
      (fun r => ((r.1.versions "mimikatz").map (fun v => (v.Artifact, v.Url)), r.2)) =
      some ([("Windows.Mimikatz", "http://x/mimikatz.zip"),
             ("Linux.Mimikatz", "http://x/mimikatz.tgz")], none) ∧
    (AddTool (parentWithMimikatz (fun _ => "")) 2 {}
        { Name := "mimikatz", Url := "http://y/m.zip", Artifact := "Windows.Mimikatz",
          AdminOverride := true }
        { Upgrade := true, ArtifactDefinition := true, AdminOverride := true }
        childWithVariant).map
      (fun r => ((r.1.versions "mimikatz").map (fun v => (v.Artifact, v.Url, v.AdminOverride)),
        r.1.binaries.Tools.map (fun v => (v.Url, v.AdminOverride)), r.2)) =
      some ([("Windows.Mimikatz", "http://x/mimikatz.zip", false),
             ("Linux.Mimikatz", "http://x/mimikatz.tgz", false)],
            [("http://y/m.zip", true)], none) ∧
    (AddTool (parentWithBareVariant (fun _ => "")) 2 {}
        { Name := "X", Artifact := "A", Url := "u" }
        { Upgrade := true, ArtifactDefinition := true, AdminOverride := true }
        { oneVariant with parent := true }).map
      (fun r => (r.1.versions "X",
        r.1.binaries.Tools.map (fun v => (v.Name, v.Url, v.AdminOverride)), r.2)) =
      some ([{ Name := "X", Artifact := "A" }], [("X", "u", true)], none) :=
  ⟨rfl, rfl, rfl⟩

open Uploads in
/-- C23, at a failing input. The reader reports the ranges (0, 2, data),
(2, 2, data) of the file "abcd"; its second read fails. The sparse path has
sent "ab" at offset 0 when it gives up, and `Upload` goes on with the dense
loop, which counts its offsets from 0 again: the packets of the one upload are
"ab" at offset 0, "cd" at offset 0 and the end-of-file packet at offset 2. The
offset of "cd" is not the length of the data before it, and it overlaps
"ab". -/
theorem upload_offsets_restart_after_sparse_error (dg : Digests) :
    answeredFromCache ⟨"f", ["f"]⟩ none
      ({ reader := { failIn := some 1 } } : World FileState) = false ∧
    ∃ w' result,
      Upload dg (fileReader [97, 98, 99, 100] false (some [⟨0, 2, false⟩, ⟨2, 2, false⟩])) 10
        ⟨"f", ["f"]⟩ "file" none 4 0 0 0 0 { reader := { failIn := some 1 } } =
          some (w', .ok result) ∧
      w'.responses.map (fun p => (p.UploadNumber, p.Offset, p.Data, p.Eof)) =
        [(0, 0, [97, 98], false), (0, 0, [99, 100], false), (0, 2, [], true)] ∧
      tiledFrom 0 w'.responses = false :=
  ⟨rfl, _, _, rfl, rfl, rfl⟩

open Uploads in
/-- C24, at a failing input. The reader serves the last bytes of the file
together with `io.EOF`, as `io.Reader` allows. With the range (0, 3, data)
over the file "abc" the only read returns the three bytes and `io.EOF`: the
sparse upload succeeds, sends no data packet, and the hashers have seen no
byte. With a buffer of two bytes the first read returns "ab", which is sent,
and the second returns "c" and `io.EOF`: it is dropped, the packets carry "ab"
and the digests are those of "ab". -/
theorem sparse_upload_drops_bytes_read_with_eof (dg : Digests) :
    (fileReader [97, 98, 99] true (some [⟨0, 3, false⟩])).Read {} 3 =
      ({ pos := 3 }, [97, 98, 99], some .EOF) ∧
    (∃ w' result,
      maybeUploadSparse dg (fileReader [97, 98, 99] true (some [⟨0, 3, false⟩]))
        ⟨"f", ["f"]⟩ "file" none 0 0 { reader := {} } = (w', .ok result) ∧
      w'.reader.pos = 3 ∧
      w'.responses.map (fun p => (p.Data, p.Eof)) = [([], true)] ∧
      concatData w'.responses = [] ∧
      result.StoredSize = 0 ∧
      result.Sha256 = dg.sha256hex [] ∧ result.Md5 = dg.md5hex []) ∧
    (fileReader [97, 98, 99] true (some [⟨0, 3, false⟩])).Read {} 2 =
      ({ pos := 2 }, [97, 98], none) ∧
    (fileReader [97, 98, 99] true (some [⟨0, 3, false⟩])).Read { pos := 2 } 1 =
      ({ pos := 3 }, [99], some .EOF) ∧
    (∃ w' result,
      maybeUploadSparse dg (fileReader [97, 98, 99] true (some [⟨0, 3, false⟩]))
        ⟨"f", ["f"]⟩ "file" none 0 0 { reader := {}, BUFF_SIZE := 2 } = (w', .ok result) ∧
      w'.reader.pos = 3 ∧
      w'.responses.map (fun p => (p.Data, p.Eof)) = [([97, 98], false), ([], true)] ∧
      concatData w'.responses = [97, 98] ∧
      result.StoredSize = 2 ∧
      result.Sha256 = dg.sha256hex [97, 98] ∧ result.Md5 = dg.md5hex [97, 98]) :=
  ⟨rfl, ⟨_, _, rfl, rfl, rfl, rfl, rfl, rfl, rfl⟩, rfl, rfl,
    ⟨_, _, rfl, rfl, rfl, rfl, rfl, rfl, rfl⟩⟩
